/-
Verification of the bustub buffer-pool core: the LRU-K replacer
(src/buffer/lru_k_replacer.cpp, src/include/buffer/lru_k_replacer.h), the
extendible hash table (src/container/hash/extendible_hash_table.cpp) and the
buffer pool manager (src/buffer/buffer_pool_manager_instance.cpp), embedded
shallowly as executable Lean functions over explicit state records.

Machine integers (`size_t`, `frame_id_t`, `page_id_t`) are modelled as `Nat`
(respectively `Int` for signed page ids); the timestamps and counters involved
are monotone counters that never reach the 64-bit wrap in any behaviour
studied here.  `std::unordered_map` is modelled as an association list (its
iteration order is unspecified in C++; every selection result proved below is
order-independent on the states considered).  `std::shared_ptr<Bucket>`
aliasing is modelled with an arena of buckets addressed by index, as the
repository's own design notes describe as an equivalent representation.
C++ exceptions and assertion failures are modelled by `Option`: `none` means
the call aborted.
-/
import Mathlib

namespace LRUK

/-- `BUSTUB_TIMESTAMP_MAX`, the sentinel used for an infinite backward
k-distance, i.e. the largest `size_t` value. -/
def timestampMax : Nat := 2 ^ 64 - 1

/-- The per-frame record `LRUKReplacer::FrameInfo` from
src/include/buffer/lru_k_replacer.h: the `k` parameter, the evictable bit
(initially false) and the recorded access timestamps, oldest first. -/
structure FrameInfo where
  k : Nat
  evictable : Bool
  accessTimestamps : List Nat
  deriving Repr, DecidableEq

/-- `FrameInfo(k)` constructor: not evictable, no recorded accesses. -/
def FrameInfo.new (k : Nat) : FrameInfo :=
  { k := k, evictable := false, accessTimestamps := [] }

/-- `FrameInfo::RecordAccess`: push the timestamp at the back and drop the
oldest entry when the window exceeds `k`. -/
def FrameInfo.recordAccess (fi : FrameInfo) (timestamp : Nat) : FrameInfo :=
  let ts := fi.accessTimestamps ++ [timestamp]
  { fi with accessTimestamps := if fi.k < ts.length then ts.drop 1 else ts }

/-- The `access_info_t` pair computed by `FrameInfo::GetAccessInfo`. -/
structure AccessInfo where
  kDistance : Nat
  earliestAccessTimestamp : Nat
  deriving Repr, DecidableEq

/-- `FrameInfo::GetAccessInfo`: the earliest recorded timestamp, and the
k-distance key, which is `BUSTUB_TIMESTAMP_MAX` when fewer than `k` accesses
are recorded and `access_timestamps_[k-1] - access_timestamps_[0]` otherwise. -/
def FrameInfo.getAccessInfo (fi : FrameInfo) : AccessInfo :=
  { earliestAccessTimestamp := fi.accessTimestamps.headD 0
    kDistance :=
      if fi.accessTimestamps.length < fi.k then timestampMax
      else fi.accessTimestamps.getD (fi.k - 1) 0 - fi.accessTimestamps.headD 0 }

/-- The `LRUKReplacer` state: logical clock, evictable count, capacity, `k`,
and the frame map (`std::unordered_map<frame_id_t, FrameInfo>`, modelled as an
association list). -/
structure LRUKReplacer where
  currentTimestamp : Nat
  currSize : Nat
  replacerSize : Nat
  k : Nat
  map : List (Nat × FrameInfo)
  deriving Repr, DecidableEq

/-- `LRUKReplacer(num_frames, k)` constructor. -/
def LRUKReplacer.new (numFrames k : Nat) : LRUKReplacer :=
  { currentTimestamp := 0, currSize := 0, replacerSize := numFrames, k := k, map := [] }

/-- `map_.count(f) / map_.at(f)` lookup on the association list. -/
def mapFind (m : List (Nat × FrameInfo)) (f : Nat) : Option FrameInfo :=
  (m.find? (fun p => p.1 = f)).map Prod.snd

/-- In-place update of the entry for frame `f` (`map_.at(f)` mutation). -/
def mapUpdate (m : List (Nat × FrameInfo)) (f : Nat) (g : FrameInfo → FrameInfo) :
    List (Nat × FrameInfo) :=
  m.map (fun p => if p.1 = f then (p.1, g p.2) else p)

/-- `LRUKReplacer::CheckFrameId`: `frame_id >= 0 && frame_id <= replacer_size_`
(the non-negativity is implicit in `Nat`). -/
def LRUKReplacer.checkFrameId (r : LRUKReplacer) (f : Nat) : Bool :=
  f ≤ r.replacerSize

/-- `LRUKReplacer::Evict`.  A first scan picks the first evictable entry as
the provisional victim; a second scan replaces the victim by any evictable
entry with a strictly larger `k_distance_`, or an equal `k_distance_` and a
strictly smaller `earliest_access_timestamp_`.  On success the victim's entry
is erased and `curr_size_` decremented. -/
def LRUKReplacer.evict (r : LRUKReplacer) : Option (Nat × LRUKReplacer) :=
  match r.map.find? (fun p => p.2.evictable) with
  | none => none
  | some first =>
    let pick := r.map.foldl
      (fun (acc : Nat × AccessInfo) p =>
        if !p.2.evictable then acc
        else
          let cur := p.2.getAccessInfo
          if cur.kDistance < acc.2.kDistance ∨
             (cur.kDistance = acc.2.kDistance ∧
              acc.2.earliestAccessTimestamp ≤ cur.earliestAccessTimestamp) then acc
          else (p.1, cur))
      (first.1, first.2.getAccessInfo)
    some (pick.1,
      { r with map := r.map.filter (fun p => p.1 ≠ pick.1), currSize := r.currSize - 1 })

/-- `LRUKReplacer::RecordAccess`: validate the frame id (`none` models the
`BUSTUB_ASSERT` abort), create the entry if absent, append the current logical
timestamp, and advance the clock. -/
def LRUKReplacer.recordAccess (r : LRUKReplacer) (f : Nat) : Option LRUKReplacer :=
  if r.checkFrameId f then
    let m := if (mapFind r.map f).isSome then r.map else r.map ++ [(f, FrameInfo.new r.k)]
    some { r with
      map := mapUpdate m f (fun fi => fi.recordAccess r.currentTimestamp)
      currentTimestamp := r.currentTimestamp + 1 }
  else none

/-- `LRUKReplacer::SetEvictable`: validate the id, fail (`none`) when the frame
is untracked, flip the bit and adjust `curr_size_` only when the bit changes. -/
def LRUKReplacer.setEvictable (r : LRUKReplacer) (f : Nat) (b : Bool) : Option LRUKReplacer :=
  if r.checkFrameId f then
    match mapFind r.map f with
    | none => none
    | some fi =>
      if b then
        if !fi.evictable then
          some { r with currSize := r.currSize + 1
                        map := mapUpdate r.map f (fun fi => { fi with evictable := true }) }
        else some r
      else
        if fi.evictable then
          some { r with currSize := r.currSize - 1
                        map := mapUpdate r.map f (fun fi => { fi with evictable := false }) }
        else some r
  else none

/-- `LRUKReplacer::Remove`: validate the id, return silently when untracked,
fail (`none`) on a tracked non-evictable frame, otherwise erase the entry and
decrement `curr_size_`. -/
def LRUKReplacer.remove (r : LRUKReplacer) (f : Nat) : Option LRUKReplacer :=
  if r.checkFrameId f then
    match mapFind r.map f with
    | none => some r
    | some fi =>
      if fi.evictable then
        some { r with map := r.map.filter (fun p => p.1 ≠ f), currSize := r.currSize - 1 }
      else none
  else none

/-- `LRUKReplacer::Size`. -/
def LRUKReplacer.size (r : LRUKReplacer) : Nat := r.currSize

/-- Run a list of `RecordAccess` calls in order. -/
def runAccesses (r : LRUKReplacer) : List Nat → Option LRUKReplacer
  | [] => some r
  | f :: rest => (r.recordAccess f).bind (fun r' => runAccesses r' rest)

/-- The kth-most-recent access timestamp of frame `f` (the head of the stored
window once it holds `k` entries); the spec's backward k-distance of `f` at
time `now` is `now` minus this value. -/
def kthMostRecent (r : LRUKReplacer) (f : Nat) : Option Nat :=
  (mapFind r.map f).map (fun fi => fi.accessTimestamps.headD 0)

/-- A concrete replacer state with `k = 2`: frame 0 accessed at times 0 and 1,
frame 1 accessed at times 2 and 9, frame 2 accessed at times 3,4,5,6,7,8;
frames 0 and 1 evictable. -/
def demoReplacer : Option LRUKReplacer :=
  (runAccesses (LRUKReplacer.new 7 2) [0, 0, 1, 2, 2, 2, 2, 2, 2, 1]).bind
    (fun r => (r.setEvictable 0 true).bind (fun r' => r'.setEvictable 1 true))

end LRUK

namespace EHT

/-- A bucket of the extendible hash table: capacity `size_`, local depth
`depth_` and the item list `list_` (`std::list<std::pair<K, V>>`). -/
structure Bucket (K V : Type) where
  size : Nat
  depth : Nat
  list : List (K × V)
  deriving Repr, DecidableEq

/-- Modelled from the spec: `Bucket::IsFull` is declared in the header
`extendible_hash_table.h`, which is not part of the sources; per the spec a
bucket holds at most `c = capacity` items and `insert` appends only "if the
bucket has room", so a bucket is full exactly when it holds `size` items. -/
def Bucket.isFull (b : Bucket K V) : Bool :=
  b.size ≤ b.list.length

/-- `Bucket::Find`: linear scan for the first entry with the given key. -/
def Bucket.find [DecidableEq K] (b : Bucket K V) (key : K) : Option V :=
  (b.list.find? (fun p => p.1 = key)).map Prod.snd

/-- `Bucket::Remove`: locate the first pair with the given key and remove all
elements equal to that pair (`std::list::remove`); report whether a pair was
found. -/
def Bucket.remove [DecidableEq K] [DecidableEq V] (b : Bucket K V) (key : K) :
    Bool × Bucket K V :=
  match b.list.find? (fun p => p.1 = key) with
  | none => (false, b)
  | some p => (true, { b with list := b.list.filter (fun q => q ≠ p) })

/-- Overwrite the value of the first pair carrying `key` (the loop body of
`Bucket::Insert` on a key match). -/
def updateFirst [DecidableEq K] : List (K × V) → K → V → List (K × V)
  | [], _, _ => []
  | p :: rest, key, value =>
    if p.1 = key then (p.1, value) :: rest else p :: updateFirst rest key value

/-- `Bucket::Insert`: overwrite on a key match (even when full), fail on a
full bucket (`none` models `return false`), otherwise append. -/
def Bucket.insert [DecidableEq K] (b : Bucket K V) (key : K) (value : V) :
    Option (Bucket K V) :=
  if (b.list.find? (fun p => p.1 = key)).isSome then
    some { b with list := updateFirst b.list key value }
  else if b.isFull then none
  else some { b with list := b.list ++ [(key, value)] }

/-- The `ExtendibleHashTable` state.  The C++ directory holds
`std::shared_ptr<Bucket>`; aliasing is modelled by an arena of buckets
(`arena`, new buckets appended at the back) with the directory `dir` holding
arena indices, the index-based representation the repository's design notes
declare equivalent. -/
structure Table (K V : Type) where
  globalDepth : Nat
  bucketSize : Nat
  numBuckets : Nat
  arena : List (Bucket K V)
  dir : List Nat
  deriving Repr, DecidableEq

/-- The `ExtendibleHashTable(bucket_size)` constructor: depth 0, one empty
bucket (of default local depth 0), `num_buckets_ = 1`. -/
def Table.new (K V : Type) (bucketSize : Nat) : Table K V :=
  { globalDepth := 0, bucketSize := bucketSize, numBuckets := 1
    arena := [{ size := bucketSize, depth := 0, list := [] }], dir := [0] }

/-- `ExtendibleHashTable::IndexOf`: `hash(key) & ((1 << global_depth_) - 1)`,
i.e. the hash modulo `2 ^ global_depth_`. -/
def Table.indexOf (t : Table K V) (hash : K → Nat) (key : K) : Nat :=
  hash key % 2 ^ t.globalDepth

/-- The bucket referenced by directory slot `i`. -/
def Table.bucketAt (t : Table K V) (i : Nat) : Bucket K V :=
  t.arena.getD (t.dir.getD i 0) { size := t.bucketSize, depth := 0, list := [] }

/-- `ExtendibleHashTable::Find`: scan the bucket at `IndexOf(key)`. -/
def Table.find [DecidableEq K] (t : Table K V) (hash : K → Nat) (key : K) : Option V :=
  (t.bucketAt (t.indexOf hash key)).find key

/-- `ExtendibleHashTable::Remove`: delegate to the bucket at `IndexOf(key)`. -/
def Table.remove [DecidableEq K] [DecidableEq V] (t : Table K V) (hash : K → Nat)
    (key : K) : Bool × Table K V :=
  let bid := t.dir.getD (t.indexOf hash key) 0
  let b := t.arena.getD bid { size := t.bucketSize, depth := 0, list := [] }
  let res := b.remove key
  (res.1, { t with arena := t.arena.set bid res.2 })

/-- `ExtendibleHashTable::GetNumBuckets`. -/
def Table.getNumBuckets (t : Table K V) : Nat := t.numBuckets

/-- One unfolding of `ExtendibleHashTable::InsertInternal`, parametrised by
the function `self` used for the recursive calls (the redistribution inserts
and the final retry).  On a failed bucket insert the full bucket is split:
two fresh buckets of local depth `depth + 1` are allocated; if the directory
is too shallow it is doubled (appending a copy of itself), `global_depth_`
incremented and the two slots `i` and `i + old_size` rewired, else every slot
whose low-`depth` bits match the target index is rewired according to bit
`depth`; then the old bucket's items are re-inserted and the original insert
retried.  `num_buckets_` is not touched, exactly as in the source. -/
def insertStep [DecidableEq K] (hash : K → Nat)
    (self : Table K V → K → V → Option (Table K V))
    (t : Table K V) (key : K) (value : V) : Option (Table K V) :=
  let i := t.indexOf hash key
  let bid := t.dir.getD i 0
  let b := t.arena.getD bid { size := t.bucketSize, depth := 0, list := [] }
  match b.insert key value with
  | some b' => some { t with arena := t.arena.set bid b' }
  | none =>
    let l := b.depth
    let bid0 := t.arena.length
    let bid1 := t.arena.length + 1
    let arena' := t.arena ++
      [{ size := t.bucketSize, depth := l + 1, list := [] },
       { size := t.bucketSize, depth := l + 1, list := [] }]
    let t1 : Table K V :=
      if t.globalDepth < l + 1 then
        { t with globalDepth := t.globalDepth + 1, arena := arena'
                 dir := ((t.dir ++ t.dir).set i bid0).set (i + t.dir.length) bid1 }
      else
        { t with arena := arena'
                 dir := (List.range t.dir.length).map (fun j =>
                   if j % 2 ^ l = i % 2 ^ l then (if j.testBit l then bid1 else bid0)
                   else t.dir.getD j 0) }
    match b.list.foldlM (fun st (p : K × V) => self st p.1 p.2) t1 with
    | none => none
    | some t2 => self t2 key value

/-- `ExtendibleHashTable::InsertInternal`, with fuel standing in for the
unbounded C++ recursion: `none` means the recursion did not come back within
`fuel` nested calls. -/
def insertInternal [DecidableEq K] (hash : K → Nat) :
    Nat → Table K V → K → V → Option (Table K V)
  | 0, _, _, _ => none
  | fuel + 1, t, key, value => insertStep hash (insertInternal hash fuel) t key value

/-- `ExtendibleHashTable::Insert` (the public entry point). -/
def Table.insert [DecidableEq K] (t : Table K V) (hash : K → Nat) (fuel : Nat)
    (key : K) (value : V) : Option (Table K V) :=
  insertInternal hash fuel t key value

/-- The directory/arena rewiring of the split path of `InsertInternal` (the
state `t1` reached after allocating `bucket0`/`bucket1` and rewiring the
directory, before the redistribution inserts): the bucket at `IndexOf(key)`
is replaced by two fresh buckets of one deeper local depth, doubling the
directory when it is too shallow. -/
def splitTable (hash : K → Nat) (t : Table K V) (key : K) : Table K V :=
  let i := t.indexOf hash key
  let bid := t.dir.getD i 0
  let b := t.arena.getD bid { size := t.bucketSize, depth := 0, list := [] }
  let l := b.depth
  let bid0 := t.arena.length
  let bid1 := t.arena.length + 1
  let arena' := t.arena ++
    [{ size := t.bucketSize, depth := l + 1, list := [] },
     { size := t.bucketSize, depth := l + 1, list := [] }]
  if t.globalDepth < l + 1 then
    { t with globalDepth := t.globalDepth + 1, arena := arena'
             dir := ((t.dir ++ t.dir).set i bid0).set (i + t.dir.length) bid1 }
  else
    { t with arena := arena'
             dir := (List.range t.dir.length).map (fun j =>
               if j % 2 ^ l = i % 2 ^ l then (if j.testBit l then bid1 else bid0)
               else t.dir.getD j 0) }

end EHT

namespace BPM

/-- `INVALID_PAGE_ID`.  Modelled from the spec: the constant lives in
`common/config.h`, outside the sources; the spec's data model has a signed
page identifier with a distinguished value `INVALID` denoting "none". -/
def invalidPageId : Int := -1

/-- A frame of the pool (the `Page` object held in `pages_`).  Modelled from
the spec: the `Page` class is an external collaborator; per the spec a frame
is a fixed-size byte buffer plus metadata `{page_id, pin_count, dirty}`, with
fresh frames zero-filled, holding `INVALID` and unpinned. -/
structure Page where
  data : List Nat
  pageId : Int
  pinCount : Nat
  isDirty : Bool
  deriving Repr, DecidableEq

/-- A fresh frame of `pageSize` zero bytes. -/
def Page.new (pageSize : Nat) : Page :=
  { data := List.replicate pageSize 0, pageId := invalidPageId, pinCount := 0, isDirty := false }

instance : Inhabited Page := ⟨Page.new 0⟩

/-- Modelled from the spec: the hash function `std::hash<page_id_t>` used by
the page table is outside the sources; page identifiers inserted by the pool
are the non-negative values of the `next_page_id_` counter, hashed to their
numeric value. -/
def pageIdHash (i : Int) : Nat := i.toNat

/-- The `BufferPoolManagerInstance` state.  The disk collaborator is modelled
from the spec (§6) as a write log, newest entry first; `read_page` returns the
newest write for the id, or a zero page from the stub disk. -/
structure BPMState where
  poolSize : Nat
  pageSize : Nat
  pages : List Page
  pageTable : EHT.Table Int Nat
  replacer : LRUK.LRUKReplacer
  freeList : List Nat
  nextPageId : Int
  disk : List (Int × List Nat)
  deriving Repr, DecidableEq

/-- The `BufferPoolManagerInstance` constructor: fresh frames, an extendible
page table of the given bucket size, an LRU-K replacer over `pool_size`
frames, and the free list `[0 .. pool_size)`. -/
def BPMState.new (poolSize pageSize bucketSize replacerK : Nat) : BPMState :=
  { poolSize := poolSize, pageSize := pageSize
    pages := List.replicate poolSize (Page.new pageSize)
    pageTable := EHT.Table.new Int Nat bucketSize
    replacer := LRUK.LRUKReplacer.new poolSize replacerK
    freeList := List.range poolSize
    nextPageId := 0
    disk := [] }

/-- `DiskManager::WritePage`.  Modelled from the spec (§6 disk collaborator). -/
def writeDisk (s : BPMState) (pid : Int) (data : List Nat) : BPMState :=
  { s with disk := (pid, data) :: s.disk }

/-- `DiskManager::ReadPage` from the stub disk: the newest write for the id,
else zeros.  Modelled from the spec (§6, §8 "stub disk that returns zeros"). -/
def readDisk (s : BPMState) (pid : Int) : List Nat :=
  ((s.disk.find? (fun p => p.1 = pid)).map Prod.snd).getD (List.replicate s.pageSize 0)

/-- The frame at index `f`. -/
def BPMState.pageAt (s : BPMState) (f : Nat) : Page :=
  s.pages.getD f default

/-- The frame-acquisition step shared by `NewPgImp` and `FetchPgImp` (the two
duplicate it verbatim): pop the free list, else ask the replacer to evict;
`none` means no frame is obtainable. -/
def pickFrame (s : BPMState) : Option (Nat × BPMState) :=
  match s.freeList with
  | f :: rest => some (f, { s with freeList := rest })
  | [] =>
    match s.replacer.evict with
    | none => none
    | some (f, r) => some (f, { s with replacer := r })

/-- `BufferPoolManagerInstance::NewPgImp`.  Take a frame from the free list,
else ask the replacer to evict (returning `(s, none)` when it cannot); flush
the previous occupant when dirty; drop its page-table entry; zero the bytes,
assign `next_page_id_++` and `pin_count = 1` (the dirty flag is left as the
previous occupant left it, exactly as in the source); record the access, mark
non-evictable and insert the new mapping.  The outer `none` models an aborted
call (replacer exception or the page-table insert not returning). -/
def newPage (fuel : Nat) (s : BPMState) : Option (BPMState × Option (Int × Nat)) :=
  match pickFrame s with
  | none => some (s, none)
  | some (f, s1) =>
    let pg := s1.pageAt f
    let s2 := if pg.isDirty then writeDisk s1 pg.pageId pg.data else s1
    let s3 := { s2 with pageTable := (s2.pageTable.remove pageIdHash pg.pageId).2 }
    let newPid := s3.nextPageId
    let pg' := { pg with data := List.replicate s3.pageSize 0, pageId := newPid, pinCount := 1 }
    let s4 := { s3 with pages := s3.pages.set f pg', nextPageId := newPid + 1 }
    match s4.replacer.recordAccess f with
    | none => none
    | some r1 =>
      match r1.setEvictable f false with
      | none => none
      | some r2 =>
        let s5 := { s4 with replacer := r2 }
        match s5.pageTable.insert pageIdHash fuel newPid f with
        | none => none
        | some pt => some ({ s5 with pageTable := pt }, some (newPid, f))

/-- `BufferPoolManagerInstance::FetchPgImp`.  On a page-table hit, record the
access and return the frame (the source neither increments the pin count nor
marks the frame non-evictable on this path).  On a miss, obtain a frame as in
`NewPgImp`, flush a dirty occupant, remap, read the page from disk, record
the access and mark non-evictable. -/
def fetchPage (fuel : Nat) (s : BPMState) (pid : Int) : Option (BPMState × Option Nat) :=
  match s.pageTable.find pageIdHash pid with
  | some f =>
    match s.replacer.recordAccess f with
    | none => none
    | some r => some ({ s with replacer := r }, some f)
  | none =>
    match pickFrame s with
    | none => some (s, none)
    | some (f, s1) =>
      let pg := s1.pageAt f
      let s2 := if pg.isDirty then writeDisk s1 pg.pageId pg.data else s1
      let s3 := { s2 with pageTable := (s2.pageTable.remove pageIdHash pg.pageId).2 }
      let pg' := { pg with data := List.replicate s3.pageSize 0, pageId := pid, pinCount := 1 }
      let s4 := { s3 with pages := s3.pages.set f pg' }
      match s4.pageTable.insert pageIdHash fuel pid f with
      | none => none
      | some pt =>
        let s5 := { s4 with pageTable := pt }
        let s6 := { s5 with pages := s5.pages.set f { pg' with data := readDisk s5 pid } }
        match s6.replacer.recordAccess f with
        | none => none
        | some r1 =>
          match r1.setEvictable f false with
          | none => none
          | some r2 => some ({ s6 with replacer := r2 }, some f)

/-- `BufferPoolManagerInstance::UnpinPgImp`.  Missing page or zero pin count
returns `false`; otherwise decrement the pin count, mark evictable when it
reached zero, and assign (not OR) `is_dirty` into the frame's dirty flag,
exactly as in the source. -/
def unpinPage (s : BPMState) (pid : Int) (dirty : Bool) : Option (BPMState × Bool) :=
  match s.pageTable.find pageIdHash pid with
  | none => some (s, false)
  | some f =>
    let pg := s.pageAt f
    if pg.pinCount = 0 then some (s, false)
    else
      let pg1 := { pg with pinCount := pg.pinCount - 1 }
      let s1 := { s with pages := s.pages.set f pg1 }
      let step : Option LRUK.LRUKReplacer :=
        if pg1.pinCount = 0 then s1.replacer.setEvictable f true else some s1.replacer
      match step with
      | none => none
      | some r =>
        some ({ s1 with replacer := r, pages := s1.pages.set f { pg1 with isDirty := dirty } },
          true)

/-- `BufferPoolManagerInstance::FlushPgImp`: on a page-table hit, write the
frame to disk unconditionally, clear the dirty flag and record an access in
the replacer. -/
def flushPage (s : BPMState) (pid : Int) : Option (BPMState × Bool) :=
  match s.pageTable.find pageIdHash pid with
  | none => some (s, false)
  | some f =>
    let pg := s.pageAt f
    let s1 := writeDisk s pid pg.data
    let s2 := { s1 with pages := s1.pages.set f { pg with isDirty := false } }
    match s2.replacer.recordAccess f with
    | none => none
    | some r => some ({ s2 with replacer := r }, true)

/-- `BufferPoolManagerInstance::FlushAllPgsImp`: flush the page id held by
each frame in turn. -/
def flushAll (s : BPMState) : Option BPMState :=
  (List.range s.poolSize).foldlM
    (fun st i => (flushPage st (st.pageAt i).pageId).map Prod.fst) s

/-- `BufferPoolManagerInstance::DeletePgImp`: a missing page returns `true`;
a pinned page returns `false`; otherwise drop the page-table entry, remove
the frame from the replacer, reset the frame and push it on the free list. -/
def deletePage (s : BPMState) (pid : Int) : Option (BPMState × Bool) :=
  match s.pageTable.find pageIdHash pid with
  | none => some (s, true)
  | some f =>
    let pg := s.pageAt f
    if 0 < pg.pinCount then some (s, false)
    else
      let t := (s.pageTable.remove pageIdHash pid).2
      match s.replacer.remove f with
      | none => none
      | some r =>
        some ({ s with pageTable := t, replacer := r
                       pages := s.pages.set f (Page.new s.pageSize)
                       freeList := s.freeList ++ [f] }, true)

/-- A pool of one frame (page size 2, page-table bucket size 4, `k = 2`)
after `new_page()` (returning page 0) and `unpin_page(0, is_dirty := true)`:
frame 0 holds page 0, unpinned and dirty. -/
def demoPool1 : Option BPMState :=
  ((newPage 10 (BPMState.new 1 2 4 2)).map Prod.fst).bind
    (fun s => (unpinPage s 0 true).map Prod.fst)

/-- `demoPool1` after a second `new_page()`: the dirty frame is evicted,
flushed and reused for the fresh page 1. -/
def demoPool2 : Option BPMState :=
  demoPool1.bind (fun s => (newPage 10 s).map Prod.fst)

/-- `demoPool2` after `unpin_page(1, is_dirty := false)`. -/
def demoPool3 : Option BPMState :=
  demoPool2.bind (fun s => (unpinPage s 1 false).map Prod.fst)

/-- A pool of two frames after `new_page()` (returning page 0) and
`unpin_page(0, is_dirty := false)`: page 0 resident, unpinned, evictable. -/
def demoFetchPre : Option BPMState :=
  ((newPage 10 (BPMState.new 2 2 4 2)).map Prod.fst).bind
    (fun s => (unpinPage s 0 false).map Prod.fst)

/-- `demoFetchPre` after `fetch_page(0)`, a page-table hit. -/
def demoFetchPost : Option (BPMState × Option Nat) :=
  demoFetchPre.bind (fun s => fetchPage 10 s 0)

end BPM

namespace EHT

/-- The identity hash on `Nat` keys (`std::hash<int>` on the template
instantiation `ExtendibleHashTable<int, int>` the source compiles). -/
def idHash : Nat → Nat := fun n => n

/-- A fresh table with bucket capacity 1, keys and values `Nat`. -/
def demoTable0 : Table Nat Nat := Table.new Nat Nat 1

/-- `demoTable0` after `insert(0, 100)` and `insert(1, 101)`; the second
insert splits the single full bucket once (the directory doubles). -/
def demoTable2 : Option (Table Nat Nat) :=
  (demoTable0.insert idHash 10 0 100).bind (fun t => t.insert idHash 10 1 101)

/-- `demoTable0` after `insert(0, 100)`. -/
def demoTable1 : Table Nat Nat := (demoTable0.insert idHash 10 0 100).getD demoTable0

/-- `demoTable1` after `insert(1, 101)`: the insert splits the single full
bucket once and the directory doubles. -/
def demoTableSplit : Table Nat Nat := (demoTable1.insert idHash 10 1 101).getD demoTable1

/-- The directory-consistency invariant of the extendible hash table, for the
buckets visible through the directory: the directory has length
`2 ^ global_depth`, every slot holds a valid arena index, local depths are
bounded by the global depth, two slots share a bucket exactly when they agree
on the bucket's local-depth-many low bits, every stored pair hashes into its
bucket's discriminant, buckets respect the capacity, carry the table's bucket
size, and hold duplicate-free keys. -/
structure Inv (hash : K → Nat) (t : Table K V) : Prop where
  dirLen : t.dir.length = 2 ^ t.globalDepth
  bidLt : ∀ i, i < t.dir.length → t.dir.getD i 0 < t.arena.length
  depthLe : ∀ i, i < t.dir.length → (t.bucketAt i).depth ≤ t.globalDepth
  aliasing : ∀ i j, i < t.dir.length → j < t.dir.length →
    (t.dir.getD i 0 = t.dir.getD j 0 ↔
      i % 2 ^ (t.bucketAt i).depth = j % 2 ^ (t.bucketAt i).depth)
  content : ∀ i, i < t.dir.length → ∀ p ∈ (t.bucketAt i).list,
    hash p.1 % 2 ^ (t.bucketAt i).depth = i % 2 ^ (t.bucketAt i).depth
  capacity : ∀ i, i < t.dir.length → (t.bucketAt i).list.length ≤ t.bucketSize
  sizeEq : ∀ i, i < t.dir.length → (t.bucketAt i).size = t.bucketSize
  keysNodup : ∀ i, i < t.dir.length → ((t.bucketAt i).list.map Prod.fst).Nodup

/-- A public hash-table operation (`find` leaves the state unchanged). -/
inductive EHTOp (K V : Type) where
  | insertOp (fuel : Nat) (key : K) (value : V)
  | removeOp (key : K)
  | findOp (key : K)

/-- The key an operation involves. -/
def EHTOp.key {K V : Type} : EHTOp K V → K
  | .insertOp _ k _ => k
  | .removeOp k => k
  | .findOp k => k

/-- The state transition of one public operation; `none` means the insert
recursion did not come back within its fuel. -/
def applyEHTOp [DecidableEq K] [DecidableEq V] (hash : K → Nat) (t : Table K V) :
    EHTOp K V → Option (Table K V)
  | .insertOp fuel k v => t.insert hash fuel k v
  | .removeOp k => some (t.remove hash k).2
  | .findOp _ => some t

/-- Run a list of operations in order. -/
def runEHTOps [DecidableEq K] [DecidableEq V] (hash : K → Nat) :
    Table K V → List (EHTOp K V) → Option (Table K V)
  | t, [] => some t
  | t, op :: ops => (applyEHTOp hash t op).bind (fun t' => runEHTOps hash t' ops)

/-- Tables reachable from a fresh table by completed public operations. -/
inductive ReachableEHT [DecidableEq K] [DecidableEq V] (hash : K → Nat)
    (bucketSize : Nat) : Table K V → Prop where
  | init : ReachableEHT hash bucketSize (Table.new K V bucketSize)
  | step {t t' : Table K V} (op : EHTOp K V) :
      ReachableEHT hash bucketSize t → applyEHTOp hash t op = some t' →
      ReachableEHT hash bucketSize t'

/-- A hash function on which all keys collide on every bit. -/
def constHash : Nat → Nat := fun _ => 0

/-- A full one-slot table: bucket capacity 1 holding the pair `(0, 100)`
under `constHash`. -/
def badTable : Table Nat Nat :=
  ((Table.new Nat Nat 1).insert constHash 10 0 100).getD (Table.new Nat Nat 1)

/-- Divergence of the unbounded C++ insert recursion in the fuel model: no
amount of fuel makes the call come back. -/
def insertDivergesAt (hash : Nat → Nat) (t : Table Nat Nat) (k v : Nat) : Prop :=
  ∀ fuel, insertInternal hash fuel t k v = none

end EHT

namespace BPM

/-- A public buffer pool operation (the fuel is the recursion allowance
passed down to the page-table insert). -/
inductive BPMOp where
  | newPg (fuel : Nat)
  | fetchPg (fuel : Nat) (pid : Int)
  | unpinPg (pid : Int) (dirty : Bool)
  | flushPg (pid : Int)
  | flushAllPgs
  | deletePg (pid : Int)
  deriving Repr, DecidableEq

/-- The state transition of one public operation; `none` means the call
aborted (a replacer exception) or its page-table insert did not come back. -/
def applyOp (s : BPMState) : BPMOp → Option BPMState
  | .newPg fuel => (newPage fuel s).map Prod.fst
  | .fetchPg fuel pid => (fetchPage fuel s pid).map Prod.fst
  | .unpinPg pid dirty => (unpinPage s pid dirty).map Prod.fst
  | .flushPg pid => (flushPage s pid).map Prod.fst
  | .flushAllPgs => flushAll s
  | .deletePg pid => (deletePage s pid).map Prod.fst

/-- States reachable from a fresh pool by completed public operations. -/
inductive Reachable (poolSize pageSize bucketSize replacerK : Nat) : BPMState → Prop where
  | init : Reachable poolSize pageSize bucketSize replacerK
      (BPMState.new poolSize pageSize bucketSize replacerK)
  | step {s s' : BPMState} (op : BPMOp) :
      Reachable poolSize pageSize bucketSize replacerK s → applyOp s op = some s' →
      Reachable poolSize pageSize bucketSize replacerK s'

/-- Pin safety: every frame whose replacer entry is marked evictable has pin
count zero. -/
def PinSafe (s : BPMState) : Prop :=
  ∀ q ∈ s.replacer.map, q.2.evictable = true → (s.pageAt q.1).pinCount = 0

/-- The inductive invariant for pin safety: pin safety itself plus
duplicate-freeness of the replacer's frame keys (automatic for the C++
`std::unordered_map`, an invariant of the association-list model). -/
def ReplacerOK (s : BPMState) : Prop :=
  PinSafe s ∧ (s.replacer.map.map Prod.fst).Nodup

/-- The state relation maintained while `FlushAllPgsImp` walks the frames of
the pool rooted at `s`: flushing never touches the page table, the frame
bytes, the page ids or the replacer geometry; the clock only advances, every
record keeps `k ≥ 1` (given the pool was built with `k ≥ 1`), and the disk
log only grows. -/
def FlushInv (s x : BPMState) : Prop :=
  x.pageTable = s.pageTable ∧
  x.pages.length = s.pages.length ∧
  (∀ j, (x.pageAt j).pageId = (s.pageAt j).pageId ∧ (x.pageAt j).data = (s.pageAt j).data) ∧
  x.replacer.replacerSize = s.replacer.replacerSize ∧
  x.replacer.k = s.replacer.k ∧
  s.replacer.currentTimestamp ≤ x.replacer.currentTimestamp ∧
  (∀ q ∈ x.replacer.map, 1 ≤ q.2.k) ∧
  (∀ pr ∈ s.disk, pr ∈ x.disk)

/-- What `FlushAllPgsImp` has accomplished for frame `i` once its turn has
passed: if frame `i` is resident, its dirty flag is clear, its content has
been written to disk, and its replacer record ends in an access timestamp at
least as large as the clock before the call. -/
def FlushPost (s : BPMState) (i : Nat) (x : BPMState) : Prop :=
  (s.pageAt i).pageId ≠ invalidPageId →
    ((x.pageAt i).isDirty = false ∧
     ((s.pageAt i).pageId, (s.pageAt i).data) ∈ x.disk ∧
     ∃ t fi, s.replacer.currentTimestamp ≤ t ∧
       LRUK.mapFind x.replacer.map i = some fi ∧
       fi.accessTimestamps.getLast? = some t)

/-- The pool of one frame after `new_page()` (a concrete `Reachable` state). -/
def demoReachA : BPMState :=
  (applyOp (BPMState.new 1 2 4 2) (BPMOp.newPg 10)).getD (BPMState.new 1 2 4 2)

/-- `demoReachA` after `unpin_page(0, true)`: frame 0 is evictable. -/
def demoReachB : BPMState :=
  (applyOp demoReachA (BPMOp.unpinPg 0 true)).getD demoReachA

end BPM

section Theorems

namespace Aux

/-- A fold preserves any invariant its step preserves. -/
theorem foldl_invariant {α β : Type} {step : α → β → α} {P : α → Prop} :
    ∀ (l : List β) (init : α), P init →
      (∀ acc b, b ∈ l → P acc → P (step acc b)) → P (l.foldl step init)
  | [], _, h, _ => h
  | b :: l, init, h, hstep =>
    foldl_invariant l (step init b) (hstep init b (by simp) h)
      (fun acc b' hb' => hstep acc b' (by simp [hb']))

/-- A monadic fold over `Option` preserves any invariant its step preserves. -/
theorem foldlM_invariant {α β : Type} {step : α → β → Option α} {P : α → Prop} :
    ∀ (l : List β) (a a' : α), List.foldlM step a l = some a' → P a →
      (∀ x b y, b ∈ l → step x b = some y → P x → P y) → P a'
  | [], a, a', h, ha, _ => by
    have : a = a' := by simpa using h
    exact this ▸ ha
  | b :: l, a, a', h, ha, hstep => by
    simp only [List.foldlM_cons] at h
    cases hb : step a b with
    | none => rw [hb] at h; exact absurd h (by simp)
    | some y =>
      rw [hb] at h
      exact foldlM_invariant l y a' h (hstep a b y (by simp) hb ha)
        (fun x c z hc => hstep x c z (by simp [hc]))

/-- The general form of `getD` after `set`. -/
theorem getD_set {α : Type} (l : List α) (i j : Nat) (a d : α) :
    (l.set i a).getD j d = if i = j ∧ i < l.length then a else l.getD j d := by
  by_cases hij : i = j
  · subst hij
    by_cases hlen : i < l.length
    · rw [if_pos ⟨rfl, hlen⟩]
      simp [List.getD, List.getElem?_set_self, hlen]
    · rw [if_neg (fun hc => hlen hc.2)]
      rw [List.set_eq_of_length_le (by omega)]
  · rw [if_neg (fun hc => hij hc.1)]
    simp [List.getD, List.getElem?_set_ne hij]

/-- A monadic fold over `Option` whose step always succeeds and preserves the
invariant terminates with the invariant. -/
theorem foldlM_total {α β : Type} {step : α → β → Option α} {Inv : α → Prop} :
    ∀ (l : List β) (a : α), Inv a →
      (∀ x b, b ∈ l → Inv x → ∃ y, step x b = some y ∧ Inv y) →
      ∃ a', List.foldlM step a l = some a' ∧ Inv a'
  | [], a, ha, _ => ⟨a, by simp, ha⟩
  | b :: l, a, ha, hstep => by
    obtain ⟨y, hy, hInvy⟩ := hstep a b (by simp) ha
    obtain ⟨a', ha', hInva'⟩ :=
      foldlM_total l y hInvy (fun x c hc => hstep x c (by simp [hc]))
    refine ⟨a', ?_, hInva'⟩
    simp only [List.foldlM_cons, hy]
    exact ha'

/-- A monadic fold over `Option` establishes, for every processed element, a
postcondition that each step establishes for its own element and that all
later steps preserve. -/
theorem foldlM_post {α β : Type} {step : α → β → Option α} {Inv : α → Prop}
    {Post : β → α → Prop} :
    ∀ (l : List β) (a a' : α), List.foldlM step a l = some a' → Inv a →
      (∀ x b y, b ∈ l → step x b = some y → Inv x → Inv y ∧ Post b y) →
      (∀ x b c y, c ∈ l → step x c = some y → Inv x → Post b x → Post b y) →
      Inv a' ∧ ∀ b ∈ l, Post b a'
  | [], a, a', h, ha, _, _ => by
    have : a = a' := by simpa using h
    exact ⟨this ▸ ha, by simp⟩
  | b :: l, a, a', h, ha, hstep, hmono => by
    simp only [List.foldlM_cons] at h
    cases hb : step a b with
    | none => rw [hb] at h; exact absurd h (by simp)
    | some y =>
      rw [hb] at h
      obtain ⟨hInvy, hPostby⟩ := hstep a b y (by simp) hb ha
      obtain ⟨hInva', hposts⟩ :=
        foldlM_post l y a' h hInvy
          (fun x c z hc => hstep x c z (by simp [hc]))
          (fun x c d z hd => hmono x c d z (by simp [hd]))
      refine ⟨hInva', fun c hc => ?_⟩
      rcases List.mem_cons.mp hc with rfl | hcl
      · have := foldlM_invariant l y a' h (And.intro hInvy hPostby)
          (fun x d z hd hz hx =>
            And.intro (hstep x d z (by simp [hd]) hz hx.1).1
              (hmono x c d z (by simp [hd]) hz hx.1 hx.2))
        exact this.2
      · exact hposts c hcl

/-- Setting index `i` leaves every other `getD` unchanged. -/
theorem getD_set_ne {α : Type} {l : List α} {i j : Nat} {a d : α} (h : i ≠ j) :
    (l.set i a).getD j d = l.getD j d := by
  simp [List.getD, List.getElem?_set_ne h]

/-- `getD` at a freshly set index yields the new value or, out of range, the
default. -/
theorem getD_set_self_or {α : Type} (l : List α) (i : Nat) (a d : α) :
    (l.set i a).getD i d = a ∨ (l.set i a).getD i d = d := by
  by_cases h : i < l.length
  · left; simp [List.getD, List.getElem?_set_self, h]
  · right
    have hl : l.set i a = l := List.set_eq_of_length_le (by omega)
    rw [hl]
    have : l[i]? = none := List.getElem?_eq_none (by omega)
    simp [List.getD, this]

/-- Injectivity for an optional pair. -/
theorem some_pair_inj {α β : Type} {a c : α} {b d : β} (h : some (a, b) = some (c, d)) :
    a = c ∧ b = d := by
  have h' := Option.some.inj h
  exact ⟨congrArg Prod.fst h', congrArg Prod.snd h'⟩

end Aux

namespace LRUK

/-- Membership in an updated map traces to a member of the original map:
pairs with other keys are untouched, pairs with the updated key pass
through `g`. -/
theorem mem_mapUpdate {m : List (Nat × FrameInfo)} {f : Nat} {g : FrameInfo → FrameInfo}
    {q : Nat × FrameInfo} (h : q ∈ mapUpdate m f g) :
    ∃ fi, (q.1, fi) ∈ m ∧ ((q.1 ≠ f ∧ q.2 = fi) ∨ (q.1 = f ∧ q.2 = g fi)) := by
  rcases List.mem_map.mp h with ⟨p, hp, he⟩
  by_cases hc : p.1 = f
  · rw [if_pos hc] at he
    subst he
    exact ⟨p.2, hp, Or.inr ⟨hc, rfl⟩⟩
  · rw [if_neg hc] at he
    subst he
    exact ⟨p.2, hp, Or.inl ⟨hc, rfl⟩⟩

/-- `mapUpdate` does not change the key sequence. -/
theorem mapUpdate_keys (m : List (Nat × FrameInfo)) (f : Nat) (g : FrameInfo → FrameInfo) :
    (mapUpdate m f g).map Prod.fst = m.map Prod.fst := by
  unfold mapUpdate
  rw [List.map_map]
  refine List.map_congr_left (fun p _ => ?_)
  by_cases hc : p.1 = f
  · simp [hc]
  · simp [hc]

/-- A key is found exactly when it occurs in the key sequence. -/
theorem mapFind_isSome_iff {m : List (Nat × FrameInfo)} {f : Nat} :
    (mapFind m f).isSome ↔ f ∈ m.map Prod.fst := by
  induction m with
  | nil => simp [mapFind]
  | cons p m ih =>
    by_cases hc : p.1 = f
    · simp [mapFind, List.find?_cons, hc]
    · simpa [mapFind, List.find?_cons, hc, Ne.symm hc] using ih

/-- With duplicate-free keys, `mapFind` returns exactly the member record. -/
theorem mapFind_eq_of_mem {m : List (Nat × FrameInfo)} {f : Nat} {fi : FrameInfo}
    (hnd : (m.map Prod.fst).Nodup) (h : (f, fi) ∈ m) : mapFind m f = some fi := by
  induction m with
  | nil => cases h
  | cons p m ih =>
    rcases List.mem_cons.mp h with rfl | hmem
    · simp [mapFind, List.find?_cons]
    · have hnd' := (List.nodup_cons.mp hnd)
      by_cases hc : p.1 = f
      · exfalso
        exact hnd'.1 (hc ▸ (List.mem_map.mpr ⟨(f, fi), hmem, rfl⟩))
      · simpa [mapFind, List.find?_cons, hc] using ih hnd'.2 hmem

/-- `FrameInfo.recordAccess` keeps the evictable bit. -/
theorem FrameInfo.recordAccess_evictable (fi : FrameInfo) (ts : Nat) :
    (fi.recordAccess ts).evictable = fi.evictable := rfl

/-- Every evictable record after `RecordAccess` traces to an evictable record
of the same frame before the call. -/
theorem recordAccess_evictable_mem {r r' : LRUKReplacer} {f : Nat}
    (h : r.recordAccess f = some r') {q : Nat × FrameInfo} (hq : q ∈ r'.map)
    (he : q.2.evictable = true) : ∃ fi, (q.1, fi) ∈ r.map ∧ fi.evictable = true := by
  unfold LRUKReplacer.recordAccess at h
  split at h
  · obtain rfl := Option.some.inj h
    dsimp only at hq
    obtain ⟨fi, hfi, hor⟩ := mem_mapUpdate hq
    have hev : fi.evictable = true := by
      rcases hor with ⟨_, h2⟩ | ⟨_, h2⟩
      · rw [h2] at he; exact he
      · rw [h2] at he; exact he
    split at hfi
    · exact ⟨fi, hfi, hev⟩
    · rcases List.mem_append.mp hfi with hin | hnew
      · exact ⟨fi, hin, hev⟩
      · exfalso
        have : fi = FrameInfo.new r.k := by
          simpa using congrArg Prod.snd (List.mem_singleton.mp hnew)
        rw [this] at hev
        exact absurd hev (by simp [FrameInfo.new])
  · exact absurd h (by simp)

/-- `RecordAccess` keeps the keys, adding the accessed frame at the back only
when it was absent. -/
theorem recordAccess_keys {r r' : LRUKReplacer} {f : Nat}
    (h : r.recordAccess f = some r') :
    r'.map.map Prod.fst = r.map.map Prod.fst ∨
    (r'.map.map Prod.fst = r.map.map Prod.fst ++ [f] ∧ ¬f ∈ r.map.map Prod.fst) := by
  unfold LRUKReplacer.recordAccess at h
  split at h
  · obtain rfl := Option.some.inj h
    dsimp only
    split
    · left; exact mapUpdate_keys ..
    · right
      constructor
      · rw [mapUpdate_keys]; simp
      · next hns => exact fun hmem => hns (mapFind_isSome_iff.mpr hmem)
  · exact absurd h (by simp)

/-- An evictable record after `SetEvictable(f, false)` belongs to a different
frame and traces to an evictable record before the call; this needs
duplicate-free keys. -/
theorem setEvictable_false_mem {r r' : LRUKReplacer} {f : Nat}
    (hnd : (r.map.map Prod.fst).Nodup) (h : r.setEvictable f false = some r')
    {q : Nat × FrameInfo} (hq : q ∈ r'.map) (he : q.2.evictable = true) :
    q.1 ≠ f ∧ q ∈ r.map := by
  unfold LRUKReplacer.setEvictable at h
  split at h
  · cases hfind : mapFind r.map f with
    | none => rw [hfind] at h; exact absurd h (by simp)
    | some fi =>
      rw [hfind] at h
      dsimp only [Bool.false_eq_true, if_false] at h
      by_cases hev : fi.evictable = true
      · rw [if_pos hev] at h
        obtain rfl := Option.some.inj h
        dsimp only at hq
        obtain ⟨fi0, hfi0, hor⟩ := mem_mapUpdate hq
        rcases hor with ⟨hne, h2⟩ | ⟨heq, h2⟩
        · exact ⟨hne, by rw [← Prod.mk.eta (p := q), h2]; exact hfi0⟩
        · exfalso
          rw [h2] at he
          exact absurd he (by simp)
      · rw [if_neg hev] at h
        obtain rfl := Option.some.inj h
        refine ⟨fun hqf => ?_, hq⟩
        have : mapFind r.map q.1 = some q.2 := mapFind_eq_of_mem hnd (Prod.mk.eta ▸ hq)
        rw [hqf, hfind] at this
        obtain rfl := Option.some.inj this
        exact hev he
  · exact absurd h (by simp)

/-- An evictable record after `SetEvictable(f, true)` either belongs to `f`
or traces to an evictable record before the call. -/
theorem setEvictable_true_mem {r r' : LRUKReplacer} {f : Nat}
    (h : r.setEvictable f true = some r') {q : Nat × FrameInfo} (hq : q ∈ r'.map)
    (he : q.2.evictable = true) :
    q.1 = f ∨ (∃ fi, (q.1, fi) ∈ r.map ∧ fi.evictable = true) := by
  unfold LRUKReplacer.setEvictable at h
  split at h
  · cases hfind : mapFind r.map f with
    | none => rw [hfind] at h; exact absurd h (by simp)
    | some fi =>
      rw [hfind] at h
      dsimp only at h
      by_cases hev : fi.evictable = true
      · rw [if_pos rfl, if_neg (by simp [hev])] at h
        obtain rfl := Option.some.inj h
        right
        exact ⟨q.2, Prod.mk.eta ▸ hq, he⟩
      · have hev' : fi.evictable = false := by revert hev; cases fi.evictable <;> simp
        rw [if_pos rfl, if_pos (by simp [hev'])] at h
        obtain rfl := Option.some.inj h
        dsimp only at hq
        obtain ⟨fi0, hfi0, hor⟩ := mem_mapUpdate hq
        rcases hor with ⟨_, h2⟩ | ⟨heq, _⟩
        · right; exact ⟨fi0, hfi0, by rw [← h2]; exact he⟩
        · left; exact heq
  · exact absurd h (by simp)

/-- `SetEvictable` keeps the key sequence. -/
theorem setEvictable_keys {r r' : LRUKReplacer} {f : Nat} {b : Bool}
    (h : r.setEvictable f b = some r') : r'.map.map Prod.fst = r.map.map Prod.fst := by
  unfold LRUKReplacer.setEvictable at h
  split at h
  · cases hfind : mapFind r.map f with
    | none => rw [hfind] at h; exact absurd h (by simp)
    | some fi =>
      rw [hfind] at h
      cases b with
      | true =>
        dsimp only at h
        rw [if_pos rfl] at h
        split at h
        · obtain rfl := Option.some.inj h; dsimp only; exact mapUpdate_keys ..
        · obtain rfl := Option.some.inj h; rfl
      | false =>
        dsimp only at h
        rw [if_neg (by simp)] at h
        split at h
        · obtain rfl := Option.some.inj h; dsimp only; exact mapUpdate_keys ..
        · obtain rfl := Option.some.inj h; rfl
  · exact absurd h (by simp)

/-- A successful `Evict` returns a frame holding an evictable record, and the
surviving map is a sub-collection of the original. -/
theorem evict_mem {r : LRUKReplacer} {f : Nat} {r' : LRUKReplacer}
    (h : r.evict = some (f, r')) :
    (∃ fi, (f, fi) ∈ r.map ∧ fi.evictable = true) ∧ r'.map.Sublist r.map := by
  unfold LRUKReplacer.evict at h
  cases hfind : r.map.find? (fun p => p.2.evictable) with
  | none => rw [hfind] at h; exact absurd h (by simp)
  | some first =>
    rw [hfind] at h
    have hinj := Option.some.inj h
    rw [Prod.ext_iff] at hinj
    obtain ⟨h1, h2⟩ := hinj
    dsimp only at h1 h2
    subst h1
    rw [← h2]
    refine ⟨?_, List.filter_sublist _⟩
    have hfirst : first.2.evictable = true := by simpa using List.find?_some hfind
    have hmemf : first ∈ r.map := List.mem_of_find?_eq_some hfind
    exact Aux.foldl_invariant (P := fun acc : Nat × AccessInfo =>
        ∃ fi, (acc.1, fi) ∈ r.map ∧ fi.evictable = true) r.map _
      ⟨first.2, Prod.mk.eta ▸ hmemf, hfirst⟩
      (fun acc p hp hacc => by
        dsimp only
        by_cases hb : (!p.2.evictable) = true
        · rw [if_pos hb]; exact hacc
        · rw [if_neg hb]
          split
          · exact hacc
          · exact ⟨p.2, Prod.mk.eta ▸ hp, by simpa using hb⟩)

/-- A successful `Remove` keeps a sub-collection of the map. -/
theorem remove_sublist {r r' : LRUKReplacer} {f : Nat}
    (h : r.remove f = some r') : r'.map.Sublist r.map := by
  unfold LRUKReplacer.remove at h
  split at h
  · split at h
    · obtain rfl := Option.some.inj h
      exact List.Sublist.refl _
    · split at h
      · obtain rfl := Option.some.inj h
        dsimp only
        exact List.filter_sublist _
      · exact absurd h (by simp)
  · exact absurd h (by simp)

/-- `RecordAccess` preserves duplicate-free keys. -/
theorem recordAccess_nodup {r r' : LRUKReplacer} {f : Nat}
    (h : r.recordAccess f = some r') (hnd : (r.map.map Prod.fst).Nodup) :
    (r'.map.map Prod.fst).Nodup := by
  rcases recordAccess_keys h with he | ⟨he, hnotin⟩
  · rw [he]; exact hnd
  · rw [he]
    exact List.Nodup.append hnd (List.nodup_singleton f) (by simpa using hnotin)

/-- A sub-collection of the map keeps duplicate-free keys. -/
theorem sublist_nodup {m m' : List (Nat × FrameInfo)} (h : m'.Sublist m)
    (hnd : (m.map Prod.fst).Nodup) : (m'.map Prod.fst).Nodup :=
  hnd.sublist (h.map Prod.fst)

/-- Unfolding lemma: lookup on a non-empty association list. -/
theorem mapFind_cons (p : Nat × FrameInfo) (m : List (Nat × FrameInfo)) (f : Nat) :
    mapFind (p :: m) f = if p.1 = f then some p.2 else mapFind m f := by
  unfold mapFind
  rw [List.find?_cons]
  by_cases hc : p.1 = f
  · simp [hc]
  · simp [hc]

/-- Unfolding lemma: update on a non-empty association list. -/
theorem mapUpdate_cons (p : Nat × FrameInfo) (m : List (Nat × FrameInfo)) (f : Nat)
    (g : FrameInfo → FrameInfo) :
    mapUpdate (p :: m) f g = (if p.1 = f then (p.1, g p.2) else p) :: mapUpdate m f g := rfl

/-- Updating frame `f` moves its looked-up record through `g`. -/
theorem mapFind_mapUpdate_self (m : List (Nat × FrameInfo)) (f : Nat)
    (g : FrameInfo → FrameInfo) :
    mapFind (mapUpdate m f g) f = (mapFind m f).map g := by
  induction m with
  | nil => rfl
  | cons p m ih =>
    rw [mapUpdate_cons, mapFind_cons, mapFind_cons]
    by_cases hc : p.1 = f
    · rw [if_pos hc]
      simp [hc]
    · rw [if_neg hc, if_neg (by simpa using hc), if_neg hc]
      exact ih

/-- Updating frame `f` leaves other lookups unchanged. -/
theorem mapFind_mapUpdate_ne (m : List (Nat × FrameInfo)) {f i : Nat}
    (g : FrameInfo → FrameInfo) (h : i ≠ f) :
    mapFind (mapUpdate m f g) i = mapFind m i := by
  induction m with
  | nil => rfl
  | cons p m ih =>
    rw [mapUpdate_cons, mapFind_cons, mapFind_cons]
    by_cases hc : p.1 = f
    · rw [if_pos hc]
      rw [if_neg (by simpa using fun he => h (hc ▸ he.symm)),
        if_neg (by simpa using fun he => h (hc ▸ he.symm))]
      exact ih
    · rw [if_neg hc]
      by_cases hi : p.1 = i
      · rw [if_pos hi, if_pos hi]
      · rw [if_neg hi, if_neg hi]
        exact ih

/-- Lookup distributes over append. -/
theorem mapFind_append (m l : List (Nat × FrameInfo)) (f : Nat) :
    mapFind (m ++ l) f = (mapFind m f).or (mapFind l f) := by
  unfold mapFind
  rw [List.find?_append]
  cases List.find? (fun p => p.1 = f) m <;> simp

/-- `RecordAccess` advances the clock by one, stores the updated record for
the accessed frame, and leaves every other frame's record unchanged. -/
theorem recordAccess_spec {r r' : LRUKReplacer} {f : Nat}
    (h : r.recordAccess f = some r') :
    r'.currentTimestamp = r.currentTimestamp + 1 ∧
    r'.replacerSize = r.replacerSize ∧ r'.k = r.k ∧
    mapFind r'.map f =
      some (((mapFind r.map f).getD (FrameInfo.new r.k)).recordAccess
        r.currentTimestamp) ∧
    (∀ i, i ≠ f → mapFind r'.map i = mapFind r.map i) := by
  unfold LRUKReplacer.recordAccess at h
  split at h
  · obtain rfl := Option.some.inj h
    refine ⟨rfl, rfl, rfl, ?_, fun i hi => ?_⟩
    · dsimp only
      rw [mapFind_mapUpdate_self]
      cases hf : mapFind r.map f with
      | some fi => rw [if_pos (by simp [hf])]; simp [hf]
      | none =>
        rw [if_neg (by simp [hf])]
        rw [mapFind_append, hf]
        simp [mapFind]
    · dsimp only
      rw [mapFind_mapUpdate_ne _ _ hi]
      split
      · rfl
      · rw [mapFind_append]
        have hnone : mapFind [(f, FrameInfo.new r.k)] i = none := by
          rw [mapFind_cons]
          rw [if_neg (by simpa using fun he => hi he.symm)]
          rfl
        rw [hnone]
        cases mapFind r.map i <;> rfl
  · exact absurd h (by simp)

/-- A successful lookup is a member of the map. -/
theorem mapFind_mem {m : List (Nat × FrameInfo)} {f : Nat} {fi : FrameInfo}
    (h : mapFind m f = some fi) : (f, fi) ∈ m := by
  unfold mapFind at h
  cases hfind : m.find? (fun p => p.1 = f) with
  | none => rw [hfind] at h; exact absurd h (by simp)
  | some p =>
    rw [hfind] at h
    have hp1 : p.1 = f := by simpa using List.find?_some hfind
    have hp2 : p.2 = fi := by simpa using h
    have := List.mem_of_find?_eq_some hfind
    rw [← hp1, ← hp2]
    simpa using this

/-- `RecordAccess` succeeds exactly under the frame-id check. -/
theorem recordAccess_isSome {r : LRUKReplacer} {f : Nat} (h : f ≤ r.replacerSize) :
    ∃ r', r.recordAccess f = some r' := by
  unfold LRUKReplacer.recordAccess
  rw [if_pos (by simpa [LRUKReplacer.checkFrameId] using h)]
  exact ⟨_, rfl⟩

/-- The record produced by `FrameInfo.RecordAccess` ends in the recorded
timestamp whenever `k ≥ 1`. -/
theorem FrameInfo.recordAccess_getLast {fi : FrameInfo} {t : Nat} (hk : 1 ≤ fi.k) :
    (fi.recordAccess t).accessTimestamps.getLast? = some t := by
  unfold FrameInfo.recordAccess
  dsimp only
  split
  · next hlen =>
    cases hts : fi.accessTimestamps with
    | nil =>
      rw [hts] at hlen
      simp at hlen
      omega
    | cons a l => simp
  · simp

/-- `FrameInfo.RecordAccess` keeps the `k` parameter. -/
theorem FrameInfo.recordAccess_k (fi : FrameInfo) (t : Nat) :
    (fi.recordAccess t).k = fi.k := rfl

/-- Every record after `RecordAccess` has a `k` parameter occurring before
the call or equal to the replacer's `k`. -/
theorem recordAccess_kBound {r r' : LRUKReplacer} {f : Nat} {c : Nat}
    (h : r.recordAccess f = some r') (hr : c ≤ r.k)
    (hm : ∀ q ∈ r.map, c ≤ q.2.k) : ∀ q ∈ r'.map, c ≤ q.2.k := by
  intro q hq
  unfold LRUKReplacer.recordAccess at h
  split at h
  · obtain rfl := Option.some.inj h
    dsimp only at hq
    obtain ⟨fi, hfi, hor⟩ := mem_mapUpdate hq
    have hfik : c ≤ fi.k := by
      split at hfi
      · exact hm _ hfi
      · rcases List.mem_append.mp hfi with hin | hnew
        · exact hm _ hin
        · have : fi = FrameInfo.new r.k := by
            simpa using congrArg Prod.snd (List.mem_singleton.mp hnew)
          rw [this]
          exact hr
    rcases hor with ⟨_, h2⟩ | ⟨_, h2⟩
    · rw [h2]; exact hfik
    · rw [h2, FrameInfo.recordAccess_k]; exact hfik
  · exact absurd h (by simp)

end LRUK

/-- **C1** (code_bug evidence): on the concrete replacer state `demoReplacer`
(k = 2; frames 0 and 1 evictable, both with two recorded accesses, so both in
the finite-distance group), the claim's rule — largest backward k-distance,
i.e. smallest kth-most-recent access timestamp — selects frame 0 (timestamp 0
versus 2), but `Evict` selects frame 1, because the source compares the
stored-window width `access_timestamps_[k-1] - access_timestamps_[0]` instead
of the distance from the current time. -/
theorem LRUK.c1_evict_failing_input :
    ((demoReplacer.bind LRUKReplacer.evict).map Prod.fst = some 1) ∧
    (demoReplacer.bind (fun r => kthMostRecent r 0) = some 0) ∧
    (demoReplacer.bind (fun r => kthMostRecent r 1) = some 2) ∧
    (demoReplacer.bind (fun r => (mapFind r.map 0).map (fun fi => fi.evictable)) = some true) ∧
    (demoReplacer.bind (fun r => (mapFind r.map 1).map (fun fi => fi.evictable)) = some true) ∧
    (demoReplacer.bind (fun r => (mapFind r.map 0).map
        (fun fi => fi.accessTimestamps.length)) = some 2) ∧
    (demoReplacer.bind (fun r => (mapFind r.map 1).map
        (fun fi => fi.accessTimestamps.length)) = some 2) := by
  decide

/-- **C2** (code_bug evidence): in `demoPool2` frame 0 holds page 1 with its
dirty flag already set; `unpin_page(1, is_dirty := false)` succeeds and
leaves the dirty flag `false`, though the claim's OR semantics requires it to
stay `true` — `UnpinPgImp` assigns `is_dirty` instead of ORing it. -/
theorem BPM.c2_unpin_clears_dirty_failing_input :
    (demoPool2.map (fun s => (s.pageAt 0).isDirty) = some true) ∧
    (demoPool2.map (fun s => (s.pageAt 0).pinCount) = some 1) ∧
    (demoPool2.bind (fun s => (unpinPage s 1 false).map Prod.snd) = some true) ∧
    (demoPool3.map (fun s => (s.pageAt 0).isDirty) = some false) := by
  decide

/-- **C3** (code_bug evidence): in `demoFetchPre` page 0 is resident with pin
count 0 and its frame evictable; the page-table hit `fetch_page(0)` returns
frame 0 and records an access, but leaves the pin count at 0 (the claim
requires 1) and the frame still evictable (the claim requires non-evictable). -/
theorem BPM.c3_fetch_hit_does_not_pin_failing_input :
    (demoFetchPost.map Prod.snd = some (some 0)) ∧
    (demoFetchPre.map (fun s => (s.pageAt 0).pinCount) = some 0) ∧
    ((demoFetchPost.map Prod.fst).map (fun s => (s.pageAt 0).pinCount) = some 0) ∧
    ((demoFetchPost.map Prod.fst).bind
        (fun s => (LRUK.mapFind s.replacer.map 0).map (fun fi => fi.evictable)) = some true) ∧
    ((demoFetchPost.map Prod.fst).bind
        (fun s => (LRUK.mapFind s.replacer.map 0).map
          (fun fi => fi.accessTimestamps)) = some [0, 1]) := by
  decide

/-- **C4** (code_bug evidence): the second `new_page()` of `demoPool2` evicts
the dirty occupant of frame 0, flushes it to disk, zeroes the bytes, assigns
the fresh page id 1 with pin count 1 — but leaves the frame's dirty flag
`true`, because `NewPgImp` never resets `is_dirty_`; the claim requires it to
be `false`. -/
theorem BPM.c4_new_page_dirty_failing_input :
    (demoPool1.bind (fun s => (newPage 10 s).map Prod.snd) = some (some (1, 0))) ∧
    (demoPool2.map (fun s => (s.pageAt 0).pageId) = some 1) ∧
    (demoPool2.map (fun s => (s.pageAt 0).pinCount) = some 1) ∧
    (demoPool2.map (fun s => (s.pageAt 0).data) = some [0, 0]) ∧
    (demoPool2.map (fun s => s.disk) = some [(0, [0, 0])]) ∧
    (demoPool2.map (fun s => (s.pageAt 0).isDirty) = some true) := by
  decide

/-- **C9** (code_bug evidence): inserting keys 0 and 1 into a fresh table of
bucket capacity 1 triggers exactly one split (the global depth grows from 0
to 1 and the directory afterwards references two distinct buckets), yet
`GetNumBuckets` still returns 1, because `num_buckets_` is never incremented
anywhere in the source. -/
theorem EHT.c9_num_buckets_stale_failing_input :
    (demoTable2.map (fun t => t.getNumBuckets) = some 1) ∧
    (demoTable2.map (fun t => t.globalDepth) = some 1) ∧
    (demoTable2.map (fun t => t.dir.dedup.length) = some 2) ∧
    (demoTable0.getNumBuckets = 1) ∧ (demoTable0.globalDepth = 0) := by
  decide

namespace BPM

/-- `pickFrame` preserves the replacer invariant and keeps the frame array. -/
theorem pickFrame_ok {s : BPMState} {f : Nat} {s1 : BPMState}
    (h : pickFrame s = some (f, s1)) (hs : ReplacerOK s) :
    ReplacerOK s1 ∧ s1.pages = s.pages := by
  unfold pickFrame at h
  split at h
  · obtain ⟨h1, h2⟩ := Aux.some_pair_inj h
    subst h1
    rw [← h2]
    exact ⟨⟨fun q hq he => hs.1 q hq he, hs.2⟩, rfl⟩
  · split at h
    · exact absurd h (by simp)
    · next f' r' hev =>
      obtain ⟨h1, h2⟩ := Aux.some_pair_inj h
      subst h1
      rw [← h2]
      obtain ⟨⟨fi, hfi, hfiev⟩, hsub⟩ := LRUK.evict_mem hev
      refine ⟨⟨fun q hq he => ?_, LRUK.sublist_nodup hsub hs.2⟩, rfl⟩
      exact hs.1 q (hsub.subset hq) he

/-- `NewPgImp` preserves the replacer invariant. -/
theorem newPage_ok {fuel : Nat} {s : BPMState} {out : BPMState × Option (Int × Nat)}
    (h : newPage fuel s = some out) (hs : ReplacerOK s) : ReplacerOK out.1 := by
  unfold newPage at h
  cases hp : pickFrame s with
  | none =>
    rw [hp] at h
    obtain rfl := Option.some.inj h
    exact hs
  | some fs =>
    obtain ⟨f, s1⟩ := fs
    rw [hp] at h
    obtain ⟨hs1, hpages1⟩ := pickFrame_ok hp hs
    dsimp only at h
    obtain ⟨s2, hs2, h2pages, h2replacer⟩ :
        ∃ s2, (if (s1.pageAt f).isDirty = true then
            writeDisk s1 (s1.pageAt f).pageId (s1.pageAt f).data else s1) = s2 ∧
          s2.pages = s1.pages ∧ s2.replacer = s1.replacer := by
      by_cases hd : (s1.pageAt f).isDirty = true
      · exact ⟨_, rfl, by simp [hd, writeDisk], by simp [hd, writeDisk]⟩
      · exact ⟨_, rfl, by simp [hd], by simp [hd]⟩
    rw [hs2] at h
    rw [h2replacer] at h
    cases hra : s1.replacer.recordAccess f with
    | none => rw [hra] at h; exact absurd h (by simp)
    | some r1 =>
      rw [hra] at h
      dsimp only at h
      cases hse : r1.setEvictable f false with
      | none => rw [hse] at h; exact absurd h (by simp)
      | some r2 =>
        rw [hse] at h
        dsimp only at h
        have hnd1 : (r1.map.map Prod.fst).Nodup := LRUK.recordAccess_nodup hra hs1.2
        split at h
        · exact absurd h (by simp)
        · obtain rfl := Option.some.inj h
          dsimp only
          constructor
          · intro q hq he
            dsimp only at hq
            obtain ⟨hqne, hq1⟩ := LRUK.setEvictable_false_mem hnd1 hse hq he
            obtain ⟨fi, hfi, hfiev⟩ := LRUK.recordAccess_evictable_mem hra hq1 he
            have hpin := hs1.1 (q.1, fi) hfi hfiev
            show ((s2.pages.set f _).getD q.1 default).pinCount = 0
            rw [Aux.getD_set_ne (fun hf => hqne hf.symm), h2pages]
            exact hpin
          · have := LRUK.setEvictable_keys hse
            dsimp only
            rw [this]
            exact hnd1

/-- `FetchPgImp` preserves the replacer invariant. -/
theorem fetchPage_ok {fuel : Nat} {s : BPMState} {pid : Int} {out : BPMState × Option Nat}
    (h : fetchPage fuel s pid = some out) (hs : ReplacerOK s) : ReplacerOK out.1 := by
  unfold fetchPage at h
  cases hfind : s.pageTable.find pageIdHash pid with
  | some f =>
    rw [hfind] at h
    dsimp only at h
    cases hra : s.replacer.recordAccess f with
    | none => rw [hra] at h; exact absurd h (by simp)
    | some r =>
      rw [hra] at h
      obtain rfl := Option.some.inj h
      dsimp only
      constructor
      · intro q hq he
        dsimp only at hq
        obtain ⟨fi, hfi, hfiev⟩ := LRUK.recordAccess_evictable_mem hra hq he
        exact hs.1 (q.1, fi) hfi hfiev
      · exact LRUK.recordAccess_nodup hra hs.2
  | none =>
    rw [hfind] at h
    dsimp only at h
    cases hp : pickFrame s with
    | none =>
      rw [hp] at h
      obtain rfl := Option.some.inj h
      exact hs
    | some fs =>
      obtain ⟨f, s1⟩ := fs
      rw [hp] at h
      obtain ⟨hs1, hpages1⟩ := pickFrame_ok hp hs
      dsimp only at h
      obtain ⟨s2, hs2, h2pages, h2replacer⟩ :
          ∃ s2, (if (s1.pageAt f).isDirty = true then
              writeDisk s1 (s1.pageAt f).pageId (s1.pageAt f).data else s1) = s2 ∧
            s2.pages = s1.pages ∧ s2.replacer = s1.replacer := by
        by_cases hd : (s1.pageAt f).isDirty = true
        · exact ⟨_, rfl, by simp [hd, writeDisk], by simp [hd, writeDisk]⟩
        · exact ⟨_, rfl, by simp [hd], by simp [hd]⟩
      rw [hs2] at h
      split at h
      · exact absurd h (by simp)
      · rw [h2replacer] at h
        cases hra : s1.replacer.recordAccess f with
        | none => rw [hra] at h; exact absurd h (by simp)
        | some r1 =>
          rw [hra] at h
          dsimp only at h
          cases hse : r1.setEvictable f false with
          | none => rw [hse] at h; exact absurd h (by simp)
          | some r2 =>
            rw [hse] at h
            dsimp only at h
            obtain rfl := Option.some.inj h
            have hnd1 : (r1.map.map Prod.fst).Nodup := LRUK.recordAccess_nodup hra hs1.2
            dsimp only
            constructor
            · intro q hq he
              dsimp only at hq
              obtain ⟨hqne, hq1⟩ := LRUK.setEvictable_false_mem hnd1 hse hq he
              obtain ⟨fi, hfi, hfiev⟩ := LRUK.recordAccess_evictable_mem hra hq1 he
              have hpin := hs1.1 (q.1, fi) hfi hfiev
              show (((s2.pages.set f _).set f _).getD q.1 default).pinCount = 0
              rw [Aux.getD_set_ne (fun hf => hqne hf.symm),
                Aux.getD_set_ne (fun hf => hqne hf.symm), h2pages]
              exact hpin
            · rw [LRUK.setEvictable_keys hse]
              exact hnd1

/-- A frame freshly set with a zero-pin page reads back pin count zero. -/
theorem pin_getD_set_self {pages : List Page} {f : Nat} {pg : Page}
    (h : pg.pinCount = 0) : ((pages.set f pg).getD f default).pinCount = 0 := by
  rcases Aux.getD_set_self_or pages f pg default with h' | h'
  · rw [h']; exact h
  · rw [h']; rfl

/-- `UnpinPgImp` preserves the replacer invariant. -/
theorem unpinPage_ok {s : BPMState} {pid : Int} {d : Bool} {out : BPMState × Bool}
    (h : unpinPage s pid d = some out) (hs : ReplacerOK s) : ReplacerOK out.1 := by
  unfold unpinPage at h
  cases hfind : s.pageTable.find pageIdHash pid with
  | none =>
    rw [hfind] at h
    obtain rfl := Option.some.inj h
    exact hs
  | some f =>
    rw [hfind] at h
    dsimp only at h
    by_cases hpz : (s.pageAt f).pinCount = 0
    · rw [if_pos hpz] at h
      obtain rfl := Option.some.inj h
      exact hs
    · rw [if_neg hpz] at h
      by_cases hp1 : (s.pageAt f).pinCount - 1 = 0
      · rw [if_pos hp1] at h
        cases hse : s.replacer.setEvictable f true with
        | none => rw [hse] at h; exact absurd h (by simp)
        | some r =>
          rw [hse] at h
          dsimp only at h
          obtain rfl := Option.some.inj h
          dsimp only
          constructor
          · intro q hq he
            dsimp only at hq
            dsimp only [BPMState.pageAt]
            by_cases hqf : q.1 = f
            · rw [hqf]
              exact pin_getD_set_self hp1
            · rcases LRUK.setEvictable_true_mem hse hq he with hqf' | ⟨fi, hfi, hfiev⟩
              · exact absurd hqf' hqf
              · have hpin := hs.1 (q.1, fi) hfi hfiev
                rw [Aux.getD_set_ne (fun hf => hqf hf.symm),
                  Aux.getD_set_ne (fun hf => hqf hf.symm)]
                exact hpin
          · rw [LRUK.setEvictable_keys hse]
            exact hs.2
      · rw [if_neg hp1] at h
        dsimp only at h
        obtain rfl := Option.some.inj h
        dsimp only
        constructor
        · intro q hq he
          dsimp only at hq
          have hpin := hs.1 q hq he
          by_cases hqf : q.1 = f
          · exact absurd (hqf ▸ hpin) hpz
          · dsimp only [BPMState.pageAt]
            rw [Aux.getD_set_ne (fun hf => hqf hf.symm),
              Aux.getD_set_ne (fun hf => hqf hf.symm)]
            exact hpin
        · exact hs.2

/-- `FlushPgImp` preserves the replacer invariant. -/
theorem flushPage_ok {s : BPMState} {pid : Int} {out : BPMState × Bool}
    (h : flushPage s pid = some out) (hs : ReplacerOK s) : ReplacerOK out.1 := by
  unfold flushPage at h
  cases hfind : s.pageTable.find pageIdHash pid with
  | none =>
    rw [hfind] at h
    obtain rfl := Option.some.inj h
    exact hs
  | some f =>
    rw [hfind] at h
    dsimp only [writeDisk] at h
    cases hra : s.replacer.recordAccess f with
    | none => rw [hra] at h; exact absurd h (by simp)
    | some r =>
      rw [hra] at h
      dsimp only at h
      obtain rfl := Option.some.inj h
      dsimp only
      constructor
      · intro q hq he
        dsimp only at hq
        obtain ⟨fi, hfi, hfiev⟩ := LRUK.recordAccess_evictable_mem hra hq he
        have hpin := hs.1 (q.1, fi) hfi hfiev
        dsimp only [BPMState.pageAt]
        by_cases hqf : q.1 = f
        · rw [hqf]
          rw [hqf] at hpin
          exact pin_getD_set_self hpin
        · rw [Aux.getD_set_ne (fun hf => hqf hf.symm)]
          exact hpin
      · exact LRUK.recordAccess_nodup hra hs.2

/-- `FlushAllPgsImp` preserves the replacer invariant. -/
theorem flushAll_ok {s s' : BPMState} (h : flushAll s = some s') (hs : ReplacerOK s) :
    ReplacerOK s' := by
  unfold flushAll at h
  refine Aux.foldlM_invariant _ _ _ h hs (fun x i y _ hstep hx => ?_)
  cases hfp : flushPage x (x.pageAt i).pageId with
  | none => rw [hfp] at hstep; exact absurd hstep (by simp)
  | some o =>
    rw [hfp] at hstep
    have hy : o.1 = y := by simpa using hstep
    exact hy ▸ flushPage_ok hfp hx

/-- `DeletePgImp` preserves the replacer invariant. -/
theorem deletePage_ok {s : BPMState} {pid : Int} {out : BPMState × Bool}
    (h : deletePage s pid = some out) (hs : ReplacerOK s) : ReplacerOK out.1 := by
  unfold deletePage at h
  cases hfind : s.pageTable.find pageIdHash pid with
  | none =>
    rw [hfind] at h
    obtain rfl := Option.some.inj h
    exact hs
  | some f =>
    rw [hfind] at h
    dsimp only at h
    by_cases hpz : 0 < (s.pageAt f).pinCount
    · rw [if_pos hpz] at h
      obtain rfl := Option.some.inj h
      exact hs
    · rw [if_neg hpz] at h
      cases hrm : s.replacer.remove f with
      | none => rw [hrm] at h; exact absurd h (by simp)
      | some r =>
        rw [hrm] at h
        dsimp only at h
        obtain rfl := Option.some.inj h
        have hsub := LRUK.remove_sublist hrm
        dsimp only
        constructor
        · intro q hq he
          dsimp only at hq
          have hpin := hs.1 q (hsub.subset hq) he
          dsimp only [BPMState.pageAt]
          by_cases hqf : q.1 = f
          · rw [hqf]
            exact pin_getD_set_self rfl
          · rw [Aux.getD_set_ne (fun hf => hqf hf.symm)]
            exact hpin
        · exact LRUK.sublist_nodup hsub hs.2

/-- Every completed public operation preserves the replacer invariant. -/
theorem applyOp_ok {s s' : BPMState} {op : BPMOp} (h : applyOp s op = some s')
    (hs : ReplacerOK s) : ReplacerOK s' := by
  cases op with
  | newPg fuel =>
    dsimp only [applyOp] at h
    cases hn : newPage fuel s with
    | none => rw [hn] at h; exact absurd h (by simp)
    | some out =>
      rw [hn] at h
      have : out.1 = s' := by simpa using h
      exact this ▸ newPage_ok hn hs
  | fetchPg fuel pid =>
    dsimp only [applyOp] at h
    cases hn : fetchPage fuel s pid with
    | none => rw [hn] at h; exact absurd h (by simp)
    | some out =>
      rw [hn] at h
      have : out.1 = s' := by simpa using h
      exact this ▸ fetchPage_ok hn hs
  | unpinPg pid d =>
    dsimp only [applyOp] at h
    cases hn : unpinPage s pid d with
    | none => rw [hn] at h; exact absurd h (by simp)
    | some out =>
      rw [hn] at h
      have : out.1 = s' := by simpa using h
      exact this ▸ unpinPage_ok hn hs
  | flushPg pid =>
    dsimp only [applyOp] at h
    cases hn : flushPage s pid with
    | none => rw [hn] at h; exact absurd h (by simp)
    | some out =>
      rw [hn] at h
      have : out.1 = s' := by simpa using h
      exact this ▸ flushPage_ok hn hs
  | flushAllPgs =>
    dsimp only [applyOp] at h
    exact flushAll_ok h hs
  | deletePg pid =>
    dsimp only [applyOp] at h
    cases hn : deletePage s pid with
    | none => rw [hn] at h; exact absurd h (by simp)
    | some out =>
      rw [hn] at h
      have : out.1 = s' := by simpa using h
      exact this ▸ deletePage_ok hn hs

/-- The replacer invariant holds in every reachable state. -/
theorem reachable_ok {p g b k : Nat} {s : BPMState} (h : Reachable p g b k s) :
    ReplacerOK s := by
  induction h with
  | init =>
    refine ⟨fun q hq _ => absurd hq (by simp [BPMState.new, LRUK.LRUKReplacer.new]), ?_⟩
    simp [BPMState.new, LRUK.LRUKReplacer.new]
  | step op hprev hstep ih => exact applyOp_ok hstep ih

/-- A page-table hit with a valid frame id makes `FlushPgImp` succeed, with
the explicit result state: the write log grows by the frame's bytes, the
frame's dirty flag clears and the replacer records an access. -/
theorem flushPage_spec {x : BPMState} {pid : Int} {f : Nat}
    (hfind : x.pageTable.find pageIdHash pid = some f)
    (hchk : f ≤ x.replacer.replacerSize) :
    ∃ r', x.replacer.recordAccess f = some r' ∧
      flushPage x pid = some
        ({ x with disk := (pid, (x.pageAt f).data) :: x.disk
                  pages := x.pages.set f { x.pageAt f with isDirty := false }
                  replacer := r' }, true) := by
  obtain ⟨r', hra⟩ := LRUK.recordAccess_isSome (r := x.replacer) hchk
  refine ⟨r', hra, ?_⟩
  unfold flushPage
  rw [hfind]
  dsimp only [writeDisk]
  rw [hra]

/-- A frame holding a valid page id is within the frame array. -/
theorem resident_lt_length {pages : List Page} {i : Nat}
    (h : (pages.getD i default).pageId ≠ invalidPageId) : i < pages.length := by
  by_contra hlen
  apply h
  have hnone : pages[i]? = none := List.getElem?_eq_none (by omega)
  simp [List.getD, hnone]
  rfl

/-- After clearing the dirty flag of frame `f` in place, frame `f` reads back
non-dirty (also when `f` is outside the array, where the default frame is
clean). -/
theorem dirty_after_set_false {pages : List Page} {f : Nat} :
    ((pages.set f { pages.getD f default with
        isDirty := false }).getD f default).isDirty = false := by
  rw [Aux.getD_set]
  split
  · rfl
  · next hcond =>
    have hlen : pages.length ≤ f := by
      by_contra hlt
      exact hcond ⟨rfl, by omega⟩
    have hgd : pages.getD f default = default := by
      simp [List.getD, List.getElem?_eq_none hlen]
    rw [hgd]
    rfl

/-- Toggling a dirty flag in place never changes a frame's page id or bytes. -/
theorem pageAt_set_dirty_id (pages : List Page) (f j : Nat) (b : Bool) :
    ((pages.set f { pages.getD f default with isDirty := b }).getD j default).pageId =
      (pages.getD j default).pageId ∧
    ((pages.set f { pages.getD f default with isDirty := b }).getD j default).data =
      (pages.getD j default).data := by
  rw [Aux.getD_set]
  split
  · next hcond => rw [← hcond.1]; exact ⟨rfl, rfl⟩
  · exact ⟨rfl, rfl⟩

/-- One step of `FlushAllPgsImp` from a pool rooted at `s`: it succeeds,
maintains `FlushInv` and establishes `FlushPost` for its frame. -/
theorem flushAll_step {s x : BPMState} {i : Nat}
    (hk : 1 ≤ s.replacer.k)
    (hresfind : ∀ j, j < s.poolSize → (s.pageAt j).pageId ≠ invalidPageId →
      s.pageTable.find pageIdHash ((s.pageAt j).pageId) = some j)
    (hinvfind : ∀ j, j < s.poolSize → (s.pageAt j).pageId = invalidPageId →
      s.pageTable.find pageIdHash ((s.pageAt j).pageId) = none)
    (hchk : ∀ j, j < s.poolSize → j ≤ s.replacer.replacerSize)
    (hInv : FlushInv s x) (hi : i < s.poolSize) :
    ∃ y, (flushPage x ((x.pageAt i).pageId)).map Prod.fst = some y ∧
      FlushInv s y ∧ FlushPost s i y := by
  obtain ⟨hpt, hlen, hpp, hrs, hrk, hclock, hkmap, hdisk⟩ := hInv
  have hpid : (x.pageAt i).pageId = (s.pageAt i).pageId := (hpp i).1
  by_cases hres : (s.pageAt i).pageId = invalidPageId
  · have hfind : x.pageTable.find pageIdHash ((x.pageAt i).pageId) = none := by
      rw [hpid, hpt]
      exact hinvfind i hi hres
    refine ⟨x, ?_, ⟨hpt, hlen, hpp, hrs, hrk, hclock, hkmap, hdisk⟩,
      fun hc => absurd hres hc⟩
    unfold flushPage
    rw [hfind]
    rfl
  · have hfind : x.pageTable.find pageIdHash ((x.pageAt i).pageId) = some i := by
      rw [hpid, hpt]
      exact hresfind i hi hres
    have hchki : i ≤ x.replacer.replacerSize := by rw [hrs]; exact hchk i hi
    obtain ⟨r', hra, hfp⟩ := flushPage_spec hfind hchki
    obtain ⟨hts, hrs', hrk', hself, hother⟩ := LRUK.recordAccess_spec hra
    refine ⟨_, by rw [hfp]; rfl, ?_, ?_⟩
    · refine ⟨hpt, ?_, ?_, ?_, ?_, ?_, ?_, ?_⟩
      · dsimp only
        rw [List.length_set]
        exact hlen
      · intro j
        dsimp only [BPMState.pageAt]
        obtain ⟨h1, h2⟩ := pageAt_set_dirty_id x.pages i j false
        exact ⟨h1.trans (hpp j).1, h2.trans (hpp j).2⟩
      · dsimp only
        rw [hrs']
        exact hrs
      · dsimp only
        rw [hrk']
        exact hrk
      · dsimp only
        rw [hts]
        omega
      · intro q hq
        dsimp only at hq
        exact LRUK.recordAccess_kBound hra (by rw [hrk]; exact hk) hkmap q hq
      · intro pr hpr
        dsimp only
        exact List.mem_cons_of_mem _ (hdisk pr hpr)
    · intro _
      refine ⟨?_, ?_, x.replacer.currentTimestamp, _, hclock, hself, ?_⟩
      · dsimp only [BPMState.pageAt]
        exact dirty_after_set_false
      · dsimp only
        rw [← hpid, ← (hpp i).2]
        exact List.mem_cons_self _ _
      · apply LRUK.FrameInfo.recordAccess_getLast
        cases hmf : LRUK.mapFind x.replacer.map i with
        | some fi0 => exact hkmap (i, fi0) (LRUK.mapFind_mem hmf)
        | none =>
          show 1 ≤ x.replacer.k
          rw [hrk]
          exact hk

/-- Later steps of `FlushAllPgsImp` preserve what an earlier step
accomplished for frame `i`. -/
theorem flushAll_mono {s x y : BPMState} {i c : Nat}
    (hInv : FlushInv s x)
    (hstep : (flushPage x ((x.pageAt c).pageId)).map Prod.fst = some y)
    (hp : FlushPost s i x) : FlushPost s i y := by
  obtain ⟨hpt, hlen, hpp, hrs, hrk, hclock, hkmap, hdisk⟩ := hInv
  unfold flushPage at hstep
  cases hfind : x.pageTable.find pageIdHash ((x.pageAt c).pageId) with
  | none =>
    rw [hfind] at hstep
    have hy : x = y := by simpa using hstep
    exact hy ▸ hp
  | some f =>
    rw [hfind] at hstep
    dsimp only [writeDisk] at hstep
    cases hra : x.replacer.recordAccess f with
    | none => rw [hra] at hstep; exact absurd hstep (by simp)
    | some r' =>
      rw [hra] at hstep
      have hy := Option.some.inj (by simpa using hstep :
        some ({ x with disk := ((x.pageAt c).pageId, (x.pageAt f).data) :: x.disk
                       pages := x.pages.set f { x.pageAt f with isDirty := false }
                       replacer := r' }) = some y)
      obtain ⟨hts, _, _, hself, hother⟩ := LRUK.recordAccess_spec hra
      intro hres
      obtain ⟨hdirty, hdk, t, fi, hts0, hfind0, hlast⟩ := hp hres
      rw [← hy]
      refine ⟨?_, ?_, ?_⟩
      · dsimp only [BPMState.pageAt]
        rw [Aux.getD_set]
        split
        · rfl
        · exact hdirty
      · exact List.mem_cons_of_mem _ hdk
      · by_cases hic : i = f
        · subst hic
          refine ⟨x.replacer.currentTimestamp, _, hclock, hself, ?_⟩
          apply LRUK.FrameInfo.recordAccess_getLast
          rw [hfind0]
          exact hkmap (i, fi) (LRUK.mapFind_mem hfind0)
        · refine ⟨t, fi, hts0, ?_, hlast⟩
          dsimp only
          rw [hother i hic]
          exact hfind0

/-- **C5**: in every state reachable by a sequence of completed buffer pool
operations from a fresh pool, no frame with positive pin count is reported
evictable by the replacer, and `Evict` — were it called in that state — can
only return a frame of pin count zero. -/
theorem c5_pin_safety {poolSize pageSize bucketSize replacerK : Nat} {s : BPMState}
    (h : Reachable poolSize pageSize bucketSize replacerK s) :
    (∀ q ∈ s.replacer.map, q.2.evictable = true → (s.pageAt q.1).pinCount = 0) ∧
    (∀ f r', s.replacer.evict = some (f, r') → (s.pageAt f).pinCount = 0) := by
  have hok := reachable_ok h
  refine ⟨hok.1, fun f r' hev => ?_⟩
  obtain ⟨⟨fi, hfi, hfiev⟩, _⟩ := LRUK.evict_mem hev
  exact hok.1 (f, fi) hfi hfiev

/-- Witness for **C5**: the concrete reachable state `demoReachB` (one frame;
`new_page()` then `unpin_page(0, true)`) has frame 0 evictable, and the
theorem yields its pin count 0. -/
theorem c5_pin_safety_witness : (demoReachB.pageAt 0).pinCount = 0 :=
  (c5_pin_safety (@Reachable.step 1 2 4 2 demoReachA demoReachB (BPMOp.unpinPg 0 true)
      (@Reachable.step 1 2 4 2 (BPMState.new 1 2 4 2) demoReachA (BPMOp.newPg 10)
        Reachable.init (by decide)) (by decide))).1
    (0, { k := 2, evictable := true, accessTimestamps := [0] }) (by decide) rfl

/-- **C10**: on a page-table hit, `FlushPgImp` — besides writing the page to
disk and clearing the dirty flag — records an access for the page's frame in
the replacer: the logical clock advances by one and the frame's stored access
history is extended by the current timestamp (truncated to the last `k`);
and `FlushAllPgsImp` does the same for every resident page, given a pool
whose page table maps each resident frame's page id back to that frame. -/
theorem c10_flush_records_access {s : BPMState} {pid : Int} {f : Nat}
    (hf : s.pageTable.find pageIdHash pid = some f)
    (hchk : f ≤ s.replacer.replacerSize) :
    (∃ s', flushPage s pid = some (s', true) ∧
      s'.disk = (pid, (s.pageAt f).data) :: s.disk ∧
      (s'.pageAt f).isDirty = false ∧
      s'.replacer.currentTimestamp = s.replacer.currentTimestamp + 1 ∧
      LRUK.mapFind s'.replacer.map f =
        some (((LRUK.mapFind s.replacer.map f).getD
          (LRUK.FrameInfo.new s.replacer.k)).recordAccess s.replacer.currentTimestamp)) ∧
    (1 ≤ s.replacer.k →
     (∀ q ∈ s.replacer.map, 1 ≤ q.2.k) →
     (∀ j, j < s.poolSize → j ≤ s.replacer.replacerSize) →
     (∀ j, j < s.poolSize → (s.pageAt j).pageId ≠ invalidPageId →
        s.pageTable.find pageIdHash ((s.pageAt j).pageId) = some j) →
     (∀ j, j < s.poolSize → (s.pageAt j).pageId = invalidPageId →
        s.pageTable.find pageIdHash ((s.pageAt j).pageId) = none) →
     ∃ s'', flushAll s = some s'' ∧
       ∀ i, i < s.poolSize → (s.pageAt i).pageId ≠ invalidPageId →
         (s''.pageAt i).isDirty = false ∧
         ((s.pageAt i).pageId, (s.pageAt i).data) ∈ s''.disk ∧
         ∃ t fi, s.replacer.currentTimestamp ≤ t ∧
           LRUK.mapFind s''.replacer.map i = some fi ∧
           fi.accessTimestamps.getLast? = some t) := by
  constructor
  · obtain ⟨r', hra, hfp⟩ := flushPage_spec hf hchk
    obtain ⟨hts, _, _, hself, _⟩ := LRUK.recordAccess_spec hra
    refine ⟨_, hfp, rfl, ?_, hts, hself⟩
    dsimp only [BPMState.pageAt]
    exact dirty_after_set_false
  · intro hk hkmap0 hchkall hresfind hinvfind
    have hInv0 : FlushInv s s :=
      ⟨rfl, rfl, fun j => ⟨rfl, rfl⟩, rfl, rfl, Nat.le_refl _, hkmap0, fun pr hpr => hpr⟩
    obtain ⟨s'', hfold, _⟩ := @Aux.foldlM_total BPMState Nat
      (fun st i => (flushPage st ((st.pageAt i).pageId)).map Prod.fst) (FlushInv s)
      (List.range s.poolSize) s hInv0
      (fun x b hb hInvX => by
        obtain ⟨y, hy, hIy, _⟩ :=
          flushAll_step hk hresfind hinvfind hchkall hInvX (List.mem_range.mp hb)
        exact ⟨y, hy, hIy⟩)
    obtain ⟨_, hposts⟩ := @Aux.foldlM_post BPMState Nat
      (fun st i => (flushPage st ((st.pageAt i).pageId)).map Prod.fst) (FlushInv s)
      (FlushPost s) (List.range s.poolSize) s s'' hfold hInv0
      (fun x b y hb hy hInvX => by
        obtain ⟨y', hy', hIy, hPy⟩ :=
          flushAll_step hk hresfind hinvfind hchkall hInvX (List.mem_range.mp hb)
        dsimp only at hy
        rw [hy'] at hy
        have hyy := Option.some.inj hy
        exact hyy ▸ ⟨hIy, hPy⟩)
      (fun x b c y hc hy hInvX hPbx => flushAll_mono hInvX hy hPbx)
    exact ⟨s'', hfold, fun i hi hres => hposts i (List.mem_range.mpr hi) hres⟩

/-- Witness for **C10**: the theorem instantiated at the concrete reachable
pool `demoReachB`, whose page 0 is resident in frame 0. -/
theorem c10_flush_records_access_witness :
    (∃ s', flushPage demoReachB 0 = some (s', true) ∧
      s'.disk = (0, (demoReachB.pageAt 0).data) :: demoReachB.disk ∧
      (s'.pageAt 0).isDirty = false ∧
      s'.replacer.currentTimestamp = demoReachB.replacer.currentTimestamp + 1 ∧
      LRUK.mapFind s'.replacer.map 0 =
        some (((LRUK.mapFind demoReachB.replacer.map 0).getD
          (LRUK.FrameInfo.new demoReachB.replacer.k)).recordAccess
            demoReachB.replacer.currentTimestamp)) ∧
    (1 ≤ demoReachB.replacer.k →
     (∀ q ∈ demoReachB.replacer.map, 1 ≤ q.2.k) →
     (∀ j, j < demoReachB.poolSize → j ≤ demoReachB.replacer.replacerSize) →
     (∀ j, j < demoReachB.poolSize → (demoReachB.pageAt j).pageId ≠ invalidPageId →
        demoReachB.pageTable.find pageIdHash ((demoReachB.pageAt j).pageId) = some j) →
     (∀ j, j < demoReachB.poolSize → (demoReachB.pageAt j).pageId = invalidPageId →
        demoReachB.pageTable.find pageIdHash ((demoReachB.pageAt j).pageId) = none) →
     ∃ s'', flushAll demoReachB = some s'' ∧
       ∀ i, i < demoReachB.poolSize → (demoReachB.pageAt i).pageId ≠ invalidPageId →
         (s''.pageAt i).isDirty = false ∧
         ((demoReachB.pageAt i).pageId, (demoReachB.pageAt i).data) ∈ s''.disk ∧
         ∃ t fi, demoReachB.replacer.currentTimestamp ≤ t ∧
           LRUK.mapFind s''.replacer.map i = some fi ∧
           fi.accessTimestamps.getLast? = some t) :=
  c10_flush_records_access (by decide) (by decide)

end BPM

namespace Aux

theorem mod_mod_of_le (a : Nat) {l g : Nat} (h : l ≤ g) : a % 2 ^ g % 2 ^ l = a % 2 ^ l :=
  Nat.mod_mod_of_dvd a (pow_dvd_pow 2 h)

theorem mod_pow_succ (a l : Nat) :
    a % 2 ^ (l + 1) = 2 ^ l * (a / 2 ^ l % 2) + a % 2 ^ l := by
  rw [pow_succ, Nat.mod_mul]
  ring

theorem mod_pow_succ_iff (a b l : Nat) :
    a % 2 ^ (l + 1) = b % 2 ^ (l + 1) ↔
      (a % 2 ^ l = b % 2 ^ l ∧ a.testBit l = b.testBit l) := by
  rw [mod_pow_succ a l, mod_pow_succ b l, Nat.testBit_to_div_mod, Nat.testBit_to_div_mod]
  have hpos : 0 < 2 ^ l := Nat.pos_pow_of_pos l (by omega)
  have ha : a % 2 ^ l < 2 ^ l := Nat.mod_lt _ hpos
  have hb : b % 2 ^ l < 2 ^ l := Nat.mod_lt _ hpos
  have ha2 : a / 2 ^ l % 2 < 2 := Nat.mod_lt _ (by omega)
  have hb2 : b / 2 ^ l % 2 < 2 := Nat.mod_lt _ (by omega)
  have hgen : ∀ x y : Nat, x < 2 → y < 2 → (decide (x = 1) = decide (y = 1)) → x = y := by
    intro x y hx hy hxy
    interval_cases x <;> interval_cases y <;> simp_all
  constructor
  · intro h
    have h2 : a / 2 ^ l % 2 = b / 2 ^ l % 2 := by
      rcases Nat.lt_trichotomy (a / 2 ^ l % 2) (b / 2 ^ l % 2) with hlt | heq | hgt
      · interval_cases hx : a / 2 ^ l % 2 <;> interval_cases hy : b / 2 ^ l % 2 <;> omega
      · exact heq
      · interval_cases hx : a / 2 ^ l % 2 <;> interval_cases hy : b / 2 ^ l % 2 <;> omega
    refine ⟨by rw [h2] at h; omega, by rw [h2]⟩
  · rintro ⟨h1, h2⟩
    have h2' : a / 2 ^ l % 2 = b / 2 ^ l % 2 := hgen _ _ ha2 hb2 h2
    rw [h1, h2']

theorem card_low_bits {g l d : Nat} (hlg : l ≤ g) (hd : d < 2 ^ l) :
    ((Finset.range (2 ^ g)).filter (fun j => j % 2 ^ l = d)).card = 2 ^ (g - l) := by
  have hpos : 0 < 2 ^ l := Nat.pos_pow_of_pos l (by omega)
  have hsplit : 2 ^ g = 2 ^ (g - l) * 2 ^ l := by
    rw [← pow_add]
    congr 1
    omega
  have himg : (Finset.range (2 ^ g)).filter (fun j => j % 2 ^ l = d) =
      (Finset.range (2 ^ (g - l))).image (fun q => q * 2 ^ l + d) := by
    ext j
    simp only [Finset.mem_filter, Finset.mem_range, Finset.mem_image]
    constructor
    · rintro ⟨hj, hmod⟩
      refine ⟨j / 2 ^ l, ?_, ?_⟩
      · apply Nat.div_lt_of_lt_mul
        rw [mul_comm (2 ^ (g - l)) (2 ^ l)] at hsplit
        omega
      · conv_rhs => rw [← Nat.div_add_mod j (2 ^ l), hmod]
        ring
    · rintro ⟨q, hq, rfl⟩
      constructor
      · have h1 : q * 2 ^ l + d < (q + 1) * 2 ^ l := by nlinarith
        have h2 : (q + 1) * 2 ^ l ≤ 2 ^ (g - l) * 2 ^ l := Nat.mul_le_mul_right _ (by omega)
        omega
      · rw [Nat.mul_comm, Nat.mul_add_mod, Nat.mod_eq_of_lt hd]
  rw [himg, Finset.card_image_of_injective _ (fun q1 q2 he => by
    have : q1 * 2 ^ l = q2 * 2 ^ l := by omega
    exact Nat.eq_of_mul_eq_mul_right hpos this), Finset.card_range]

/-- `getD` through a map over `List.range`. -/
theorem getD_range_map {f : Nat → Nat} {n j : Nat} (h : j < n) (d : Nat) :
    ((List.range n).map f).getD j d = f j := by
  simp [List.getD, List.getElem?_map, List.getElem?_range h]

/-- `getD` on an append, inside the first part. -/
theorem getD_append_lt {α : Type} {xs : List α} (ys : List α) {j : Nat}
    (h : j < xs.length) (d : α) : (xs ++ ys).getD j d = xs.getD j d := by
  simp only [List.getD]
  rw [List.get?_append h]

/-- `getD` on an append, inside the second part. -/
theorem getD_append_ge {α : Type} (xs ys : List α) {j : Nat}
    (h : xs.length ≤ j) (d : α) : (xs ++ ys).getD j d = ys.getD (j - xs.length) d := by
  simp only [List.getD]
  rw [List.get?_append_right h]

end Aux

namespace EHT

theorem find?_key_cons {K V : Type} [DecidableEq K] (p : K × V) (l : List (K × V)) (k : K) :
    ((p :: l).find? (fun q => q.1 = k)) =
      if p.1 = k then some p else l.find? (fun q => q.1 = k) := by
  rw [List.find?_cons]
  by_cases hc : p.1 = k
  · simp [hc]
  · simp [hc]

theorem find?_key_eq_none {K V : Type} [DecidableEq K] {l : List (K × V)} {k : K} :
    l.find? (fun q => q.1 = k) = none ↔ ¬k ∈ l.map Prod.fst := by
  rw [List.find?_eq_none]
  constructor
  · intro h hk
    obtain ⟨p, hp, he⟩ := List.mem_map.mp hk
    have := h p hp
    simp only [decide_eq_true_eq] at this
    exact this he
  · intro h p hp
    simp only [decide_eq_true_eq]
    exact fun he => h (List.mem_map.mpr ⟨p, hp, he⟩)

theorem find?_key_eq_some_of_mem {K V : Type} [DecidableEq K] {l : List (K × V)} {k : K}
    {v : V} (hnd : (l.map Prod.fst).Nodup) (h : (k, v) ∈ l) :
    l.find? (fun q => q.1 = k) = some (k, v) := by
  induction l with
  | nil => cases h
  | cons p l ih =>
    rw [find?_key_cons]
    rcases List.mem_cons.mp h with rfl | hmem
    · rw [if_pos rfl]
    · obtain ⟨hnot, hnd'⟩ := List.nodup_cons.mp hnd
      by_cases hc : p.1 = k
      · exact absurd (hc ▸ List.mem_map.mpr ⟨(k, v), hmem, rfl⟩) hnot
      · rw [if_neg hc]
        exact ih hnd' hmem

theorem find?_key_append {K V : Type} [DecidableEq K] (l l' : List (K × V)) (k : K) :
    (l ++ l').find? (fun q => q.1 = k) =
      ((l.find? (fun q => q.1 = k)).or (l'.find? (fun q => q.1 = k))) := by
  rw [List.find?_append]

theorem updateFirst_map_fst {K V : Type} [DecidableEq K] :
    ∀ (l : List (K × V)) (k : K) (v : V),
      (updateFirst l k v).map Prod.fst = l.map Prod.fst
  | [], _, _ => rfl
  | p :: l, k, v => by
    unfold updateFirst
    by_cases hc : p.1 = k
    · rw [if_pos hc]
      rfl
    · rw [if_neg hc]
      simp only [List.map_cons]
      rw [updateFirst_map_fst l k v]

theorem updateFirst_length {K V : Type} [DecidableEq K] :
    ∀ (l : List (K × V)) (k : K) (v : V), (updateFirst l k v).length = l.length
  | [], _, _ => rfl
  | p :: l, k, v => by
    unfold updateFirst
    by_cases hc : p.1 = k
    · rw [if_pos hc]
      rfl
    · rw [if_neg hc]
      simp only [List.length_cons]
      rw [updateFirst_length l k v]

theorem updateFirst_find?_self {K V : Type} [DecidableEq K] :
    ∀ {l : List (K × V)} {k : K} (v : V), (l.find? (fun q => q.1 = k)).isSome →
      (updateFirst l k v).find? (fun q => q.1 = k) = some (k, v)
  | [], k, v, h => by simp at h
  | p :: l, k, v, h => by
    unfold updateFirst
    by_cases hc : p.1 = k
    · rw [if_pos hc, find?_key_cons, if_pos hc]
      rw [hc]
    · rw [if_neg hc, find?_key_cons, if_neg hc]
      rw [find?_key_cons, if_neg hc] at h
      exact updateFirst_find?_self v h

theorem updateFirst_find?_ne {K V : Type} [DecidableEq K] :
    ∀ (l : List (K × V)) {k k' : K} (v : V), k' ≠ k →
      (updateFirst l k v).find? (fun q => q.1 = k') = l.find? (fun q => q.1 = k')
  | [], _, _, _, _ => rfl
  | p :: l, k, k', v, h => by
    unfold updateFirst
    by_cases hc : p.1 = k
    · rw [if_pos hc, find?_key_cons, find?_key_cons]
      have hne : ¬p.1 = k' := fun he => h (by rw [← he, hc])
      rw [if_neg (by simpa using hne), if_neg hne]
    · rw [if_neg hc, find?_key_cons, find?_key_cons]
      by_cases hi : p.1 = k'
      · rw [if_pos hi, if_pos hi]
      · rw [if_neg hi, if_neg hi]
        exact updateFirst_find?_ne l v h

/-- Characterisation of `Bucket::Insert`: overwrite on a present key. -/
theorem bucket_insert_overwrite {K V : Type} [DecidableEq K] {b : Bucket K V} {k : K}
    (v : V) (h : (b.list.find? (fun q => q.1 = k)).isSome) :
    b.insert k v = some { b with list := updateFirst b.list k v } := by
  unfold Bucket.insert
  rw [if_pos h]

/-- Characterisation of `Bucket::Insert`: append on an absent key with room. -/
theorem bucket_insert_append {K V : Type} [DecidableEq K] {b : Bucket K V} {k : K} (v : V)
    (h : ¬(b.list.find? (fun q => q.1 = k)).isSome = true) (hf : ¬b.isFull = true) :
    b.insert k v = some { b with list := b.list ++ [(k, v)] } := by
  unfold Bucket.insert
  rw [if_neg h, if_neg hf]

/-- Characterisation of `Bucket::Insert`: failure on a full bucket without
the key. -/
theorem bucket_insert_none_iff {K V : Type} [DecidableEq K] {b : Bucket K V} {k : K}
    {v : V} : b.insert k v = none ↔
      (¬(b.list.find? (fun q => q.1 = k)).isSome = true ∧ b.isFull = true) := by
  unfold Bucket.insert
  by_cases h : (b.list.find? (fun q => q.1 = k)).isSome = true
  · rw [if_pos h]
    simp [h]
  · rw [if_neg h]
    by_cases hf : b.isFull = true
    · rw [if_pos hf]
      simp [h, hf]
    · rw [if_neg hf]
      simp [h, hf]

/-- The fresh table satisfies the invariant. -/
theorem inv_new {K V : Type} (hash : K → Nat) (c : Nat) :
    Inv hash (Table.new K V c) := by
  have hone : ∀ i : Nat, i < (Table.new K V c).dir.length → i = 0 := by
    intro i hi
    simpa [Table.new] using Nat.lt_one_iff.mp (by simpa [Table.new] using hi)
  refine ⟨by simp [Table.new], ?_, ?_, ?_, ?_, ?_, ?_, ?_⟩
  · intro i hi
    rw [hone i hi]
    simp [Table.new]
  · intro i hi
    rw [hone i hi]
    simp [Table.new, Table.bucketAt]
  · intro i j hi hj
    rw [hone i hi, hone j hj]
    simp
  · intro i hi p hp
    rw [hone i hi] at hp
    simp [Table.new, Table.bucketAt] at hp
  · intro i hi
    rw [hone i hi]
    simp [Table.new, Table.bucketAt]
  · intro i hi
    rw [hone i hi]
    simp [Table.new, Table.bucketAt]
  · intro i hi
    rw [hone i hi]
    simp [Table.new, Table.bucketAt]

theorem indexOf_lt {K V : Type} {hash : K → Nat} {t : Table K V} (hInv : Inv hash t)
    (k : K) : t.indexOf hash k < t.dir.length := by
  rw [hInv.dirLen]
  exact Nat.mod_lt _ (Nat.pos_pow_of_pos _ (by omega))

theorem bucketAt_eq_of_dir_eq {K V : Type} {t : Table K V} {i j : Nat}
    (h : t.dir.getD i 0 = t.dir.getD j 0) : t.bucketAt i = t.bucketAt j := by
  unfold Table.bucketAt
  rw [h]

/-- Every pair stored in a directory-visible bucket is found by `Find`. -/
theorem find_of_mem {K V : Type} [DecidableEq K] {hash : K → Nat} {t : Table K V}
    (hInv : Inv hash t) {i : Nat} (hi : i < t.dir.length) {k : K} {v : V}
    (h : (k, v) ∈ (t.bucketAt i).list) : t.find hash k = some v := by
  have hcontent := hInv.content i hi (k, v) h
  have hj : t.indexOf hash k < t.dir.length := indexOf_lt hInv k
  have hdl : (t.bucketAt i).depth ≤ t.globalDepth := hInv.depthLe i hi
  have hmod : t.indexOf hash k % 2 ^ (t.bucketAt i).depth = i % 2 ^ (t.bucketAt i).depth := by
    unfold Table.indexOf
    rw [Aux.mod_mod_of_le _ hdl]
    exact hcontent
  have hdir : t.dir.getD i 0 = t.dir.getD (t.indexOf hash k) 0 :=
    (hInv.aliasing i (t.indexOf hash k) hi hj).mpr hmod.symm
  unfold Table.find
  rw [← bucketAt_eq_of_dir_eq hdir]
  unfold Bucket.find
  rw [find?_key_eq_some_of_mem (hInv.keysNodup i hi) h]
  rfl

/-- A key missing from its own bucket is not found. -/
theorem find_eq_none_of_not_mem {K V : Type} [DecidableEq K] {hash : K → Nat}
    {t : Table K V} {k : K}
    (h : ¬k ∈ (t.bucketAt (t.indexOf hash k)).list.map Prod.fst) :
    t.find hash k = none := by
  unfold Table.find Bucket.find
  rw [find?_key_eq_none.mpr h]
  rfl

theorem bucketAt_set_arena {K V : Type} (t : Table K V) (bid : Nat) (b' : Bucket K V)
    (j : Nat) :
    Table.bucketAt { t with arena := t.arena.set bid b' } j =
      if bid = t.dir.getD j 0 ∧ bid < t.arena.length then b' else t.bucketAt j :=
  Aux.getD_set t.arena (bid) (t.dir.getD j 0) b' _

theorem find?_filter_ne_pair {K V : Type} [DecidableEq K] [DecidableEq V] :
    ∀ (l : List (K × V)) {pr : K × V} {k' : K}, pr.1 ≠ k' →
      (l.filter (fun q => q ≠ pr)).find? (fun q => q.1 = k') =
        l.find? (fun q => q.1 = k')
  | [], _, _, _ => rfl
  | q :: l, pr, k', hne => by
    rw [List.filter_cons]
    by_cases hq : q = pr
    · rw [if_neg (by simp [hq])]
      rw [find?_key_cons, if_neg (by rw [hq]; simpa using hne)]
      exact find?_filter_ne_pair l hne
    · rw [if_pos (by simpa using hq)]
      rw [find?_key_cons, find?_key_cons]
      by_cases hk : q.1 = k'
      · rw [if_pos hk, if_pos hk]
      · rw [if_neg hk, if_neg hk]
        exact find?_filter_ne_pair l hne

/-- After removing the unique pair with key `k`, key `k` is no longer found. -/
theorem find?_filter_ne_self {K V : Type} [DecidableEq K] [DecidableEq V]
    {l : List (K × V)} {pr : K × V} (hnd : (l.map Prod.fst).Nodup)
    (hpr : l.find? (fun q => q.1 = pr.1) = some pr) :
    (l.filter (fun q => q ≠ pr)).find? (fun q => q.1 = pr.1) = none := by
  rw [find?_key_eq_none]
  intro hk
  obtain ⟨q, hq, hqk⟩ := List.mem_map.mp hk
  rw [List.mem_filter] at hq
  obtain ⟨hql, hqne⟩ := hq
  have hfq : l.find? (fun r => r.1 = q.1) = some (q.1, q.2) :=
    find?_key_eq_some_of_mem hnd (by simpa using hql)
  rw [hqk] at hfq
  have hq2 : (pr.1, q.2) = pr := Option.some.inj (hfq.symm.trans hpr)
  have hqpr : q = pr := by
    have h2 : q.2 = pr.2 := by
      conv_rhs => rw [← hq2]
    exact Prod.ext_iff.mpr ⟨hqk, h2⟩
  exact absurd hqpr (by simpa using hqne)

/-- Transfer of the invariant along equal table skeletons. -/
theorem inv_congr {K V : Type} {hash : K → Nat} {t t' : Table K V} (hInv : Inv hash t)
    (hdir : t'.dir = t.dir) (hg : t'.globalDepth = t.globalDepth)
    (hlen : t'.arena.length = t.arena.length) (hbs : t'.bucketSize = t.bucketSize)
    (hbk : ∀ j, j < t.dir.length → t'.bucketAt j = t.bucketAt j) : Inv hash t' := by
  refine ⟨?_, ?_, ?_, ?_, ?_, ?_, ?_, ?_⟩
  · rw [hdir, hg, hInv.dirLen]
  · intro i hi
    rw [hdir] at hi ⊢
    rw [hlen]
    exact hInv.bidLt i hi
  · intro i hi
    rw [hdir] at hi
    rw [hg, hbk i hi]
    exact hInv.depthLe i hi
  · intro i j hi hj
    rw [hdir] at hi hj ⊢
    rw [hbk i hi]
    exact hInv.aliasing i j hi hj
  · intro i hi p hp
    rw [hdir] at hi
    rw [hbk i hi] at hp ⊢
    exact hInv.content i hi p hp
  · intro i hi
    rw [hdir] at hi
    rw [hbk i hi, hbs]
    exact hInv.capacity i hi
  · intro i hi
    rw [hdir] at hi
    rw [hbk i hi, hbs]
    exact hInv.sizeEq i hi
  · intro i hi
    rw [hdir] at hi
    rw [hbk i hi]
    exact hInv.keysNodup i hi

/-- The result of `Remove`: the pair with the key is deleted from the table's
single responsible bucket. -/
theorem remove_eq {K V : Type} [DecidableEq K] [DecidableEq V] (hash : K → Nat)
    (t : Table K V) (k : K) :
    t.remove hash k =
      ((Bucket.remove (t.bucketAt (t.indexOf hash k)) k).1,
        { t with arena := t.arena.set (t.dir.getD (t.indexOf hash k) 0)
                           (Bucket.remove (t.bucketAt (t.indexOf hash k)) k).2 }) := rfl

/-- `Remove` preserves the invariant, reports whether the key was present,
and removes exactly that key from the lookup function. -/
theorem remove_spec {K V : Type} [DecidableEq K] [DecidableEq V] {hash : K → Nat}
    {t : Table K V} (hInv : Inv hash t) (k : K) :
    Inv hash (t.remove hash k).2 ∧
    (t.remove hash k).1 = (t.find hash k).isSome ∧
    (∀ k', (t.remove hash k).2.find hash k' =
      if k' = k then none else t.find hash k') := by
  have hi : t.indexOf hash k < t.dir.length := indexOf_lt hInv k
  have hbid : t.dir.getD (t.indexOf hash k) 0 < t.arena.length :=
    hInv.bidLt _ hi
  rw [remove_eq]
  unfold Bucket.remove
  cases hfind : (t.bucketAt (t.indexOf hash k)).list.find? (fun q => q.1 = k) with
  | none =>
    dsimp only
    have hsame : ∀ j,
        Table.bucketAt { t with
          arena := t.arena.set (t.dir.getD (t.indexOf hash k) 0) (t.bucketAt (t.indexOf hash k)) } j
          = t.bucketAt j := by
      intro j
      rw [bucketAt_set_arena]
      split
      · next hc =>
        unfold Table.bucketAt
        rw [← hc.1]
      · rfl
    have hfnone : t.find hash k = none := by
      unfold Table.find Bucket.find
      rw [hfind]
      rfl
    refine ⟨inv_congr hInv rfl rfl (by dsimp only; rw [List.length_set]) rfl
      (fun j _ => hsame j), ?_, ?_⟩
    · rw [hfnone]
      rfl
    · intro k'
      have hfk' : Table.find { t with
          arena := t.arena.set (t.dir.getD (t.indexOf hash k) 0) (t.bucketAt (t.indexOf hash k)) }
          hash k' = t.find hash k' := by
        unfold Table.find
        rw [hsame]
        rfl
      rw [hfk']
      by_cases hk : k' = k
      · rw [if_pos hk, hk, hfnone]
      · rw [if_neg hk]
  | some pr =>
    dsimp only
    have hpr1 : pr.1 = k := by simpa using List.find?_some hfind
    have hprmem : pr ∈ (t.bucketAt (t.indexOf hash k)).list :=
      List.mem_of_find?_eq_some hfind
    have hbat : ∀ j,
        Table.bucketAt { t with
          arena := t.arena.set (t.dir.getD (t.indexOf hash k) 0)
                     { t.bucketAt (t.indexOf hash k) with
                       list := (t.bucketAt (t.indexOf hash k)).list.filter (fun q => q ≠ pr) } } j
        = (if t.dir.getD (t.indexOf hash k) 0 = t.dir.getD j 0 then
            { t.bucketAt (t.indexOf hash k) with
              list := (t.bucketAt (t.indexOf hash k)).list.filter (fun q => q ≠ pr) }
           else t.bucketAt j) := by
      intro j
      rw [bucketAt_set_arena]
      by_cases hc : t.dir.getD (t.indexOf hash k) 0 = t.dir.getD j 0
      · rw [if_pos ⟨hc, hbid⟩, if_pos hc]
      · rw [if_neg (fun hx => hc hx.1), if_neg hc]
    have heqb : ∀ j, t.dir.getD (t.indexOf hash k) 0 = t.dir.getD j 0 →
        t.bucketAt j = t.bucketAt (t.indexOf hash k) :=
      fun j hc => (bucketAt_eq_of_dir_eq hc).symm
    refine ⟨?_, ?_, ?_⟩
    · refine ⟨hInv.dirLen, ?_, ?_, ?_, ?_, ?_, ?_, ?_⟩
      · intro j hj
        dsimp only
        rw [List.length_set]
        exact hInv.bidLt j hj
      · intro j hj
        rw [hbat j]
        split
        · next hc =>
          have := hInv.depthLe j hj
          rw [heqb j hc] at this
          exact this
        · exact hInv.depthLe j hj
      · intro i' j' hi' hj'
        have hdep : (Table.bucketAt { t with
            arena := t.arena.set (t.dir.getD (t.indexOf hash k) 0)
                       { t.bucketAt (t.indexOf hash k) with
                         list := (t.bucketAt (t.indexOf hash k)).list.filter (fun q => q ≠ pr) } } i').depth
            = (t.bucketAt i').depth := by
          rw [hbat i']
          split
          · next hc => rw [heqb i' hc]
          · rfl
        rw [hdep]
        exact hInv.aliasing i' j' hi' hj'
      · intro j hj p hp
        rw [hbat j] at hp
        rw [hbat j]
        split at hp
        · next hc =>
          rw [if_pos hc]
          dsimp only at hp ⊢
          have hp' : p ∈ (t.bucketAt (t.indexOf hash k)).list :=
            (List.mem_filter.mp hp).1
          have hcon := hInv.content j hj p (by rw [heqb j hc]; exact hp')
          rw [heqb j hc] at hcon
          exact hcon
        · next hc =>
          rw [if_neg hc]
          exact hInv.content j hj p hp
      · intro j hj
        rw [hbat j]
        split
        · next hc =>
          dsimp only
          calc ((t.bucketAt (t.indexOf hash k)).list.filter (fun q => q ≠ pr)).length
              ≤ (t.bucketAt (t.indexOf hash k)).list.length := List.length_filter_le _ _
            _ ≤ t.bucketSize := hInv.capacity _ hi
        · exact hInv.capacity j hj
      · intro j hj
        rw [hbat j]
        split
        · next hc =>
          show (t.bucketAt (t.indexOf hash k)).size = t.bucketSize
          exact hInv.sizeEq _ hi
        · exact hInv.sizeEq j hj
      · intro j hj
        rw [hbat j]
        split
        · next hc =>
          dsimp only
          exact (hInv.keysNodup _ hi).sublist ((List.filter_sublist _).map Prod.fst)
        · exact hInv.keysNodup j hj
    · have hfsome : t.find hash k = some pr.2 := by
        unfold Table.find Bucket.find
        rw [hfind]
        rfl
      rw [hfsome]
      rfl
    · intro k'
      have hfk' : Table.find { t with
          arena := t.arena.set (t.dir.getD (t.indexOf hash k) 0)
                     { t.bucketAt (t.indexOf hash k) with
                       list := (t.bucketAt (t.indexOf hash k)).list.filter (fun q => q ≠ pr) } }
          hash k' =
          Bucket.find (if t.dir.getD (t.indexOf hash k) 0 = t.dir.getD (t.indexOf hash k') 0 then
            { t.bucketAt (t.indexOf hash k) with
              list := (t.bucketAt (t.indexOf hash k)).list.filter (fun q => q ≠ pr) }
           else t.bucketAt (t.indexOf hash k')) k' := by
        unfold Table.find
        rw [hbat]
        rfl
      rw [hfk']
      by_cases hk : k' = k
      · subst hk
        rw [if_pos rfl, if_pos rfl]
        unfold Bucket.find
        dsimp only
        rw [show (fun q : K × V => decide (q.1 = k')) = (fun q : K × V => decide (q.1 = pr.1))
            from by rw [hpr1]]
        rw [find?_filter_ne_self (hInv.keysNodup _ hi) (by rw [hpr1]; exact hfind)]
        rfl
      · rw [if_neg hk]
        split
        · next hc =>
          unfold Table.find Bucket.find
          dsimp only
          rw [find?_filter_ne_pair _ (fun he => hk (by rw [← he, hpr1]))]
          rw [← heqb _ hc]
        · next hc => rfl

/-- All keys of a visible bucket hash into its discriminant. -/
theorem content_of_keys {K V : Type} {hash : K → Nat} {t : Table K V} (hInv : Inv hash t)
    {i : Nat} (hi : i < t.dir.length) {k0 : K}
    (h : k0 ∈ (t.bucketAt i).list.map Prod.fst) :
    hash k0 % 2 ^ (t.bucketAt i).depth = i % 2 ^ (t.bucketAt i).depth := by
  obtain ⟨p, hp, hpk⟩ := List.mem_map.mp h
  have := hInv.content i hi p hp
  rw [hpk] at this
  exact this

/-- One unfolding of `InsertInternal` when the target bucket accepts the key
without splitting. -/
theorem insertStep_simple {K V : Type} [DecidableEq K] {hash : K → Nat}
    (self : Table K V → K → V → Option (Table K V)) {t : Table K V} {key : K}
    {value : V} {b' : Bucket K V}
    (hins : (t.bucketAt (t.indexOf hash key)).insert key value = some b') :
    insertStep hash self t key value =
      some { t with arena := t.arena.set (t.dir.getD (t.indexOf hash key) 0) b' } := by
  unfold insertStep
  dsimp only
  rw [show t.arena.getD (t.dir.getD (t.indexOf hash key) 0)
      { size := t.bucketSize, depth := 0, list := [] } = t.bucketAt (t.indexOf hash key)
    from rfl]
  rw [hins]

/-- Replacing the responsible bucket by one with the same depth and size,
whose keys came from the old bucket or are the inserted key, preserves the
invariant and updates the lookup function at exactly the inserted key. -/
theorem insert_bucket_update_spec {K V : Type} [DecidableEq K] {hash : K → Nat}
    {t : Table K V} {key : K} {value : V} (hInv : Inv hash t) {b' : Bucket K V}
    (hdepth : b'.depth = (t.bucketAt (t.indexOf hash key)).depth)
    (hsize : b'.size = (t.bucketAt (t.indexOf hash key)).size)
    (hkeys : ∀ k0, k0 ∈ b'.list.map Prod.fst →
      k0 ∈ (t.bucketAt (t.indexOf hash key)).list.map Prod.fst ∨ k0 = key)
    (hlen : b'.list.length ≤ t.bucketSize)
    (hnodup : (b'.list.map Prod.fst).Nodup)
    (hfself : b'.find key = some value)
    (hfne : ∀ k', k' ≠ key → b'.find k' = (t.bucketAt (t.indexOf hash key)).find k') :
    Inv hash { t with arena := t.arena.set (t.dir.getD (t.indexOf hash key) 0) b' } ∧
    (∀ k', Table.find { t with arena := t.arena.set (t.dir.getD (t.indexOf hash key) 0) b' }
      hash k' = if k' = key then some value else t.find hash k') := by
  have hi : t.indexOf hash key < t.dir.length := indexOf_lt hInv key
  have hbid : t.dir.getD (t.indexOf hash key) 0 < t.arena.length := hInv.bidLt _ hi
  have hbat : ∀ j,
      Table.bucketAt { t with
        arena := t.arena.set (t.dir.getD (t.indexOf hash key) 0) b' } j
      = (if t.dir.getD (t.indexOf hash key) 0 = t.dir.getD j 0 then b'
         else t.bucketAt j) := by
    intro j
    rw [bucketAt_set_arena]
    by_cases hc : t.dir.getD (t.indexOf hash key) 0 = t.dir.getD j 0
    · rw [if_pos ⟨hc, hbid⟩, if_pos hc]
    · rw [if_neg (fun hx => hc hx.1), if_neg hc]
  have heqb : ∀ j, t.dir.getD (t.indexOf hash key) 0 = t.dir.getD j 0 →
      t.bucketAt j = t.bucketAt (t.indexOf hash key) :=
    fun j hc => (bucketAt_eq_of_dir_eq hc).symm
  have hkeymod : hash key % 2 ^ (t.bucketAt (t.indexOf hash key)).depth =
      t.indexOf hash key % 2 ^ (t.bucketAt (t.indexOf hash key)).depth := by
    have h1 : t.indexOf hash key % 2 ^ (t.bucketAt (t.indexOf hash key)).depth
        = hash key % 2 ^ t.globalDepth % 2 ^ (t.bucketAt (t.indexOf hash key)).depth := rfl
    rw [h1, Aux.mod_mod_of_le _ (hInv.depthLe _ hi)]
  constructor
  · refine ⟨hInv.dirLen, ?_, ?_, ?_, ?_, ?_, ?_, ?_⟩
    · intro j hj
      dsimp only
      rw [List.length_set]
      exact hInv.bidLt j hj
    · intro j hj
      rw [hbat j]
      split
      · next hc =>
        rw [hdepth]
        have := hInv.depthLe j hj
        rw [heqb j hc] at this
        exact this
      · exact hInv.depthLe j hj
    · intro i' j' hi' hj'
      have hdep : (Table.bucketAt { t with
          arena := t.arena.set (t.dir.getD (t.indexOf hash key) 0) b' } i').depth
          = (t.bucketAt i').depth := by
        rw [hbat i']
        split
        · next hc => rw [hdepth, heqb i' hc]
        · rfl
      rw [hdep]
      exact hInv.aliasing i' j' hi' hj'
    · intro j hj p hp
      rw [hbat j] at hp
      rw [hbat j]
      split at hp
      · next hc =>
        rw [if_pos hc, hdepth]
        have hjl : j % 2 ^ (t.bucketAt (t.indexOf hash key)).depth =
            t.indexOf hash key % 2 ^ (t.bucketAt (t.indexOf hash key)).depth := by
          have := (hInv.aliasing (t.indexOf hash key) j hi hj).mp hc
          exact this.symm
        rcases hkeys p.1 (List.mem_map.mpr ⟨p, hp, rfl⟩) with hmem | hpkey
        · have := content_of_keys hInv hi hmem
          rw [this, hjl]
        · rw [hpkey, hkeymod, hjl]
      · next hc =>
        rw [if_neg hc]
        exact hInv.content j hj p hp
    · intro j hj
      rw [hbat j]
      split
      · exact hlen
      · exact hInv.capacity j hj
    · intro j hj
      rw [hbat j]
      split
      · rw [hsize]
        exact hInv.sizeEq _ hi
      · exact hInv.sizeEq j hj
    · intro j hj
      rw [hbat j]
      split
      · exact hnodup
      · exact hInv.keysNodup j hj
  · intro k'
    have hfk' : Table.find { t with
        arena := t.arena.set (t.dir.getD (t.indexOf hash key) 0) b' } hash k' =
        Bucket.find (if t.dir.getD (t.indexOf hash key) 0 =
            t.dir.getD (t.indexOf hash k') 0 then b'
          else t.bucketAt (t.indexOf hash k')) k' := by
      unfold Table.find
      rw [hbat]
      rfl
    rw [hfk']
    by_cases hk : k' = key
    · subst hk
      rw [if_pos rfl, if_pos rfl]
      exact hfself
    · rw [if_neg hk]
      split
      · next hc =>
        rw [hfne k' hk]
        unfold Table.find
        rw [← heqb _ hc]
      · next hc => rfl

/-- The table after a non-splitting insert satisfies the invariant and the
lookup function is updated at exactly the inserted key. -/
theorem simple_insert_spec {K V : Type} [DecidableEq K] {hash : K → Nat} {t : Table K V}
    {key : K} {value : V} {b' : Bucket K V} (hInv : Inv hash t)
    (hins : (t.bucketAt (t.indexOf hash key)).insert key value = some b') :
    Inv hash { t with arena := t.arena.set (t.dir.getD (t.indexOf hash key) 0) b' } ∧
    (∀ k', Table.find { t with arena := t.arena.set (t.dir.getD (t.indexOf hash key) 0) b' }
      hash k' = if k' = key then some value else t.find hash k') := by
  have hi : t.indexOf hash key < t.dir.length := indexOf_lt hInv key
  unfold Bucket.insert at hins
  by_cases hmem : ((t.bucketAt (t.indexOf hash key)).list.find? (fun q => q.1 = key)).isSome
  · rw [if_pos hmem] at hins
    obtain rfl := Option.some.inj hins
    refine insert_bucket_update_spec hInv rfl rfl ?_ ?_ ?_ ?_ ?_
    · intro k0 hk0
      left
      rw [updateFirst_map_fst] at hk0
      exact hk0
    · dsimp only
      rw [updateFirst_length]
      exact hInv.capacity _ hi
    · dsimp only
      rw [updateFirst_map_fst]
      exact hInv.keysNodup _ hi
    · unfold Bucket.find
      dsimp only
      rw [updateFirst_find?_self value hmem]
      rfl
    · intro k' hk'
      unfold Bucket.find
      dsimp only
      rw [updateFirst_find?_ne _ value hk']
  · rw [if_neg hmem] at hins
    by_cases hfull : (t.bucketAt (t.indexOf hash key)).isFull
    · rw [if_pos hfull] at hins
      cases hins
    · rw [if_neg hfull] at hins
      obtain rfl := Option.some.inj hins
      have hnone : (t.bucketAt (t.indexOf hash key)).list.find? (fun q => q.1 = key) = none :=
        Option.not_isSome_iff_eq_none.mp hmem
      have hnotin : ¬key ∈ (t.bucketAt (t.indexOf hash key)).list.map Prod.fst :=
        find?_key_eq_none.mp hnone
      refine insert_bucket_update_spec hInv rfl rfl ?_ ?_ ?_ ?_ ?_
      · intro k0 hk0
        dsimp only at hk0
        rw [List.map_append] at hk0
        rcases List.mem_append.mp hk0 with h1 | h2
        · exact Or.inl h1
        · exact Or.inr (by simpa using h2)
      · dsimp only
        rw [List.length_append]
        have hlt : (t.bucketAt (t.indexOf hash key)).list.length <
            (t.bucketAt (t.indexOf hash key)).size := by
          by_contra hge
          exact hfull (by simpa [Bucket.isFull] using Nat.le_of_not_lt hge)
        rw [hInv.sizeEq _ hi] at hlt
        simpa using hlt
      · dsimp only
        rw [List.map_append]
        exact List.Nodup.append (hInv.keysNodup _ hi) (by simp) (by simpa using hnotin)
      · unfold Bucket.find
        dsimp only
        rw [find?_key_append, hnone]
        rw [find?_key_cons, if_pos rfl]
        rfl
      · intro k' hk'
        unfold Bucket.find
        dsimp only
        rw [find?_key_append]
        rw [show ([((key, value))] : List (K × V)).find? (fun q => q.1 = k') = none from by
          rw [find?_key_cons, if_neg (by simpa using fun he => hk' he.symm)]
          rfl]
        cases (t.bucketAt (t.indexOf hash key)).list.find? (fun q => q.1 = k') <;> rfl

/-- A key hashing into the discriminant of `key`'s bucket is looked up in that
very bucket. -/
theorem alias_find {K V : Type} [DecidableEq K] {hash : K → Nat} {t : Table K V}
    (hInv : Inv hash t) {key k' : K}
    (hmod : hash k' % 2 ^ (t.bucketAt (t.indexOf hash key)).depth =
      hash key % 2 ^ (t.bucketAt (t.indexOf hash key)).depth) :
    t.find hash k' = (t.bucketAt (t.indexOf hash key)).find k' := by
  have hi : t.indexOf hash key < t.dir.length := indexOf_lt hInv key
  have hj : t.indexOf hash k' < t.dir.length := indexOf_lt hInv k'
  have hdl : (t.bucketAt (t.indexOf hash key)).depth ≤ t.globalDepth := hInv.depthLe _ hi
  have hmods : t.indexOf hash key % 2 ^ (t.bucketAt (t.indexOf hash key)).depth =
      t.indexOf hash k' % 2 ^ (t.bucketAt (t.indexOf hash key)).depth := by
    have h1 : t.indexOf hash key % 2 ^ (t.bucketAt (t.indexOf hash key)).depth
        = hash key % 2 ^ t.globalDepth % 2 ^ (t.bucketAt (t.indexOf hash key)).depth := rfl
    have h2 : t.indexOf hash k' % 2 ^ (t.bucketAt (t.indexOf hash key)).depth
        = hash k' % 2 ^ t.globalDepth % 2 ^ (t.bucketAt (t.indexOf hash key)).depth := rfl
    rw [h1, h2, Aux.mod_mod_of_le _ hdl, Aux.mod_mod_of_le _ hdl, hmod]
  have hdir : t.dir.getD (t.indexOf hash key) 0 = t.dir.getD (t.indexOf hash k') 0 :=
    (hInv.aliasing _ _ hi hj).mpr hmods
  unfold Table.find
  rw [← bucketAt_eq_of_dir_eq hdir]

/-- On a full target bucket `InsertInternal` rewires the directory as in
`splitTable`, re-inserts the bucket's items and retries. -/
theorem insertStep_split {K V : Type} [DecidableEq K] {hash : K → Nat}
    (self : Table K V → K → V → Option (Table K V)) {t : Table K V} {key : K}
    {value : V}
    (hnone : (t.bucketAt (t.indexOf hash key)).insert key value = none) :
    insertStep hash self t key value =
      match (t.bucketAt (t.indexOf hash key)).list.foldlM
          (fun st (p : K × V) => self st p.1 p.2) (splitTable hash t key) with
      | none => none
      | some t2 => self t2 key value := by
  unfold insertStep splitTable
  dsimp only
  rw [show t.arena.getD (t.dir.getD (t.indexOf hash key) 0)
      { size := t.bucketSize, depth := 0, list := [] } = t.bucketAt (t.indexOf hash key)
    from rfl]
  rw [hnone]

/-- The split path when the directory is deep enough: in-place rewiring. -/
theorem splitTable_rewire {K V : Type} {hash : K → Nat} {t : Table K V} {key : K}
    (hglob : ¬ t.globalDepth < (t.bucketAt (t.indexOf hash key)).depth + 1) :
    splitTable hash t key =
      { t with
        arena := t.arena ++
          [{ size := t.bucketSize, depth := (t.bucketAt (t.indexOf hash key)).depth + 1,
             list := [] },
           { size := t.bucketSize, depth := (t.bucketAt (t.indexOf hash key)).depth + 1,
             list := [] }]
        dir := (List.range t.dir.length).map (fun j =>
          if j % 2 ^ (t.bucketAt (t.indexOf hash key)).depth =
              t.indexOf hash key % 2 ^ (t.bucketAt (t.indexOf hash key)).depth then
            (if j.testBit (t.bucketAt (t.indexOf hash key)).depth then t.arena.length + 1
             else t.arena.length)
          else t.dir.getD j 0) } := by
  unfold splitTable
  dsimp only
  rw [show t.arena.getD (t.dir.getD (t.indexOf hash key) 0)
      { size := t.bucketSize, depth := 0, list := [] } = t.bucketAt (t.indexOf hash key)
    from rfl]
  rw [if_neg hglob]

/-- The split path when the directory must double. -/
theorem splitTable_grow {K V : Type} {hash : K → Nat} {t : Table K V} {key : K}
    (hglob : t.globalDepth < (t.bucketAt (t.indexOf hash key)).depth + 1) :
    splitTable hash t key =
      { t with
        globalDepth := t.globalDepth + 1
        arena := t.arena ++
          [{ size := t.bucketSize, depth := (t.bucketAt (t.indexOf hash key)).depth + 1,
             list := [] },
           { size := t.bucketSize, depth := (t.bucketAt (t.indexOf hash key)).depth + 1,
             list := [] }]
        dir := ((t.dir ++ t.dir).set (t.indexOf hash key) t.arena.length).set
          (t.indexOf hash key + t.dir.length) (t.arena.length + 1) } := by
  unfold splitTable
  dsimp only
  rw [show t.arena.getD (t.dir.getD (t.indexOf hash key) 0)
      { size := t.bucketSize, depth := 0, list := [] } = t.bucketAt (t.indexOf hash key)
    from rfl]
  rw [if_pos hglob]

/-- After the in-place rewiring the invariant holds, keys hashing into the
split bucket's discriminant are no longer found, and all other keys are
unaffected. -/
theorem splitTable_spec_rewire {K V : Type} [DecidableEq K] {hash : K → Nat}
    {t : Table K V} {key : K} (hInv : Inv hash t)
    (hglob : ¬ t.globalDepth < (t.bucketAt (t.indexOf hash key)).depth + 1) :
    Inv hash (splitTable hash t key) ∧
    (∀ k', hash k' % 2 ^ (t.bucketAt (t.indexOf hash key)).depth =
        hash key % 2 ^ (t.bucketAt (t.indexOf hash key)).depth →
      (splitTable hash t key).find hash k' = none) ∧
    (∀ k', ¬ hash k' % 2 ^ (t.bucketAt (t.indexOf hash key)).depth =
        hash key % 2 ^ (t.bucketAt (t.indexOf hash key)).depth →
      (splitTable hash t key).find hash k' = t.find hash k') ∧
    (∀ k', hash k' % 2 ^ (t.bucketAt (t.indexOf hash key)).depth =
        hash key % 2 ^ (t.bucketAt (t.indexOf hash key)).depth →
      (splitTable hash t key).bucketAt ((splitTable hash t key).indexOf hash k') =
        { size := t.bucketSize, depth := (t.bucketAt (t.indexOf hash key)).depth + 1,
          list := [] }) ∧
    (splitTable hash t key).bucketSize = t.bucketSize := by
  have hi : t.indexOf hash key < t.dir.length := indexOf_lt hInv key
  have hgl : (t.bucketAt (t.indexOf hash key)).depth + 1 ≤ t.globalDepth :=
    Nat.le_of_not_lt hglob
  have hkeymod : t.indexOf hash key % 2 ^ (t.bucketAt (t.indexOf hash key)).depth =
      hash key % 2 ^ (t.bucketAt (t.indexOf hash key)).depth :=
    Aux.mod_mod_of_le (hash key) (by omega)
  have hrw := splitTable_rewire hglob
  have hglob' : (splitTable hash t key).globalDepth = t.globalDepth := by rw [hrw]
  have hsize' : (splitTable hash t key).bucketSize = t.bucketSize := by rw [hrw]
  have harena : (splitTable hash t key).arena.length = t.arena.length + 2 := by
    rw [hrw]
    dsimp only
    rw [List.length_append]
    rfl
  have hdirlen : (splitTable hash t key).dir.length = t.dir.length := by
    rw [hrw]
    dsimp only
    rw [List.length_map, List.length_range]
  have hdirget : ∀ j, j < t.dir.length → (splitTable hash t key).dir.getD j 0 =
      if j % 2 ^ (t.bucketAt (t.indexOf hash key)).depth =
          t.indexOf hash key % 2 ^ (t.bucketAt (t.indexOf hash key)).depth then
        (if j.testBit (t.bucketAt (t.indexOf hash key)).depth then t.arena.length + 1
         else t.arena.length)
      else t.dir.getD j 0 := by
    intro j hj
    rw [hrw]
    dsimp only
    exact Aux.getD_range_map hj 0
  have hfr0 : (splitTable hash t key).arena.getD t.arena.length
      { size := t.bucketSize, depth := 0, list := [] } =
      { size := t.bucketSize, depth := (t.bucketAt (t.indexOf hash key)).depth + 1,
        list := [] } := by
    rw [hrw]
    dsimp only
    rw [Aux.getD_append_ge _ _ (Nat.le_refl _)]
    simp [List.getD]
  have hfr1 : (splitTable hash t key).arena.getD (t.arena.length + 1)
      { size := t.bucketSize, depth := 0, list := [] } =
      { size := t.bucketSize, depth := (t.bucketAt (t.indexOf hash key)).depth + 1,
        list := [] } := by
    rw [hrw]
    dsimp only
    rw [Aux.getD_append_ge _ _ (Nat.le_succ _)]
    simp [List.getD]
  have hbat : ∀ j, j < t.dir.length → (splitTable hash t key).bucketAt j =
      if j % 2 ^ (t.bucketAt (t.indexOf hash key)).depth =
          t.indexOf hash key % 2 ^ (t.bucketAt (t.indexOf hash key)).depth then
        { size := t.bucketSize, depth := (t.bucketAt (t.indexOf hash key)).depth + 1,
          list := [] }
      else t.bucketAt j := by
    intro j hj
    show (splitTable hash t key).arena.getD ((splitTable hash t key).dir.getD j 0)
        { size := (splitTable hash t key).bucketSize, depth := 0, list := [] } = _
    rw [hdirget j hj, hsize']
    by_cases hc : j % 2 ^ (t.bucketAt (t.indexOf hash key)).depth =
        t.indexOf hash key % 2 ^ (t.bucketAt (t.indexOf hash key)).depth
    · rw [if_pos hc, if_pos hc]
      by_cases hb : j.testBit (t.bucketAt (t.indexOf hash key)).depth
      · rw [if_pos hb]
        exact hfr1
      · rw [if_neg hb]
        exact hfr0
    · rw [if_neg hc, if_neg hc]
      have hbid : t.dir.getD j 0 < t.arena.length := hInv.bidLt j hj
      rw [hrw]
      dsimp only
      exact Aux.getD_append_lt _ hbid _
  refine ⟨⟨?_, ?_, ?_, ?_, ?_, ?_, ?_, ?_⟩, ?_, ?_, ?_, hsize'⟩
  · rw [hdirlen, hglob', hInv.dirLen]
  · intro j hj
    rw [hdirlen] at hj
    rw [hdirget j hj, harena]
    split
    · split
      · omega
      · omega
    · have := hInv.bidLt j hj
      omega
  · intro j hj
    rw [hdirlen] at hj
    rw [hbat j hj, hglob']
    split
    · dsimp only
      omega
    · exact hInv.depthLe j hj
  · intro i' j' hi' hj'
    rw [hdirlen] at hi' hj'
    rw [hdirget i' hi', hdirget j' hj', hbat i' hi']
    by_cases hci : i' % 2 ^ (t.bucketAt (t.indexOf hash key)).depth =
        t.indexOf hash key % 2 ^ (t.bucketAt (t.indexOf hash key)).depth
    · rw [if_pos hci, if_pos hci]
      dsimp only
      by_cases hcj : j' % 2 ^ (t.bucketAt (t.indexOf hash key)).depth =
          t.indexOf hash key % 2 ^ (t.bucketAt (t.indexOf hash key)).depth
      · rw [if_pos hcj, Aux.mod_pow_succ_iff]
        constructor
        · intro h
          refine ⟨hci.trans hcj.symm, ?_⟩
          rcases Bool.eq_false_or_eq_true
              (i'.testBit (t.bucketAt (t.indexOf hash key)).depth) with hbi | hbi <;>
            rcases Bool.eq_false_or_eq_true
                (j'.testBit (t.bucketAt (t.indexOf hash key)).depth) with hbj | hbj
          · rw [hbi, hbj]
          · rw [hbi, hbj] at h
            rw [if_pos rfl] at h
            rw [if_neg (by simp)] at h
            exact absurd h (by omega)
          · rw [hbi, hbj] at h
            rw [if_pos rfl] at h
            rw [if_neg (by simp)] at h
            exact absurd h (by omega)
          · rw [hbi, hbj]
        · rintro ⟨h1, h2⟩
          rw [h2]
      · rw [if_neg hcj]
        have hjbid : t.dir.getD j' 0 < t.arena.length := hInv.bidLt j' hj'
        refine iff_of_false ?_ ?_
        · intro h
          rcases Bool.eq_false_or_eq_true
              (i'.testBit (t.bucketAt (t.indexOf hash key)).depth) with hbi | hbi <;>
            rw [hbi] at h
          · rw [if_pos rfl] at h
            omega
          · rw [if_neg (by simp)] at h
            omega
        · intro h
          have hmods : i' % 2 ^ (t.bucketAt (t.indexOf hash key)).depth =
              j' % 2 ^ (t.bucketAt (t.indexOf hash key)).depth := by
            have hcg := congrArg
              (fun x => x % 2 ^ (t.bucketAt (t.indexOf hash key)).depth) h
            dsimp only at hcg
            rwa [Aux.mod_mod_of_le i' (Nat.le_succ _),
              Aux.mod_mod_of_le j' (Nat.le_succ _)] at hcg
          exact hcj (hmods.symm.trans hci)
    · rw [if_neg hci, if_neg hci]
      by_cases hcj : j' % 2 ^ (t.bucketAt (t.indexOf hash key)).depth =
          t.indexOf hash key % 2 ^ (t.bucketAt (t.indexOf hash key)).depth
      · rw [if_pos hcj]
        have hibid : t.dir.getD i' 0 < t.arena.length := hInv.bidLt i' hi'
        refine iff_of_false ?_ ?_
        · intro h
          rcases Bool.eq_false_or_eq_true
              (j'.testBit (t.bucketAt (t.indexOf hash key)).depth) with hbj | hbj <;>
            rw [hbj] at h
          · rw [if_pos rfl] at h
            omega
          · rw [if_neg (by simp)] at h
            omega
        · intro h
          have h1 : t.dir.getD i' 0 = t.dir.getD j' 0 :=
            (hInv.aliasing i' j' hi' hj').mpr h
          have h2 : t.dir.getD (t.indexOf hash key) 0 = t.dir.getD j' 0 :=
            (hInv.aliasing (t.indexOf hash key) j' hi hj').mpr hcj.symm
          exact hci ((hInv.aliasing (t.indexOf hash key) i' hi hi').mp
            (h2.trans h1.symm)).symm
      · rw [if_neg hcj]
        exact hInv.aliasing i' j' hi' hj'
  · intro j hj p hp
    rw [hdirlen] at hj
    rw [hbat j hj] at hp ⊢
    by_cases hc : j % 2 ^ (t.bucketAt (t.indexOf hash key)).depth =
        t.indexOf hash key % 2 ^ (t.bucketAt (t.indexOf hash key)).depth
    · rw [if_pos hc] at hp
      exact absurd hp (by simp)
    · rw [if_neg hc] at hp ⊢
      exact hInv.content j hj p hp
  · intro j hj
    rw [hdirlen] at hj
    rw [hbat j hj, hsize']
    split
    · simp
    · exact hInv.capacity j hj
  · intro j hj
    rw [hdirlen] at hj
    rw [hbat j hj, hsize']
    split
    · rfl
    · exact hInv.sizeEq j hj
  · intro j hj
    rw [hdirlen] at hj
    rw [hbat j hj]
    split
    · simp
    · exact hInv.keysNodup j hj
  · intro k' hk'
    have hj' : t.indexOf hash k' < t.dir.length := indexOf_lt hInv k'
    have hidx : (splitTable hash t key).indexOf hash k' = t.indexOf hash k' := by
      unfold Table.indexOf
      rw [hglob']
    have hc : t.indexOf hash k' % 2 ^ (t.bucketAt (t.indexOf hash key)).depth =
        t.indexOf hash key % 2 ^ (t.bucketAt (t.indexOf hash key)).depth := by
      have h1 : t.indexOf hash k' % 2 ^ (t.bucketAt (t.indexOf hash key)).depth =
          hash k' % 2 ^ (t.bucketAt (t.indexOf hash key)).depth :=
        Aux.mod_mod_of_le (hash k') (by omega)
      rw [h1, hk', ← hkeymod]
    show ((splitTable hash t key).bucketAt
      ((splitTable hash t key).indexOf hash k')).find k' = none
    rw [hidx, hbat _ hj', if_pos hc]
    rfl
  · intro k' hk'
    have hj' : t.indexOf hash k' < t.dir.length := indexOf_lt hInv k'
    have hidx : (splitTable hash t key).indexOf hash k' = t.indexOf hash k' := by
      unfold Table.indexOf
      rw [hglob']
    have hc : ¬ t.indexOf hash k' % 2 ^ (t.bucketAt (t.indexOf hash key)).depth =
        t.indexOf hash key % 2 ^ (t.bucketAt (t.indexOf hash key)).depth := by
      intro hcc
      apply hk'
      have h1 : t.indexOf hash k' % 2 ^ (t.bucketAt (t.indexOf hash key)).depth =
          hash k' % 2 ^ (t.bucketAt (t.indexOf hash key)).depth :=
        Aux.mod_mod_of_le (hash k') (by omega)
      rw [← h1, hcc]
      exact hkeymod
    show ((splitTable hash t key).bucketAt
      ((splitTable hash t key).indexOf hash k')).find k' = t.find hash k'
    rw [hidx, hbat _ hj', if_neg hc]
    rfl
  · intro k' hk'
    have hj' : t.indexOf hash k' < t.dir.length := indexOf_lt hInv k'
    have hidx : (splitTable hash t key).indexOf hash k' = t.indexOf hash k' := by
      unfold Table.indexOf
      rw [hglob']
    have hc : t.indexOf hash k' % 2 ^ (t.bucketAt (t.indexOf hash key)).depth =
        t.indexOf hash key % 2 ^ (t.bucketAt (t.indexOf hash key)).depth := by
      have h1 : t.indexOf hash k' % 2 ^ (t.bucketAt (t.indexOf hash key)).depth =
          hash k' % 2 ^ (t.bucketAt (t.indexOf hash key)).depth :=
        Aux.mod_mod_of_le (hash k') (by omega)
      rw [h1, hk', ← hkeymod]
    rw [hidx, hbat _ hj', if_pos hc]

/-- After the directory-doubling rewiring the invariant holds, keys hashing
into the split bucket's discriminant are no longer found, and all other keys
are unaffected. -/
theorem splitTable_spec_grow {K V : Type} [DecidableEq K] {hash : K → Nat}
    {t : Table K V} {key : K} (hInv : Inv hash t)
    (hglob : t.globalDepth < (t.bucketAt (t.indexOf hash key)).depth + 1) :
    Inv hash (splitTable hash t key) ∧
    (∀ k', hash k' % 2 ^ (t.bucketAt (t.indexOf hash key)).depth =
        hash key % 2 ^ (t.bucketAt (t.indexOf hash key)).depth →
      (splitTable hash t key).find hash k' = none) ∧
    (∀ k', ¬ hash k' % 2 ^ (t.bucketAt (t.indexOf hash key)).depth =
        hash key % 2 ^ (t.bucketAt (t.indexOf hash key)).depth →
      (splitTable hash t key).find hash k' = t.find hash k') ∧
    (∀ k', hash k' % 2 ^ (t.bucketAt (t.indexOf hash key)).depth =
        hash key % 2 ^ (t.bucketAt (t.indexOf hash key)).depth →
      (splitTable hash t key).bucketAt ((splitTable hash t key).indexOf hash k') =
        { size := t.bucketSize, depth := (t.bucketAt (t.indexOf hash key)).depth + 1,
          list := [] }) ∧
    (splitTable hash t key).bucketSize = t.bucketSize := by
  have hi : t.indexOf hash key < t.dir.length := indexOf_lt hInv key
  have hlg : (t.bucketAt (t.indexOf hash key)).depth = t.globalDepth := by
    have := hInv.depthLe _ hi
    omega
  have hpow : 0 < 2 ^ t.globalDepth := Nat.pos_pow_of_pos _ (by omega)
  have hnpos : 0 < t.dir.length := by
    rw [hInv.dirLen]
    exact hpow
  have h2n : 2 ^ (t.globalDepth + 1) = 2 * t.dir.length := by
    rw [hInv.dirLen, pow_succ]
    ring
  have hrw := splitTable_grow hglob
  have hglob' : (splitTable hash t key).globalDepth = t.globalDepth + 1 := by rw [hrw]
  have hsize' : (splitTable hash t key).bucketSize = t.bucketSize := by rw [hrw]
  have harena : (splitTable hash t key).arena.length = t.arena.length + 2 := by
    rw [hrw]
    dsimp only
    rw [List.length_append]
    rfl
  have hdirlen : (splitTable hash t key).dir.length = 2 * t.dir.length := by
    rw [hrw]
    dsimp only
    rw [List.length_set, List.length_set, List.length_append]
    omega
  have hfr0 : (splitTable hash t key).arena.getD t.arena.length
      { size := t.bucketSize, depth := 0, list := [] } =
      { size := t.bucketSize, depth := (t.bucketAt (t.indexOf hash key)).depth + 1,
        list := [] } := by
    rw [hrw]
    dsimp only
    rw [Aux.getD_append_ge _ _ (Nat.le_refl _)]
    simp [List.getD]
  have hfr1 : (splitTable hash t key).arena.getD (t.arena.length + 1)
      { size := t.bucketSize, depth := 0, list := [] } =
      { size := t.bucketSize, depth := (t.bucketAt (t.indexOf hash key)).depth + 1,
        list := [] } := by
    rw [hrw]
    dsimp only
    rw [Aux.getD_append_ge _ _ (Nat.le_succ _)]
    simp [List.getD]
  have hdirget : ∀ j, j < 2 * t.dir.length → (splitTable hash t key).dir.getD j 0 =
      if j = t.indexOf hash key then t.arena.length
      else if j = t.indexOf hash key + t.dir.length then t.arena.length + 1
      else t.dir.getD (j % 2 ^ t.globalDepth) 0 := by
    intro j hj
    rw [hrw]
    dsimp only
    rw [Aux.getD_set, Aux.getD_set]
    rw [List.length_set, List.length_append]
    by_cases h1 : j = t.indexOf hash key
    · subst h1
      rw [if_neg (by omega), if_pos ⟨rfl, by omega⟩, if_pos rfl]
    · by_cases h2 : j = t.indexOf hash key + t.dir.length
      · subst h2
        rw [if_pos ⟨rfl, by omega⟩, if_neg h1, if_pos rfl]
      · rw [if_neg (fun hc => h2 hc.1.symm), if_neg (fun hc => h1 hc.1.symm),
          if_neg h1, if_neg h2]
        rcases Nat.lt_or_ge j t.dir.length with hlt | hge
        · rw [Aux.getD_append_lt _ hlt]
          have hm : j % 2 ^ t.globalDepth = j :=
            Nat.mod_eq_of_lt (by rw [← hInv.dirLen]; exact hlt)
          rw [hm]
        · rw [Aux.getD_append_ge _ _ hge]
          have hm : j % 2 ^ t.globalDepth = j - t.dir.length := by
            rw [← hInv.dirLen]
            rw [Nat.mod_eq_sub_mod hge, Nat.mod_eq_of_lt (by omega)]
          rw [hm]
  have hbat : ∀ j, j < 2 * t.dir.length → (splitTable hash t key).bucketAt j =
      if j = t.indexOf hash key ∨ j = t.indexOf hash key + t.dir.length then
        { size := t.bucketSize, depth := (t.bucketAt (t.indexOf hash key)).depth + 1,
          list := [] }
      else t.bucketAt (j % 2 ^ t.globalDepth) := by
    intro j hj
    have hjm : j % 2 ^ t.globalDepth < t.dir.length := by
      rw [hInv.dirLen]
      exact Nat.mod_lt _ hpow
    show (splitTable hash t key).arena.getD ((splitTable hash t key).dir.getD j 0)
        { size := (splitTable hash t key).bucketSize, depth := 0, list := [] } = _
    rw [hdirget j hj, hsize']
    by_cases h1 : j = t.indexOf hash key
    · rw [if_pos h1, if_pos (Or.inl h1)]
      exact hfr0
    · rw [if_neg h1]
      by_cases h2 : j = t.indexOf hash key + t.dir.length
      · rw [if_pos h2, if_pos (Or.inr h2)]
        exact hfr1
      · rw [if_neg h2, if_neg (fun hc => hc.elim h1 h2)]
        have hbid : t.dir.getD (j % 2 ^ t.globalDepth) 0 < t.arena.length :=
          hInv.bidLt _ hjm
        rw [hrw]
        dsimp only
        exact Aux.getD_append_lt _ hbid _
  have haux : ∀ j, j < 2 * t.dir.length →
      (j % 2 ^ t.globalDepth = t.indexOf hash key ↔
        (j = t.indexOf hash key ∨ j = t.indexOf hash key + t.dir.length)) := by
    intro j hj
    rcases Nat.lt_or_ge j t.dir.length with hlt | hge
    · have hm : j % 2 ^ t.globalDepth = j :=
        Nat.mod_eq_of_lt (by rw [← hInv.dirLen]; exact hlt)
      rw [hm]
      constructor
      · exact fun h => Or.inl h
      · rintro (h | h)
        · exact h
        · omega
    · have hm : j % 2 ^ t.globalDepth = j - t.dir.length := by
        rw [← hInv.dirLen]
        rw [Nat.mod_eq_sub_mod hge, Nat.mod_eq_of_lt (by omega)]
      rw [hm]
      constructor
      · intro h
        right
        omega
      · rintro (h | h) <;> omega
  refine ⟨⟨?_, ?_, ?_, ?_, ?_, ?_, ?_, ?_⟩, ?_, ?_, ?_, hsize'⟩
  · rw [hdirlen, hglob', h2n]
  · intro j hj
    rw [hdirlen] at hj
    have hjm : j % 2 ^ t.globalDepth < t.dir.length := by
      rw [hInv.dirLen]
      exact Nat.mod_lt _ hpow
    rw [hdirget j hj, harena]
    split
    · omega
    · split
      · omega
      · have := hInv.bidLt _ hjm
        omega
  · intro j hj
    rw [hdirlen] at hj
    have hjm : j % 2 ^ t.globalDepth < t.dir.length := by
      rw [hInv.dirLen]
      exact Nat.mod_lt _ hpow
    rw [hbat j hj, hglob']
    split
    · dsimp only
      omega
    · have := hInv.depthLe _ hjm
      omega
  · intro i' j' hi' hj'
    rw [hdirlen] at hi' hj'
    have him : i' % 2 ^ t.globalDepth < t.dir.length := by
      rw [hInv.dirLen]
      exact Nat.mod_lt _ hpow
    have hjm : j' % 2 ^ t.globalDepth < t.dir.length := by
      rw [hInv.dirLen]
      exact Nat.mod_lt _ hpow
    rw [hbat i' hi']
    by_cases hfi : i' = t.indexOf hash key ∨ i' = t.indexOf hash key + t.dir.length
    · rw [if_pos hfi]
      dsimp only
      rw [hlg]
      rw [Nat.mod_eq_of_lt (by omega), Nat.mod_eq_of_lt (by omega)]
      by_cases hfj : j' = t.indexOf hash key ∨ j' = t.indexOf hash key + t.dir.length
      · rcases hfi with rfl | rfl <;> rcases hfj with h | h
        · rw [h]
          exact iff_of_true rfl rfl
        · refine iff_of_false (fun hEq => ?_) (by omega)
          rw [hdirget _ (by omega), hdirget j' (by omega)] at hEq
          rw [if_pos rfl, h] at hEq
          rw [if_neg (by omega)] at hEq
          rw [if_pos rfl] at hEq
          omega
        · refine iff_of_false (fun hEq => ?_) (by omega)
          rw [hdirget _ (by omega), hdirget j' (by omega)] at hEq
          rw [if_neg (by omega)] at hEq
          rw [if_pos rfl, h] at hEq
          rw [if_pos rfl] at hEq
          omega
        · rw [h]
          exact iff_of_true rfl rfl
      · refine iff_of_false (fun hEq => ?_) (fun h => hfj (by omega))
        have hj1 : ¬ j' = t.indexOf hash key := fun hh => hfj (Or.inl hh)
        have hj2 : ¬ j' = t.indexOf hash key + t.dir.length := fun hh => hfj (Or.inr hh)
        have hjb := hInv.bidLt _ hjm
        rw [hdirget _ (by omega), hdirget j' (by omega)] at hEq
        rw [if_neg hj1, if_neg hj2] at hEq
        rcases hfi with rfl | rfl
        · rw [if_pos rfl] at hEq
          omega
        · rw [if_neg (by omega)] at hEq
          rw [if_pos rfl] at hEq
          omega
    · rw [if_neg hfi]
      have hi1 : ¬ i' = t.indexOf hash key := fun hh => hfi (Or.inl hh)
      have hi2 : ¬ i' = t.indexOf hash key + t.dir.length := fun hh => hfi (Or.inr hh)
      have hd : (t.bucketAt (i' % 2 ^ t.globalDepth)).depth ≤ t.globalDepth :=
        hInv.depthLe _ him
      by_cases hfj : j' = t.indexOf hash key ∨ j' = t.indexOf hash key + t.dir.length
      · refine iff_of_false (fun hEq => ?_) (fun h => ?_)
        · have hib := hInv.bidLt _ him
          rw [hdirget i' (by omega), hdirget _ (by omega)] at hEq
          rw [if_neg hi1, if_neg hi2] at hEq
          rcases hfj with rfl | rfl
          · rw [if_pos rfl] at hEq
            omega
          · rw [if_neg (by omega)] at hEq
            rw [if_pos rfl] at hEq
            omega
        · have hj'm : j' % 2 ^ t.globalDepth = t.indexOf hash key :=
            (haux j' (by omega)).mpr hfj
          have hmm' : i' % 2 ^ t.globalDepth %
                2 ^ (t.bucketAt (i' % 2 ^ t.globalDepth)).depth =
              t.indexOf hash key % 2 ^ (t.bucketAt (i' % 2 ^ t.globalDepth)).depth := by
            rw [Aux.mod_mod_of_le i' hd, ← hj'm, Aux.mod_mod_of_le j' hd]
            exact h
          have h1 : t.dir.getD (i' % 2 ^ t.globalDepth) 0 =
              t.dir.getD (t.indexOf hash key) 0 :=
            (hInv.aliasing (i' % 2 ^ t.globalDepth) (t.indexOf hash key) him hi).mpr hmm'
          have h2 := (hInv.aliasing (t.indexOf hash key) (i' % 2 ^ t.globalDepth)
            hi him).mp h1.symm
          rw [hlg] at h2
          rw [Nat.mod_eq_of_lt (by omega),
            Nat.mod_eq_of_lt (Nat.mod_lt _ hpow)] at h2
          exact hfi ((haux i' (by omega)).mp h2.symm)
      · have hj1 : ¬ j' = t.indexOf hash key := fun hh => hfj (Or.inl hh)
        have hj2 : ¬ j' = t.indexOf hash key + t.dir.length := fun hh => hfj (Or.inr hh)
        rw [hdirget i' (by omega), hdirget j' (by omega)]
        rw [if_neg hi1, if_neg hi2, if_neg hj1, if_neg hj2]
        have base := hInv.aliasing (i' % 2 ^ t.globalDepth) (j' % 2 ^ t.globalDepth)
          him hjm
        constructor
        · intro hEq
          have := base.mp hEq
          rwa [Aux.mod_mod_of_le i' hd, Aux.mod_mod_of_le j' hd] at this
        · intro h
          refine base.mpr ?_
          rw [Aux.mod_mod_of_le i' hd, Aux.mod_mod_of_le j' hd]
          exact h
  · intro j hj p hp
    rw [hdirlen] at hj
    rw [hbat j hj] at hp ⊢
    by_cases hc : j = t.indexOf hash key ∨ j = t.indexOf hash key + t.dir.length
    · rw [if_pos hc] at hp
      exact absurd hp (by simp)
    · rw [if_neg hc] at hp ⊢
      have hjm : j % 2 ^ t.globalDepth < t.dir.length := by
        rw [hInv.dirLen]
        exact Nat.mod_lt _ hpow
      have hd : (t.bucketAt (j % 2 ^ t.globalDepth)).depth ≤ t.globalDepth :=
        hInv.depthLe _ hjm
      have := hInv.content (j % 2 ^ t.globalDepth) hjm p hp
      rwa [Aux.mod_mod_of_le j hd] at this
  · intro j hj
    rw [hdirlen] at hj
    rw [hbat j hj, hsize']
    split
    · simp
    · have hjm : j % 2 ^ t.globalDepth < t.dir.length := by
        rw [hInv.dirLen]
        exact Nat.mod_lt _ hpow
      exact hInv.capacity _ hjm
  · intro j hj
    rw [hdirlen] at hj
    rw [hbat j hj, hsize']
    split
    · rfl
    · have hjm : j % 2 ^ t.globalDepth < t.dir.length := by
        rw [hInv.dirLen]
        exact Nat.mod_lt _ hpow
      exact hInv.sizeEq _ hjm
  · intro j hj
    rw [hdirlen] at hj
    rw [hbat j hj]
    split
    · simp
    · have hjm : j % 2 ^ t.globalDepth < t.dir.length := by
        rw [hInv.dirLen]
        exact Nat.mod_lt _ hpow
      exact hInv.keysNodup _ hjm
  · intro k' hk'
    have hXidx : (splitTable hash t key).indexOf hash k' =
        hash k' % 2 ^ (t.globalDepth + 1) := by
      unfold Table.indexOf
      rw [hglob']
    have hjlt : hash k' % 2 ^ (t.globalDepth + 1) < 2 * t.dir.length := by
      have := Nat.mod_lt (hash k') (show 0 < 2 ^ (t.globalDepth + 1) from
        Nat.pos_pow_of_pos _ (by omega))
      omega
    have hcond : hash k' % 2 ^ (t.globalDepth + 1) % 2 ^ t.globalDepth =
        t.indexOf hash key := by
      rw [Aux.mod_mod_of_le (hash k') (Nat.le_succ _)]
      show hash k' % 2 ^ t.globalDepth = hash key % 2 ^ t.globalDepth
      rw [← hlg]
      exact hk'
    show ((splitTable hash t key).bucketAt
      ((splitTable hash t key).indexOf hash k')).find k' = none
    rw [hXidx, hbat _ hjlt, if_pos ((haux _ hjlt).mp hcond)]
    rfl
  · intro k' hk'
    have hXidx : (splitTable hash t key).indexOf hash k' =
        hash k' % 2 ^ (t.globalDepth + 1) := by
      unfold Table.indexOf
      rw [hglob']
    have hjlt : hash k' % 2 ^ (t.globalDepth + 1) < 2 * t.dir.length := by
      have := Nat.mod_lt (hash k') (show 0 < 2 ^ (t.globalDepth + 1) from
        Nat.pos_pow_of_pos _ (by omega))
      omega
    have hncond : ¬ hash k' % 2 ^ (t.globalDepth + 1) % 2 ^ t.globalDepth =
        t.indexOf hash key := by
      intro hcc
      apply hk'
      rw [Aux.mod_mod_of_le (hash k') (Nat.le_succ _)] at hcc
      show hash k' % 2 ^ (t.bucketAt (t.indexOf hash key)).depth =
        hash key % 2 ^ (t.bucketAt (t.indexOf hash key)).depth
      rw [hlg]
      exact hcc
    show ((splitTable hash t key).bucketAt
      ((splitTable hash t key).indexOf hash k')).find k' = t.find hash k'
    rw [hXidx, hbat _ hjlt, if_neg (fun hor => hncond ((haux _ hjlt).mpr hor))]
    rw [Aux.mod_mod_of_le (hash k') (Nat.le_succ _)]
    rfl
  · intro k' hk'
    have hXidx : (splitTable hash t key).indexOf hash k' =
        hash k' % 2 ^ (t.globalDepth + 1) := by
      unfold Table.indexOf
      rw [hglob']
    have hjlt : hash k' % 2 ^ (t.globalDepth + 1) < 2 * t.dir.length := by
      have := Nat.mod_lt (hash k') (show 0 < 2 ^ (t.globalDepth + 1) from
        Nat.pos_pow_of_pos _ (by omega))
      omega
    have hcond : hash k' % 2 ^ (t.globalDepth + 1) % 2 ^ t.globalDepth =
        t.indexOf hash key := by
      rw [Aux.mod_mod_of_le (hash k') (Nat.le_succ _)]
      show hash k' % 2 ^ t.globalDepth = hash key % 2 ^ t.globalDepth
      rw [← hlg]
      exact hk'
    rw [hXidx, hbat _ hjlt, if_pos ((haux _ hjlt).mp hcond)]

/-- The two split branches share their specification. -/
theorem splitTable_spec {K V : Type} [DecidableEq K] {hash : K → Nat}
    {t : Table K V} {key : K} (hInv : Inv hash t) :
    Inv hash (splitTable hash t key) ∧
    (∀ k', hash k' % 2 ^ (t.bucketAt (t.indexOf hash key)).depth =
        hash key % 2 ^ (t.bucketAt (t.indexOf hash key)).depth →
      (splitTable hash t key).find hash k' = none) ∧
    (∀ k', ¬ hash k' % 2 ^ (t.bucketAt (t.indexOf hash key)).depth =
        hash key % 2 ^ (t.bucketAt (t.indexOf hash key)).depth →
      (splitTable hash t key).find hash k' = t.find hash k') ∧
    (∀ k', hash k' % 2 ^ (t.bucketAt (t.indexOf hash key)).depth =
        hash key % 2 ^ (t.bucketAt (t.indexOf hash key)).depth →
      (splitTable hash t key).bucketAt ((splitTable hash t key).indexOf hash k') =
        { size := t.bucketSize, depth := (t.bucketAt (t.indexOf hash key)).depth + 1,
          list := [] }) ∧
    (splitTable hash t key).bucketSize = t.bucketSize := by
  by_cases hglob : t.globalDepth < (t.bucketAt (t.indexOf hash key)).depth + 1
  · exact splitTable_spec_grow hInv hglob
  · exact splitTable_spec_rewire hInv hglob

/-- Folding a well-behaved insert function over a list of pairs preserves the
invariant; the lookup afterwards returns the last value bound to the key, or
the original lookup for untouched keys. -/
theorem foldlM_insert_spec {K V : Type} [DecidableEq K] {hash : K → Nat}
    {self : Table K V → K → V → Option (Table K V)}
    (hself : ∀ ta (ka : K) (va : V) ta', self ta ka va = some ta' → Inv hash ta →
      Inv hash ta' ∧ ∀ k'', ta'.find hash k'' =
        if k'' = ka then some va else ta.find hash k'') :
    ∀ (l : List (K × V)) (t t2 : Table K V),
      l.foldlM (fun st (p : K × V) => self st p.1 p.2) t = some t2 → Inv hash t →
      Inv hash t2 ∧ ∀ k'',
        t2.find hash k'' = match l.reverse.find? (fun q => q.1 = k'') with
          | some q => some q.2
          | none => t.find hash k''
  | [], t, t2, h, hInv => by
    have ht : t = t2 := by simpa using h
    subst ht
    exact ⟨hInv, fun k'' => by simp⟩
  | p :: rest, t, t2, h, hInv => by
    rw [List.foldlM_cons] at h
    cases hstep : self t p.1 p.2 with
    | none =>
      rw [hstep] at h
      exact absurd h (by simp)
    | some t1 =>
      rw [hstep] at h
      obtain ⟨hInv1, hfind1⟩ := hself t p.1 p.2 t1 hstep hInv
      obtain ⟨hInv2, hfind2⟩ := foldlM_insert_spec hself rest t1 t2 h hInv1
      refine ⟨hInv2, fun k'' => ?_⟩
      rw [hfind2 k'']
      rw [show (p :: rest).reverse = rest.reverse ++ [p] from by simp]
      rw [find?_key_append]
      cases hr : rest.reverse.find? (fun q => q.1 = k'') with
      | some q => rfl
      | none =>
        rw [Option.none_or]
        dsimp only
        rw [hfind1 k'']
        rw [find?_key_cons]
        by_cases hk : p.1 = k''
        · rw [if_pos hk, if_pos hk.symm]
        · rw [if_neg hk, if_neg (fun hc => hk hc.symm)]
          rfl

/-- `InsertInternal` preserves the directory invariant and, whenever it comes
back, implements the update of the lookup function at exactly the inserted
key. -/
theorem insertInternal_spec {K V : Type} [DecidableEq K] {hash : K → Nat} :
    ∀ (fuel : Nat) (t : Table K V) (key : K) (value : V) (t' : Table K V),
      insertInternal hash fuel t key value = some t' → Inv hash t →
      Inv hash t' ∧ ∀ k',
        t'.find hash k' = if k' = key then some value else t.find hash k'
  | 0, _, _, _, _, h, _ => by cases h
  | fuel + 1, t, key, value, t', h, hInv => by
    rw [show insertInternal hash (fuel + 1) t key value =
      insertStep hash (insertInternal hash fuel) t key value from rfl] at h
    cases hins : (t.bucketAt (t.indexOf hash key)).insert key value with
    | some b' =>
      rw [insertStep_simple _ hins] at h
      obtain rfl := Option.some.inj h
      exact simple_insert_spec hInv hins
    | none =>
      have hi : t.indexOf hash key < t.dir.length := indexOf_lt hInv key
      rw [insertStep_split _ hins] at h
      obtain ⟨hInv1, hnone, hsame, _, _⟩ := @splitTable_spec K V _ hash t key hInv
      cases hfold : (t.bucketAt (t.indexOf hash key)).list.foldlM
          (fun st (p : K × V) => insertInternal hash fuel st p.1 p.2)
          (splitTable hash t key) with
      | none =>
        rw [hfold] at h
        cases h
      | some t2 =>
        rw [hfold] at h
        obtain ⟨hInv2, hfind2⟩ := foldlM_insert_spec
          (fun ta ka va ta' hh hI => insertInternal_spec fuel ta ka va ta' hh hI)
          (t.bucketAt (t.indexOf hash key)).list (splitTable hash t key) t2 hfold hInv1
        obtain ⟨hInv', hfind'⟩ := insertInternal_spec fuel t2 key value t' h hInv2
        refine ⟨hInv', fun k' => ?_⟩
        rw [hfind' k']
        by_cases hk : k' = key
        · rw [if_pos hk, if_pos hk]
        · rw [if_neg hk, if_neg hk]
          rw [hfind2 k']
          cases hr : (t.bucketAt (t.indexOf hash key)).list.reverse.find?
              (fun q => q.1 = k') with
          | some q =>
            have hqmem : q ∈ (t.bucketAt (t.indexOf hash key)).list := by
              have := List.mem_of_find?_eq_some hr
              simpa using this
            have hqk : q.1 = k' := by
              have := List.find?_some hr
              simpa using this
            have hfq : t.find hash k' = some q.2 := by
              rw [← hqk]
              exact find_of_mem hInv hi hqmem
            rw [hfq]
          | none =>
            have hrnone : (t.bucketAt (t.indexOf hash key)).list.find?
                (fun q => q.1 = k') = none := by
              rw [List.find?_eq_none] at hr ⊢
              intro x hx
              exact hr x (by simpa using hx)
            by_cases hmod : hash k' % 2 ^ (t.bucketAt (t.indexOf hash key)).depth =
                hash key % 2 ^ (t.bucketAt (t.indexOf hash key)).depth
            · rw [hnone k' hmod]
              have hfn : t.find hash k' = none := by
                rw [alias_find hInv hmod]
                unfold Bucket.find
                rw [hrnone]
                rfl
              rw [hfn]
            · exact hsame k' hmod

/-- Every completed public operation preserves the directory invariant. -/
theorem applyEHTOp_inv {K V : Type} [DecidableEq K] [DecidableEq V] {hash : K → Nat}
    {t t' : Table K V} {op : EHTOp K V} (h : applyEHTOp hash t op = some t')
    (hInv : Inv hash t) : Inv hash t' := by
  cases op with
  | insertOp fuel k v => exact (insertInternal_spec fuel t k v t' h hInv).1
  | removeOp k =>
    obtain rfl := Option.some.inj h
    exact (remove_spec hInv k).1
  | findOp k =>
    obtain rfl := Option.some.inj h
    exact hInv

/-- Every reachable table satisfies the directory invariant. -/
theorem reachableEHT_inv {K V : Type} [DecidableEq K] [DecidableEq V] {hash : K → Nat}
    {bucketSize : Nat} {t : Table K V}
    (h : ReachableEHT hash bucketSize t) : Inv hash t := by
  induction h with
  | init => exact inv_new hash bucketSize
  | step op _ happ ih => exact applyEHTOp_inv happ ih

/-- A run of operations none of which involves key `k` preserves the
invariant and the lookup at `k`. -/
theorem runEHTOps_preserve {K V : Type} [DecidableEq K] [DecidableEq V]
    {hash : K → Nat} {k : K} :
    ∀ (ops : List (EHTOp K V)) (t1 t2 : Table K V),
      runEHTOps hash t1 ops = some t2 → Inv hash t1 →
      (∀ op ∈ ops, EHTOp.key op ≠ k) →
      Inv hash t2 ∧ t2.find hash k = t1.find hash k
  | [], t1, t2, h, hInv, _ => by
    obtain rfl := Option.some.inj (show some t1 = some t2 from h)
    exact ⟨hInv, rfl⟩
  | op :: ops, t1, t2, h, hInv, hops => by
    rw [show runEHTOps hash t1 (op :: ops) =
      (applyEHTOp hash t1 op).bind (fun tm => runEHTOps hash tm ops) from rfl] at h
    cases happ : applyEHTOp hash t1 op with
    | none =>
      rw [happ] at h
      cases h
    | some tm =>
      rw [happ] at h
      dsimp only [Option.bind] at h
      have hmid : Inv hash tm ∧ tm.find hash k = t1.find hash k := by
        cases op with
        | insertOp fuel ka va =>
          obtain ⟨hI, hf⟩ := insertInternal_spec fuel t1 ka va tm happ hInv
          refine ⟨hI, ?_⟩
          rw [hf k, if_neg (fun he =>
            hops (EHTOp.insertOp fuel ka va) (by simp) he.symm)]
        | removeOp ka =>
          obtain rfl := Option.some.inj happ
          obtain ⟨hI, _, hf⟩ := remove_spec hInv ka
          refine ⟨hI, ?_⟩
          rw [hf k, if_neg (fun he =>
            hops (EHTOp.removeOp ka) (by simp) he.symm)]
        | findOp ka =>
          obtain rfl := Option.some.inj happ
          exact ⟨hInv, rfl⟩
      obtain ⟨hI, hf⟩ := hmid
      obtain ⟨hI2, hf2⟩ :=
        runEHTOps_preserve ops tm t2 h hI (fun o ho => hops o (by simp [ho]))
      exact ⟨hI2, hf2.trans hf⟩

/-- C6: in every table reachable by any sequence of public operations from a
fresh table, every directory slot references a bucket of the arena, and for
every directory slot `i` the set of slots referencing `i`'s bucket (of local
depth `l`) is exactly the set of slots whose low-`l` bits equal `i`'s, and it
has exactly `2 ^ (global_depth - l)` elements. -/
theorem c6_directory_consistency {K V : Type} [DecidableEq K] [DecidableEq V]
    {hash : K → Nat} {bucketSize : Nat} {t : Table K V}
    (hreach : ReachableEHT hash bucketSize t) :
    (∀ j, j < t.dir.length → t.dir.getD j 0 < t.arena.length) ∧
    (∀ i, i < t.dir.length →
      ((Finset.range t.dir.length).filter
          (fun j => t.dir.getD j 0 = t.dir.getD i 0) =
        (Finset.range t.dir.length).filter
          (fun j => j % 2 ^ (t.bucketAt i).depth = i % 2 ^ (t.bucketAt i).depth)) ∧
      ((Finset.range t.dir.length).filter
          (fun j => t.dir.getD j 0 = t.dir.getD i 0)).card =
        2 ^ (t.globalDepth - (t.bucketAt i).depth)) := by
  have hInv := reachableEHT_inv hreach
  refine ⟨hInv.bidLt, ?_⟩
  intro i hi
  have hseteq : (Finset.range t.dir.length).filter
      (fun j => t.dir.getD j 0 = t.dir.getD i 0) =
      (Finset.range t.dir.length).filter
        (fun j => j % 2 ^ (t.bucketAt i).depth = i % 2 ^ (t.bucketAt i).depth) := by
    ext j
    simp only [Finset.mem_filter, Finset.mem_range]
    constructor
    · rintro ⟨hj, hd⟩
      exact ⟨hj, ((hInv.aliasing i j hi hj).mp hd.symm).symm⟩
    · rintro ⟨hj, hm⟩
      exact ⟨hj, ((hInv.aliasing i j hi hj).mpr hm.symm).symm⟩
  refine ⟨hseteq, ?_⟩
  rw [hseteq]
  have hdl : (t.bucketAt i).depth ≤ t.globalDepth := hInv.depthLe i hi
  have hd : i % 2 ^ (t.bucketAt i).depth < 2 ^ (t.bucketAt i).depth :=
    Nat.mod_lt _ (Nat.pos_pow_of_pos _ (by omega))
  rw [hInv.dirLen]
  exact Aux.card_low_bits hdl hd

/-- C6 at a concrete reachable state: the capacity-1 table under the
identity hash after inserting keys 0 and 1, where one split has occurred. -/
theorem c6_directory_consistency_witness :
    (∀ j, j < demoTableSplit.dir.length →
      demoTableSplit.dir.getD j 0 < demoTableSplit.arena.length) ∧
    (∀ i, i < demoTableSplit.dir.length →
      ((Finset.range demoTableSplit.dir.length).filter
          (fun j => demoTableSplit.dir.getD j 0 = demoTableSplit.dir.getD i 0) =
        (Finset.range demoTableSplit.dir.length).filter
          (fun j => j % 2 ^ (demoTableSplit.bucketAt i).depth =
            i % 2 ^ (demoTableSplit.bucketAt i).depth)) ∧
      ((Finset.range demoTableSplit.dir.length).filter
          (fun j => demoTableSplit.dir.getD j 0 = demoTableSplit.dir.getD i 0)).card =
        2 ^ (demoTableSplit.globalDepth - (demoTableSplit.bucketAt i).depth)) :=
  c6_directory_consistency
    (@ReachableEHT.step Nat Nat _ _ idHash 1 demoTable1 demoTableSplit
      (EHTOp.insertOp 10 1 101)
      (@ReachableEHT.step Nat Nat _ _ idHash 1 demoTable0 demoTable1
        (EHTOp.insertOp 10 0 100) ReachableEHT.init (by decide))
      (by decide))

/-- C7: after `insert(k,v)` and any run of completed operations not
involving `k`, `find(k)` returns `v`; insert on a present key overwrites its
value in place — even when the bucket is full — without splitting (the result
only rewrites the item list of `k`'s bucket); and `remove(k)` reports whether
`k` was present, after which `find(k)` is `none` while all other keys are
unaffected. -/
theorem c7_insert_remove_find {K V : Type} [DecidableEq K] [DecidableEq V]
    {hash : K → Nat} {t : Table K V} (hInv : Inv hash t) (k : K) (v : V) :
    (∀ fuel t1 (ops : List (EHTOp K V)) t2, t.insert hash fuel k v = some t1 →
      (∀ op ∈ ops, EHTOp.key op ≠ k) → runEHTOps hash t1 ops = some t2 →
      t2.find hash k = some v) ∧
    (∀ fuel, ((t.bucketAt (t.indexOf hash k)).list.find? (fun q => q.1 = k)).isSome →
      t.insert hash (fuel + 1) k v =
        some { t with arena := (t.arena.set (t.dir.getD (t.indexOf hash k) 0)
          { t.bucketAt (t.indexOf hash k) with
            list := updateFirst (t.bucketAt (t.indexOf hash k)).list k v }) }) ∧
    ((t.remove hash k).1 = (t.find hash k).isSome ∧
      (t.remove hash k).2.find hash k = none ∧
      ∀ k', k' ≠ k → (t.remove hash k).2.find hash k' = t.find hash k') := by
  refine ⟨?_, ?_, ?_, ?_, ?_⟩
  · intro fuel t1 ops t2 hins hops hrun
    obtain ⟨hI1, hf1⟩ := insertInternal_spec fuel t k v t1 hins hInv
    obtain ⟨_, hf2⟩ := runEHTOps_preserve ops t1 t2 hrun hI1 hops
    rw [hf2, hf1 k, if_pos rfl]
  · intro fuel hsome
    show insertInternal hash (fuel + 1) t k v = _
    rw [show insertInternal hash (fuel + 1) t k v =
      insertStep hash (insertInternal hash fuel) t k v from rfl]
    rw [insertStep_simple _ (bucket_insert_overwrite v hsome)]
  · exact (remove_spec hInv k).2.1
  · exact ((remove_spec hInv k).2.2 k).trans (by rw [if_pos rfl])
  · intro k' hk'
    exact ((remove_spec hInv k).2.2 k').trans (by rw [if_neg hk'])

/-- C7 at a concrete input: the fresh capacity-1 table under the identity
hash, key 5, value 55. -/
theorem c7_insert_remove_find_witness :
    (∀ fuel t1 (ops : List (EHTOp Nat Nat)) t2,
      (Table.new Nat Nat 1).insert idHash fuel 5 55 = some t1 →
      (∀ op ∈ ops, EHTOp.key op ≠ 5) → runEHTOps idHash t1 ops = some t2 →
      t2.find idHash 5 = some 55) ∧
    (∀ fuel, (((Table.new Nat Nat 1).bucketAt
        ((Table.new Nat Nat 1).indexOf idHash 5)).list.find?
          (fun q => q.1 = 5)).isSome →
      (Table.new Nat Nat 1).insert idHash (fuel + 1) 5 55 =
        some { Table.new Nat Nat 1 with
          arena := ((Table.new Nat Nat 1).arena.set
            ((Table.new Nat Nat 1).dir.getD ((Table.new Nat Nat 1).indexOf idHash 5) 0)
            { (Table.new Nat Nat 1).bucketAt ((Table.new Nat Nat 1).indexOf idHash 5) with
              list := updateFirst ((Table.new Nat Nat 1).bucketAt
                ((Table.new Nat Nat 1).indexOf idHash 5)).list 5 55 }) }) ∧
    (((Table.new Nat Nat 1).remove idHash 5).1 =
        ((Table.new Nat Nat 1).find idHash 5).isSome ∧
      ((Table.new Nat Nat 1).remove idHash 5).2.find idHash 5 = none ∧
      ∀ k', k' ≠ 5 → ((Table.new Nat Nat 1).remove idHash 5).2.find idHash k' =
        (Table.new Nat Nat 1).find idHash k') :=
  c7_insert_remove_find (inv_new idHash 1) 5 55

/-- A successful bucket insert keeps the capacity and the local depth. -/
theorem insert_some_shape {K V : Type} [DecidableEq K] {b b' : Bucket K V} {k : K}
    {v : V} (h : b.insert k v = some b') : b'.depth = b.depth ∧ b'.size = b.size := by
  unfold Bucket.insert at h
  by_cases hm : (b.list.find? (fun q => q.1 = k)).isSome
  · rw [if_pos hm] at h
    obtain rfl := Option.some.inj h
    exact ⟨rfl, rfl⟩
  · rw [if_neg hm] at h
    by_cases hf : b.isFull
    · rw [if_pos hf] at h
      cases h
    · rw [if_neg hf] at h
      obtain rfl := Option.some.inj h
      exact ⟨rfl, rfl⟩

/-- Filtering pairs by a key predicate has the same length as filtering the
key list. -/
theorem length_filter_fst {K V : Type} (q : K → Bool) :
    ∀ (l : List (K × V)),
      (l.filter (fun p => q p.1)).length = ((l.map Prod.fst).filter q).length
  | [] => rfl
  | p :: l => by
    cases hq : q p.1 <;>
      simp [List.filter_cons, hq, length_filter_fst q l]

/-- A duplicate-free list contained in another list is at most as long. -/
theorem nodup_subset_length {α : Type} [DecidableEq α] {l1 l2 : List α}
    (h1 : l1.Nodup) (hsub : ∀ x ∈ l1, x ∈ l2) : l1.length ≤ l2.length := by
  calc l1.length = l1.toFinset.card := (List.toFinset_card_of_nodup h1).symm
  _ ≤ l2.toFinset.card := Finset.card_le_card (fun x hx =>
      List.mem_toFinset.mpr (hsub x (List.mem_toFinset.mp hx)))
  _ ≤ l2.length := l2.toFinset_card_le

/-- A duplicate-free list contained in a duplicate-free list that has an
extra element is strictly shorter. -/
theorem nodup_subset_length_lt {α : Type} [DecidableEq α] {l1 l2 : List α} {x : α}
    (h1 : l1.Nodup) (h2 : l2.Nodup) (hsub : ∀ y ∈ l1, y ∈ l2) (hx2 : x ∈ l2)
    (hx1 : ¬ x ∈ l1) : l1.length < l2.length := by
  have hcard : l1.toFinset ⊆ l2.toFinset.erase x := by
    intro y hy
    rw [Finset.mem_erase]
    refine ⟨?_, List.mem_toFinset.mpr (hsub y (List.mem_toFinset.mp hy))⟩
    intro he
    exact hx1 (he ▸ List.mem_toFinset.mp hy)
  have h1c : l1.length = l1.toFinset.card := (List.toFinset_card_of_nodup h1).symm
  have h2c : l2.toFinset.card = l2.length := List.toFinset_card_of_nodup h2
  have hxc : 0 < l2.toFinset.card :=
    Finset.card_pos.mpr ⟨x, List.mem_toFinset.mpr hx2⟩
  have hle := Finset.card_le_card hcard
  rw [Finset.card_erase_of_mem (List.mem_toFinset.mpr hx2)] at hle
  omega

/-- After splitting a full bucket, re-inserting its items always takes the
non-splitting path: the redistribution fold comes back, preserves the
invariant and the bucket size, and leaves `key`'s (one-deeper) bucket holding
only items of the old bucket that agree with `key` on one more hash bit. -/
theorem split_retry_state {K V : Type} [DecidableEq K] {hash : K → Nat}
    {t : Table K V} {key : K} {value : V} (hInv : Inv hash t) (m : Nat)
    (hnone : (t.bucketAt (t.indexOf hash key)).insert key value = none) :
    ∃ t2, (t.bucketAt (t.indexOf hash key)).list.foldlM
        (fun st (p : K × V) => insertInternal hash (m + 1) st p.1 p.2)
        (splitTable hash t key) = some t2 ∧
      Inv hash t2 ∧ t2.bucketSize = t.bucketSize ∧
      (t2.bucketAt (t2.indexOf hash key)).depth =
        (t.bucketAt (t.indexOf hash key)).depth + 1 ∧
      (∀ k'', k'' ∈ (t2.bucketAt (t2.indexOf hash key)).list.map Prod.fst →
        k'' ∈ (t.bucketAt (t.indexOf hash key)).list.map Prod.fst ∧
        hash k'' % 2 ^ ((t.bucketAt (t.indexOf hash key)).depth + 1) =
          hash key % 2 ^ ((t.bucketAt (t.indexOf hash key)).depth + 1)) := by
  obtain ⟨hInv1, hnonecl, _, hfresh, hbs1⟩ := @splitTable_spec K V _ hash t key hInv
  have hi : t.indexOf hash key < t.dir.length := indexOf_lt hInv key
  have hkeycl : t.indexOf hash key % 2 ^ (t.bucketAt (t.indexOf hash key)).depth =
      hash key % 2 ^ (t.bucketAt (t.indexOf hash key)).depth :=
    Aux.mod_mod_of_le (hash key) (hInv.depthLe _ hi)
  have hitemcl : ∀ p ∈ (t.bucketAt (t.indexOf hash key)).list,
      hash p.1 % 2 ^ (t.bucketAt (t.indexOf hash key)).depth =
        hash key % 2 ^ (t.bucketAt (t.indexOf hash key)).depth :=
    fun p hp => (hInv.content _ hi p hp).trans hkeycl
  have hstate : ∀ st : Table K V,
      (Inv hash st ∧
       st.globalDepth = (splitTable hash t key).globalDepth ∧
       st.dir = (splitTable hash t key).dir ∧
       st.arena.length = (splitTable hash t key).arena.length ∧
       st.bucketSize = t.bucketSize ∧
       (∀ j, j < st.dir.length →
         (st.bucketAt j).depth = ((splitTable hash t key).bucketAt j).depth) ∧
       (∀ k'', hash k'' % 2 ^ (t.bucketAt (t.indexOf hash key)).depth =
           hash key % 2 ^ (t.bucketAt (t.indexOf hash key)).depth →
         ¬ k'' ∈ (t.bucketAt (t.indexOf hash key)).list.map Prod.fst →
         st.find hash k'' = none)) →
      ∀ k₀, hash k₀ % 2 ^ (t.bucketAt (t.indexOf hash key)).depth =
          hash key % 2 ^ (t.bucketAt (t.indexOf hash key)).depth →
        (st.bucketAt (st.indexOf hash k₀)).depth =
          (t.bucketAt (t.indexOf hash key)).depth + 1 ∧
        (∀ k'', k'' ∈ (st.bucketAt (st.indexOf hash k₀)).list.map Prod.fst →
          k'' ∈ (t.bucketAt (t.indexOf hash key)).list.map Prod.fst ∧
          hash k'' % 2 ^ ((t.bucketAt (t.indexOf hash key)).depth + 1) =
            hash k₀ % 2 ^ ((t.bucketAt (t.indexOf hash key)).depth + 1)) := by
    rintro st ⟨hI, hg, hd, ha, hbsz, hdep, hfn⟩ k₀ hk₀cl
    have hj₀ : st.indexOf hash k₀ < st.dir.length := indexOf_lt hI k₀
    have hidx : st.indexOf hash k₀ = (splitTable hash t key).indexOf hash k₀ := by
      unfold Table.indexOf
      rw [hg]
    have hdx : (st.bucketAt (st.indexOf hash k₀)).depth =
        (t.bucketAt (t.indexOf hash key)).depth + 1 := by
      rw [hdep _ hj₀, hidx, hfresh k₀ hk₀cl]
    refine ⟨hdx, ?_⟩
    intro k'' hk''mem
    obtain ⟨q, hq, hqk⟩ := List.mem_map.mp hk''mem
    have hv : st.find hash k'' = some q.2 := by
      rw [← hqk]
      exact find_of_mem hI hj₀ hq
    have hle : (t.bucketAt (t.indexOf hash key)).depth + 1 ≤ st.globalDepth := by
      have := hI.depthLe _ hj₀
      rw [hdx] at this
      exact this
    have hcontent := hI.content _ hj₀ q hq
    rw [hdx, hqk] at hcontent
    have hj0m : st.indexOf hash k₀ % 2 ^ ((t.bucketAt (t.indexOf hash key)).depth + 1) =
        hash k₀ % 2 ^ ((t.bucketAt (t.indexOf hash key)).depth + 1) :=
      Aux.mod_mod_of_le (hash k₀) hle
    have hcl2 : hash k'' % 2 ^ ((t.bucketAt (t.indexOf hash key)).depth + 1) =
        hash k₀ % 2 ^ ((t.bucketAt (t.indexOf hash key)).depth + 1) :=
      hcontent.trans hj0m
    have hcll : hash k'' % 2 ^ (t.bucketAt (t.indexOf hash key)).depth =
        hash key % 2 ^ (t.bucketAt (t.indexOf hash key)).depth := by
      have hcg := congrArg
        (fun z => z % 2 ^ (t.bucketAt (t.indexOf hash key)).depth) hcl2
      dsimp only at hcg
      rw [Aux.mod_mod_of_le (hash k'') (Nat.le_succ _),
        Aux.mod_mod_of_le (hash k₀) (Nat.le_succ _)] at hcg
      exact hcg.trans hk₀cl
    refine ⟨?_, hcl2⟩
    by_contra hnb
    rw [hfn k'' hcll hnb] at hv
    cases hv
  have hstep : ∀ (x : Table K V) (p : K × V),
      p ∈ (t.bucketAt (t.indexOf hash key)).list →
      (Inv hash x ∧
       x.globalDepth = (splitTable hash t key).globalDepth ∧
       x.dir = (splitTable hash t key).dir ∧
       x.arena.length = (splitTable hash t key).arena.length ∧
       x.bucketSize = t.bucketSize ∧
       (∀ j, j < x.dir.length →
         (x.bucketAt j).depth = ((splitTable hash t key).bucketAt j).depth) ∧
       (∀ k'', hash k'' % 2 ^ (t.bucketAt (t.indexOf hash key)).depth =
           hash key % 2 ^ (t.bucketAt (t.indexOf hash key)).depth →
         ¬ k'' ∈ (t.bucketAt (t.indexOf hash key)).list.map Prod.fst →
         x.find hash k'' = none)) →
      ∃ y, insertInternal hash (m + 1) x p.1 p.2 = some y ∧
      (Inv hash y ∧
       y.globalDepth = (splitTable hash t key).globalDepth ∧
       y.dir = (splitTable hash t key).dir ∧
       y.arena.length = (splitTable hash t key).arena.length ∧
       y.bucketSize = t.bucketSize ∧
       (∀ j, j < y.dir.length →
         (y.bucketAt j).depth = ((splitTable hash t key).bucketAt j).depth) ∧
       (∀ k'', hash k'' % 2 ^ (t.bucketAt (t.indexOf hash key)).depth =
           hash key % 2 ^ (t.bucketAt (t.indexOf hash key)).depth →
         ¬ k'' ∈ (t.bucketAt (t.indexOf hash key)).list.map Prod.fst →
         y.find hash k'' = none)) := by
    intro x p hp hPx
    obtain ⟨hI, hg, hd, ha, hbsz, hdep, hfn⟩ := hPx
    have hpcl : hash p.1 % 2 ^ (t.bucketAt (t.indexOf hash key)).depth =
        hash key % 2 ^ (t.bucketAt (t.indexOf hash key)).depth := hitemcl p hp
    obtain ⟨hdx, hmem⟩ := hstate x ⟨hI, hg, hd, ha, hbsz, hdep, hfn⟩ p.1 hpcl
    have hjx : x.indexOf hash p.1 < x.dir.length := indexOf_lt hI p.1
    have hsucc : ∃ b', (x.bucketAt (x.indexOf hash p.1)).insert p.1 p.2 = some b' := by
      by_cases hm2 : ((x.bucketAt (x.indexOf hash p.1)).list.find?
          (fun q => q.1 = p.1)).isSome
      · exact ⟨_, bucket_insert_overwrite p.2 hm2⟩
      · have hnotin : ¬ p.1 ∈ (x.bucketAt (x.indexOf hash p.1)).list.map Prod.fst :=
          find?_key_eq_none.mp (Option.not_isSome_iff_eq_none.mp hm2)
        have hkn : ((x.bucketAt (x.indexOf hash p.1)).list.map Prod.fst).Nodup :=
          hI.keysNodup _ hjx
        have hbn : ((t.bucketAt (t.indexOf hash key)).list.map Prod.fst).Nodup :=
          hInv.keysNodup _ hi
        have hlt := nodup_subset_length_lt hkn hbn (fun y hy => (hmem y hy).1)
          (List.mem_map.mpr ⟨p, hp, rfl⟩) hnotin
        rw [List.length_map, List.length_map] at hlt
        have hlen : (x.bucketAt (x.indexOf hash p.1)).list.length < t.bucketSize :=
          lt_of_lt_of_le hlt (hInv.capacity _ hi)
        have hBsize : (x.bucketAt (x.indexOf hash p.1)).size = t.bucketSize := by
          rw [hI.sizeEq _ hjx, hbsz]
        have hnful : ¬ (x.bucketAt (x.indexOf hash p.1)).isFull = true := by
          unfold Bucket.isFull
          rw [hBsize]
          simp only [decide_eq_true_eq]
          omega
        exact ⟨_, bucket_insert_append p.2 hm2 hnful⟩
    obtain ⟨b', hins'⟩ := hsucc
    refine ⟨{ x with arena := x.arena.set (x.dir.getD (x.indexOf hash p.1) 0) b' },
      ?_, ?_⟩
    · show insertStep hash (insertInternal hash m) x p.1 p.2 = _
      exact insertStep_simple _ hins'
    · obtain ⟨hI', hfc⟩ := simple_insert_spec hI hins'
      refine ⟨hI', hg, hd, ?_, hbsz, ?_, ?_⟩
      · show (x.arena.set (x.dir.getD (x.indexOf hash p.1) 0) b').length = _
        rw [List.length_set]
        exact ha
      · intro j hj
        rw [bucketAt_set_arena]
        split
        · next hc =>
          rw [(insert_some_shape hins').1, bucketAt_eq_of_dir_eq hc.1]
          exact hdep j hj
        · exact hdep j hj
      · intro k'' hcl hnb
        rw [hfc k'', if_neg ?_]
        · exact hfn k'' hcl hnb
        · intro he
          exact hnb (he ▸ List.mem_map.mpr ⟨p, hp, rfl⟩)
  obtain ⟨t2, hfold, hP2⟩ := @Aux.foldlM_total (Table K V) (K × V)
    (fun st p => insertInternal hash (m + 1) st p.1 p.2)
    (fun st =>
      Inv hash st ∧
      st.globalDepth = (splitTable hash t key).globalDepth ∧
      st.dir = (splitTable hash t key).dir ∧
      st.arena.length = (splitTable hash t key).arena.length ∧
      st.bucketSize = t.bucketSize ∧
      (∀ j, j < st.dir.length →
        (st.bucketAt j).depth = ((splitTable hash t key).bucketAt j).depth) ∧
      (∀ k'', hash k'' % 2 ^ (t.bucketAt (t.indexOf hash key)).depth =
          hash key % 2 ^ (t.bucketAt (t.indexOf hash key)).depth →
        ¬ k'' ∈ (t.bucketAt (t.indexOf hash key)).list.map Prod.fst →
        st.find hash k'' = none))
    (t.bucketAt (t.indexOf hash key)).list (splitTable hash t key)
    ⟨hInv1, rfl, rfl, rfl, hbs1, fun j hj => rfl,
      fun k'' hcl _ => hnonecl k'' hcl⟩ hstep
  obtain ⟨hd2, hm2⟩ := hstate t2 hP2 key rfl
  exact ⟨t2, hfold, hP2.1, hP2.2.2.2.2.1, hd2, hm2⟩

/-- `InsertInternal` comes back successfully whenever fewer than
bucket-capacity stored keys agree with the inserted key on `depth + n` hash
bits, with `n + 1` nested calls sufficing. -/
theorem insert_terminates {K V : Type} [DecidableEq K] {hash : K → Nat} :
    ∀ (n : Nat) (t : Table K V) (key : K) (value : V), Inv hash t →
      ((t.bucketAt (t.indexOf hash key)).list.filter
        (fun p => hash p.1 % 2 ^ ((t.bucketAt (t.indexOf hash key)).depth + n) =
          hash key % 2 ^ ((t.bucketAt (t.indexOf hash key)).depth + n))).length <
        t.bucketSize →
      ∃ t', insertInternal hash (n + 1) t key value = some t'
  | 0, t, key, value, hInv, hcnt => by
    rw [Nat.add_zero] at hcnt
    have hi : t.indexOf hash key < t.dir.length := indexOf_lt hInv key
    have hitemcl : ∀ p ∈ (t.bucketAt (t.indexOf hash key)).list,
        hash p.1 % 2 ^ (t.bucketAt (t.indexOf hash key)).depth =
          hash key % 2 ^ (t.bucketAt (t.indexOf hash key)).depth :=
      fun p hp => (hInv.content _ hi p hp).trans
        (Aux.mod_mod_of_le (hash key) (hInv.depthLe _ hi))
    have hall : (t.bucketAt (t.indexOf hash key)).list.filter
        (fun p => hash p.1 % 2 ^ (t.bucketAt (t.indexOf hash key)).depth =
          hash key % 2 ^ (t.bucketAt (t.indexOf hash key)).depth) =
        (t.bucketAt (t.indexOf hash key)).list := by
      rw [List.filter_eq_self]
      intro p hp
      exact decide_eq_true (hitemcl p hp)
    rw [hall] at hcnt
    have hsucc : ∃ b', (t.bucketAt (t.indexOf hash key)).insert key value = some b' := by
      by_cases hm2 : ((t.bucketAt (t.indexOf hash key)).list.find?
          (fun q => q.1 = key)).isSome
      · exact ⟨_, bucket_insert_overwrite value hm2⟩
      · have hBsize : (t.bucketAt (t.indexOf hash key)).size = t.bucketSize :=
          hInv.sizeEq _ hi
        have hnful : ¬ (t.bucketAt (t.indexOf hash key)).isFull = true := by
          unfold Bucket.isFull
          rw [hBsize]
          simp only [decide_eq_true_eq]
          omega
        exact ⟨_, bucket_insert_append value hm2 hnful⟩
    obtain ⟨b', hins⟩ := hsucc
    exact ⟨_, insertStep_simple (insertInternal hash 0) hins⟩
  | n + 1, t, key, value, hInv, hcnt => by
    cases hins : (t.bucketAt (t.indexOf hash key)).insert key value with
    | some b' =>
      exact ⟨_, insertStep_simple (insertInternal hash (n + 1)) hins⟩
    | none =>
      obtain ⟨t2, hfold, hI2, hbs2, hd2, hm2⟩ := split_retry_state hInv n hins
      have hq : ∀ L : List (K × V),
          (L.filter (fun p =>
            hash p.1 % 2 ^ ((t.bucketAt (t.indexOf hash key)).depth + (n + 1)) =
            hash key % 2 ^ ((t.bucketAt (t.indexOf hash key)).depth + (n + 1)))).length =
          ((L.map Prod.fst).filter (fun k0 =>
            hash k0 % 2 ^ ((t.bucketAt (t.indexOf hash key)).depth + (n + 1)) =
            hash key % 2 ^ ((t.bucketAt (t.indexOf hash key)).depth + (n + 1)))).length :=
        fun L => length_filter_fst (fun k0 =>
          decide (hash k0 % 2 ^ ((t.bucketAt (t.indexOf hash key)).depth + (n + 1)) =
            hash key % 2 ^ ((t.bucketAt (t.indexOf hash key)).depth + (n + 1)))) L
      have hcnt2 : ((t2.bucketAt (t2.indexOf hash key)).list.filter
          (fun p => hash p.1 % 2 ^ ((t2.bucketAt (t2.indexOf hash key)).depth + n) =
            hash key % 2 ^ ((t2.bucketAt (t2.indexOf hash key)).depth + n))).length <
          t2.bucketSize := by
        rw [hd2, hbs2]
        rw [show (t.bucketAt (t.indexOf hash key)).depth + 1 + n =
          (t.bucketAt (t.indexOf hash key)).depth + (n + 1) from by omega]
        calc ((t2.bucketAt (t2.indexOf hash key)).list.filter
              (fun p =>
                hash p.1 % 2 ^ ((t.bucketAt (t.indexOf hash key)).depth + (n + 1)) =
                hash key % 2 ^ ((t.bucketAt (t.indexOf hash key)).depth + (n + 1)))).length
            = (((t2.bucketAt (t2.indexOf hash key)).list.map Prod.fst).filter
              (fun k0 =>
                hash k0 % 2 ^ ((t.bucketAt (t.indexOf hash key)).depth + (n + 1)) =
                hash key % 2 ^ ((t.bucketAt (t.indexOf hash key)).depth + (n + 1)))).length :=
            hq _
          _ ≤ (((t.bucketAt (t.indexOf hash key)).list.map Prod.fst).filter
              (fun k0 =>
                hash k0 % 2 ^ ((t.bucketAt (t.indexOf hash key)).depth + (n + 1)) =
                hash key % 2 ^ ((t.bucketAt (t.indexOf hash key)).depth + (n + 1)))).length := by
            refine nodup_subset_length
              (List.Nodup.filter _ (hI2.keysNodup _ (indexOf_lt hI2 key))) ?_
            intro x hx
            rw [List.mem_filter] at hx ⊢
            exact ⟨(hm2 x hx.1).1, hx.2⟩
          _ = ((t.bucketAt (t.indexOf hash key)).list.filter
              (fun p =>
                hash p.1 % 2 ^ ((t.bucketAt (t.indexOf hash key)).depth + (n + 1)) =
                hash key % 2 ^ ((t.bucketAt (t.indexOf hash key)).depth + (n + 1)))).length :=
            (hq _).symm
          _ < t.bucketSize := hcnt
      obtain ⟨t', hret⟩ := insert_terminates n t2 key value hI2 hcnt2
      refine ⟨t', ?_⟩
      show insertStep hash (insertInternal hash (n + 1)) t key value = some t'
      rw [insertStep_split _ hins, hfold]
      exact hret

/-- Under the all-colliding hash, a capacity-1 table holding key 0 makes the
insert of key 1 recurse forever: splitting never separates the two keys, so
no recursion allowance brings the call back. -/
theorem diverge_aux :
    ∀ (fuel : Nat) (t : Table Nat Nat), Inv constHash t → t.bucketSize = 1 →
      t.find constHash 0 = some 100 → t.find constHash 1 = none →
      insertInternal constHash fuel t 1 101 = none
  | 0, _, _, _, _, _ => rfl
  | fuel + 1, t, hInv, hbs, hf0, hf1 => by
    have hi : t.indexOf constHash 1 < t.dir.length := indexOf_lt hInv 1
    have hb0 : (t.bucketAt (t.indexOf constHash 1)).find 0 = some 100 := hf0
    have hb1 : (t.bucketAt (t.indexOf constHash 1)).find 1 = none := hf1
    have hfq1 : (t.bucketAt (t.indexOf constHash 1)).list.find?
        (fun q => q.1 = 1) = none := by
      unfold Bucket.find at hb1
      exact Option.map_eq_none'.mp hb1
    have hfq0 : ∃ pr, (t.bucketAt (t.indexOf constHash 1)).list.find?
        (fun q => q.1 = 0) = some pr := by
      unfold Bucket.find at hb0
      cases hh : (t.bucketAt (t.indexOf constHash 1)).list.find? (fun q => q.1 = 0) with
      | none =>
        rw [hh] at hb0
        cases hb0
      | some pr => exact ⟨pr, rfl⟩
    obtain ⟨pr, hpr⟩ := hfq0
    have hmem0 : pr ∈ (t.bucketAt (t.indexOf constHash 1)).list :=
      List.mem_of_find?_eq_some hpr
    have hprk : pr.1 = 0 := by simpa using List.find?_some hpr
    have hprv : pr.2 = 100 := by
      unfold Bucket.find at hb0
      rw [hpr] at hb0
      simpa using hb0
    have hpreq : pr = ((0 : Nat), (100 : Nat)) := by
      rw [← hprk, ← hprv]
    have hlen : 1 ≤ (t.bucketAt (t.indexOf constHash 1)).list.length :=
      List.length_pos_of_mem hmem0
    have hfull : (t.bucketAt (t.indexOf constHash 1)).isFull = true := by
      unfold Bucket.isFull
      rw [hInv.sizeEq _ hi, hbs]
      simp only [decide_eq_true_eq]
      exact hlen
    have hins : (t.bucketAt (t.indexOf constHash 1)).insert 1 101 = none := by
      refine bucket_insert_none_iff.mpr ⟨?_, hfull⟩
      rw [hfq1]
      simp
    have hcap : (t.bucketAt (t.indexOf constHash 1)).list.length ≤ 1 := by
      have := hInv.capacity _ hi
      rw [hbs] at this
      exact this
    have hlist : (t.bucketAt (t.indexOf constHash 1)).list = [((0 : Nat), (100 : Nat))] := by
      rw [← hpreq]
      cases hl : (t.bucketAt (t.indexOf constHash 1)).list with
      | nil =>
        rw [hl] at hmem0
        cases hmem0
      | cons a rest =>
        rw [hl] at hmem0 hcap
        cases rest with
        | nil =>
          rw [List.mem_singleton] at hmem0
          rw [hmem0]
        | cons b2 rest2 =>
          simp only [List.length_cons] at hcap
          omega
    obtain ⟨hInv1, hnonecl, _, hfresh, hbs1⟩ :=
      @splitTable_spec Nat Nat _ constHash t 1 hInv
    show insertStep constHash (insertInternal constHash fuel) t 1 101 = none
    rw [insertStep_split _ hins, hlist]
    cases fuel with
    | zero => rfl
    | succ m =>
      have hcl0 : constHash 0 % 2 ^ (t.bucketAt (t.indexOf constHash 1)).depth =
          constHash 1 % 2 ^ (t.bucketAt (t.indexOf constHash 1)).depth := rfl
      have hfr := hfresh 0 hcl0
      have hins0 : ((splitTable constHash t 1).bucketAt
          ((splitTable constHash t 1).indexOf constHash 0)).insert 0 100 =
          some { (splitTable constHash t 1).bucketAt
              ((splitTable constHash t 1).indexOf constHash 0) with
            list := ((splitTable constHash t 1).bucketAt
              ((splitTable constHash t 1).indexOf constHash 0)).list ++ [(0, 100)] } :=
        bucket_insert_append 100 (by rw [hfr]; simp)
          (by rw [hfr]; simp [Bucket.isFull, hbs])
      have hT2pack : ∃ T2,
          insertInternal constHash (m + 1) (splitTable constHash t 1) 0 100 = some T2 ∧
          Inv constHash T2 ∧ T2.bucketSize = 1 ∧
          T2.find constHash 0 = some 100 ∧ T2.find constHash 1 = none := by
        obtain ⟨hI2, hfc2⟩ := simple_insert_spec hInv1 hins0
        exact ⟨_, insertStep_simple (insertInternal constHash m) hins0, hI2,
          hbs1.trans hbs,
          by rw [hfc2 0, if_pos rfl],
          by rw [hfc2 1, if_neg (by decide)]; exact hnonecl 1 rfl⟩
      obtain ⟨T2, hstep1, hI2, hT2bs, hT2f0, hT2f1⟩ := hT2pack
      have hrec := diverge_aux (m + 1) T2 hI2 hT2bs hT2f0 hT2f1
      rw [List.foldlM_cons]
      dsimp only
      rw [hstep1]
      exact hrec

/-- C8 failing input: under the all-colliding hash (more colliding keys than
the bucket capacity 1), inserting key 1 into the one-slot table already
holding key 0 never comes back — the unbounded recursion of `InsertInternal`
diverges for every recursion allowance, and no `CapacityExhausted` failure
path exists anywhere in the code. -/
theorem c8_insert_no_capacity_exhausted_failing_input :
    insertDivergesAt constHash badTable 1 101 := by
  intro fuel
  have h1 : (Table.new Nat Nat 1).insert constHash 10 0 100 = some badTable := by decide
  refine diverge_aux fuel badTable ?_ (by decide) (by decide) (by decide)
  exact (insertInternal_spec 10 (Table.new Nat Nat 1) 0 100 badTable h1
    (inv_new constHash 1)).1

/-- C8 (amended): insert is not always terminating and the code has no
`CapacityExhausted` failure path.  When fewer than bucket-capacity stored
keys agree with the inserted key on `local_depth + n` hash bits, the insert
returns successfully within `n + 1` nested `InsertInternal` calls; but when
the colliding keys exceed the capacity on every prefix (here: the constant
hash with capacity 1), the recursion never comes back, for every allowance. -/
theorem c8_insert_termination :
    (∀ (K V : Type) [DecidableEq K] (hash : K → Nat) (n : Nat) (t : Table K V)
      (key : K) (value : V), Inv hash t →
      ((t.bucketAt (t.indexOf hash key)).list.filter
        (fun p => hash p.1 % 2 ^ ((t.bucketAt (t.indexOf hash key)).depth + n) =
          hash key % 2 ^ ((t.bucketAt (t.indexOf hash key)).depth + n))).length <
        t.bucketSize →
      ∃ t', insertInternal hash (n + 1) t key value = some t') ∧
    (∀ fuel, insertInternal constHash fuel badTable 1 101 = none) := by
  constructor
  · intro K V instK hash n t key value hInv hcnt
    exact @insert_terminates K V instK hash n t key value hInv hcnt
  · intro fuel
    have h1 : (Table.new Nat Nat 1).insert constHash 10 0 100 = some badTable := by
      decide
    refine diverge_aux fuel badTable ?_ (by decide) (by decide) (by decide)
    exact (insertInternal_spec 10 (Table.new Nat Nat 1) 0 100 badTable h1
      (inv_new constHash 1)).1

end EHT

end Theorems
